import Mathlib

/-!
A shallow embedding of the `zermelo-rs` client library (file `src/schedule.rs`)
together with the parts of its environment that its behaviour depends on:

* Rust's `str::replace` (used for the textual field-renaming pass and for
  stripping spaces from the authorization code);
* `serde_json`'s parsing and derived deserialization (the `Appointment`,
  `AuthenticationResponse`, `AppointmentsResponse` structs);
* Rust's `core::slice::sort` pattern-defeating quicksort, which implements
  `sort_unstable_by_key` (the sort used on the fetched appointment list).

HTTP traffic is modelled by passing the outcome of the single network call an
operation performs as an explicit argument (`FetchOutcome`).  Machine integers
(`i64` keys, the `u32` xorshift state of the sort's pattern breaker) are
modelled as `Int`/`Nat` with explicit `% 2 ^ 32` where overflow matters.

All recursion is structural (mostly fuel-based) so every definition evaluates
by `decide`/`rfl` on concrete inputs.
-/

namespace Zermelo

/-! ## List primitives

Rust slice operations.  Reads of indices that are in bounds in every real
execution are modelled with a default on the out-of-bounds case
(`Rust` would panic there; no modelled execution reaches it). -/

/-- Read `v[i]` (Rust would panic out of bounds; modelled with `default`). -/
def getI [Inhabited α] (v : List α) (i : Nat) : α := v.getD i default

/-- Write `v[i] = x` (no-op out of bounds, which no modelled execution hits). -/
def setI (v : List α) (i : Nat) (x : α) : List α := v.set i x

/-- `v.swap(i, j)` on a slice. -/
def swapI [Inhabited α] (v : List α) (i j : Nat) : List α :=
  let a := getI v i
  let b := getI v j
  setI (setI v i b) j a

theorem length_setI (v : List α) (i : Nat) (x : α) : (setI v i x).length = v.length := by
  simp [setI]

theorem length_swapI [Inhabited α] (v : List α) (i j : Nat) :
    (swapI v i j).length = v.length := by
  simp [swapI, length_setI]

/-! ## Rust `str::replace`

`String::replace(self, from, to)` scans left to right and replaces each
non-overlapping occurrence of `from` with `to`.  Implemented on `List Char`
with fuel (the fuel is always instantiated with the length of the input, which
is sufficient because every step consumes at least one character). -/

/-- One left-to-right non-overlapping replacement pass, fuelled. -/
def replaceFuel (pat rep : List Char) : Nat → List Char → List Char
  | 0, cs => cs
  | _ + 1, [] => []
  | fuel + 1, c :: cs =>
    if pat ≠ [] ∧ pat.isPrefixOf (c :: cs) then
      rep ++ replaceFuel pat rep fuel (List.drop pat.length (c :: cs))
    else
      c :: replaceFuel pat rep fuel cs

/-- Rust `str::replace` (total wrapper; our patterns are never empty). -/
def rustReplace (s pat rep : String) : String :=
  String.mk (replaceFuel pat.data rep.data s.data.length s.data)

/-! ## The wire-format renaming table (lines 107–113 of `schedule.rs`) -/

def renamePairs : List (String × String) :=
  [("appointmentInstance", "appointment_instance"),
   ("startTimeSlot", "start_time_slot"),
   ("endTimeSlot", "end_time_slot"),
   ("type", "appointment_type"),
   ("lastModified", "last_modified"),
   ("changeDescription", "change_description"),
   ("branchOfSchool", "branch_of_school")]

/-- The chained `.replace(...)` calls applied to the response body. -/
def renameBody (s : String) : String :=
  renamePairs.foldl (fun acc pr => rustReplace acc pr.1 pr.2) s

/-! ## JSON values and `serde_json` parsing

`serde_json` parses the full response body; we model its value space and its
grammar.  Numbers: the appointment fields are `i64`, so only integer literals
matter; a number with a fraction or exponent is recorded with `isInt = false`
(such a value makes an `i64` field fail to deserialize, which is all the code
can observe; its stored `Int` approximation is never used). -/

inductive Json where
  | null
  | bool (b : Bool)
  | num (n : Int) (isInt : Bool)
  | str (s : String)
  | arr (items : List Json)
  | obj (entries : List (String × Json))

def lbrace : Char := Char.ofNat 123
def rbrace : Char := Char.ofNat 125

/-- JSON whitespace accepted by `serde_json`. -/
def isJsonWs (c : Char) : Bool :=
  c = ' ' ∨ c = '\t' ∨ c = '\n' ∨ c = '\r'

def skipWs : List Char → List Char
  | [] => []
  | c :: cs => if isJsonWs c then skipWs cs else c :: cs

def isDigitC (c : Char) : Bool := '0' ≤ c ∧ c ≤ '9'

def digitVal (c : Char) : Nat := c.toNat - '0'.toNat

/-- Parse a maximal run of digits (returns digits-seen flag via `Option`). -/
def parseDigits : List Char → Nat → Nat × List Char
  | [], acc => (acc, [])
  | c :: cs, acc =>
    if isDigitC c then parseDigits cs (acc * 10 + digitVal c) else (acc, c :: cs)

/-- How many leading digits. -/
def countDigits : List Char → Nat
  | [] => 0
  | c :: cs => if isDigitC c then countDigits cs + 1 else 0

def isHexC (c : Char) : Bool :=
  isDigitC c ∨ ('a' ≤ c ∧ c ≤ 'f') ∨ ('A' ≤ c ∧ c ≤ 'F')

def hexVal (c : Char) : Nat :=
  if isDigitC c then digitVal c
  else if 'a' ≤ c ∧ c ≤ 'f' then c.toNat - 'a'.toNat + 10
  else c.toNat - 'A'.toNat + 10

/-- Parse the body of a JSON string after the opening quote, producing the
decoded characters.  Handles the escape sequences `serde_json` accepts; raw
control characters are rejected, as `serde_json` does. -/
def parseStrBody : List Char → Option (List Char × List Char)
  | [] => none
  | c :: cs =>
    if c = '"' then some ([], cs)
    else if c = '\\' then
      match cs with
      | [] => none
      | e :: rest =>
        let simple : Option Char :=
          if e = '"' then some '"'
          else if e = '\\' then some '\\'
          else if e = '/' then some '/'
          else if e = 'b' then some (Char.ofNat 8)
          else if e = 'f' then some (Char.ofNat 12)
          else if e = 'n' then some '\n'
          else if e = 'r' then some '\r'
          else if e = 't' then some '\t'
          else none
        match simple with
        | some d => (parseStrBody rest).map (fun p => (d :: p.1, p.2))
        | none =>
          if e = 'u' then
            match rest with
            | h1 :: h2 :: h3 :: h4 :: rest2 =>
              if isHexC h1 ∧ isHexC h2 ∧ isHexC h3 ∧ isHexC h4 then
                let code := ((hexVal h1 * 16 + hexVal h2) * 16 + hexVal h3) * 16 + hexVal h4
                (parseStrBody rest2).map (fun p => (Char.ofNat code :: p.1, p.2))
              else none
            | _ => none
          else none
    else if c.toNat < 32 then none
    else (parseStrBody cs).map (fun p => (c :: p.1, p.2))

/-- The digits/fraction/exponent part of a JSON number, after the optional
leading minus sign has been consumed.  Returns the value, whether it is an
integer literal, and the rest. -/
def parseNumberAfterSign (neg : Bool) (cs1 : List Char) : Option (Int × Bool × List Char) :=
  match cs1 with
  | [] => none
  | c :: _ =>
    if ¬ isDigitC c then none
    else if c = '0' ∧ countDigits cs1 > 1 then none  -- leading zero rejected
    else
      let (n, cs2) := parseDigits cs1 0
      -- optional fraction
      let fr : Bool × Bool × List Char :=
        match cs2 with
        | c2 :: ds =>
          if c2 = '.' then (false, countDigits ds > 0, (parseDigits ds 0).2)
          else (true, true, c2 :: ds)
        | [] => (true, true, [])
      let isInt1 := fr.1
      let fracOk := fr.2.1
      let cs3 := fr.2.2
      -- optional exponent
      let ex : Bool × Bool × List Char :=
        match cs3 with
        | c3 :: ds =>
          if c3 = 'e' ∨ c3 = 'E' then
            let ds2 : List Char :=
              match ds with
              | c4 :: t => if c4 = '+' ∨ c4 = '-' then t else c4 :: t
              | [] => []
            (false, countDigits ds2 > 0, (parseDigits ds2 0).2)
          else (true, true, c3 :: ds)
        | [] => (true, true, [])
      if fracOk ∧ ex.2.1 then
        some (if neg then -(n : Int) else (n : Int), isInt1 ∧ ex.1, ex.2.2)
      else none

def parseNumber (cs : List Char) : Option (Int × Bool × List Char) :=
  match cs with
  | c :: rest =>
    if c = '-' then parseNumberAfterSign true rest
    else parseNumberAfterSign false (c :: rest)
  | [] => parseNumberAfterSign false []

mutual

/-- Parse one JSON value (fuelled; fuel bounds the recursion depth). -/
def parseVal : Nat → List Char → Option (Json × List Char)
  | 0, _ => none
  | fuel + 1, cs =>
    match skipWs cs with
    | [] => none
    | c :: rest =>
      if c = 'n' then
        match rest with
        | 'u' :: 'l' :: 'l' :: rest2 => some (.null, rest2)
        | _ => none
      else if c = 't' then
        match rest with
        | 'r' :: 'u' :: 'e' :: rest2 => some (.bool true, rest2)
        | _ => none
      else if c = 'f' then
        match rest with
        | 'a' :: 'l' :: 's' :: 'e' :: rest2 => some (.bool false, rest2)
        | _ => none
      else if c = '"' then
        (parseStrBody rest).map (fun p => (.str (String.mk p.1), p.2))
      else if c = '[' then
        match skipWs rest with
        | [] => (parseItems fuel rest).map (fun p => (.arr p.1, p.2))
        | d :: rest2 =>
          if d = ']' then some (.arr [], rest2)
          else (parseItems fuel rest).map (fun p => (.arr p.1, p.2))
      else if c = lbrace then
        match skipWs rest with
        | [] => none
        | d :: rest2 =>
          if d = rbrace then some (.obj [], rest2)
          else (parseMembers fuel rest).map (fun p => (.obj p.1, p.2))
      else
        (parseNumber (c :: rest)).map (fun p => (.num p.1 p.2.1, p.2.2))

/-- Parse the comma-separated items of a non-empty array, including the
closing bracket. -/
def parseItems : Nat → List Char → Option (List Json × List Char)
  | 0, _ => none
  | fuel + 1, cs =>
    match parseVal fuel cs with
    | none => none
    | some (v, rest) =>
      match skipWs rest with
      | [] => none
      | c :: rest2 =>
        if c = ',' then (parseItems fuel rest2).map (fun p => (v :: p.1, p.2))
        else if c = ']' then some ([v], rest2)
        else none

/-- Parse the members of a non-empty object, including the closing brace. -/
def parseMembers : Nat → List Char → Option (List (String × Json) × List Char)
  | 0, _ => none
  | fuel + 1, cs =>
    match skipWs cs with
    | [] => none
    | c :: rest =>
      if c = '"' then
        match parseStrBody rest with
        | none => none
        | some (key, rest2) =>
          match skipWs rest2 with
          | [] => none
          | d :: rest3 =>
            if d = ':' then
              match parseVal fuel rest3 with
              | none => none
              | some (v, rest4) =>
                match skipWs rest4 with
                | [] => none
                | e :: rest5 =>
                  if e = ',' then
                    (parseMembers fuel rest5).map
                      (fun p => ((String.mk key, v) :: p.1, p.2))
                  else if e = rbrace then some ([(String.mk key, v)], rest5)
                  else none
            else none
      else none

end

/-- `serde_json::from_str` / `from_reader`: a single JSON value with nothing
but whitespace after it. -/
def parseJson (s : String) : Option Json :=
  match parseVal (s.data.length + 1) s.data with
  | some (v, rest) => if skipWs rest = [] then some v else none
  | none => none

end Zermelo

namespace Zermelo

/-! ## The data model

`schedule.rs` does `use appointment::*;` but `appointment.rs` is not part of
the sources available here; only its consumers are. -/

/-- Modelled from the spec: the `Appointment` struct of the missing
`appointment.rs`.  Spec §3 lists the attributes (all optional, integers are
epoch-second / id `i64` values, renamed fields per §6); §6's renaming table
additionally implies the domain fields `appointment_instance`,
`last_modified` and `branch_of_school` (integers).  Derived
`serde::Deserialize` semantics are modelled in `decodeAppointment`. -/
structure Appointment where
  id : Option Int := none
  appointment_instance : Option Int := none
  start : Option Int := none
  «end» : Option Int := none
  start_time_slot : Option Int := none
  end_time_slot : Option Int := none
  subjects : Option (List String) := none
  teachers : Option (List String) := none
  groups : Option (List String) := none
  locations : Option (List String) := none
  appointment_type : Option String := none
  remark : Option String := none
  valid : Option Bool := none
  cancelled : Option Bool := none
  modified : Option Bool := none
  moved : Option Bool := none
  new : Option Bool := none
  change_description : Option String := none
  last_modified : Option Int := none
  branch_of_school : Option Int := none
deriving DecidableEq, Inhabited, Repr

/-- The sort key of line 121: `k.start.unwrap_or(0)`. -/
def sortKey (a : Appointment) : Int := a.start.getD 0

/-- Errors a call can surface (`Box<Error>` in the source erases the type;
the values are what matters).  `scheduleError` is the source's
`ScheduleError(&'static str)`; the other constructors stand for the foreign
error types passed through by `?`. -/
inductive ClientError where
  | scheduleError (msg : String)   -- ScheduleError(&'static str)
  | reqwestError                   -- transport failure from reqwest
  | ioError                        -- read_to_string failure
  | serdeError (msg : String)      -- serde_json decode failure
deriving DecidableEq, Repr

deriving instance DecidableEq for Except

/-- The outcome of one HTTP request, supplied by the environment:
the transport can fail outright, the body read can fail after a status
was received, or a status plus full body text arrives. -/
inductive FetchOutcome where
  | transport
  | readFail (status : Nat)
  | ok (status : Nat) (body : String)
deriving DecidableEq, Repr

/-- The `Schedule` struct (lines 24–32). -/
structure Schedule where
  school : String
  access_token : String
  appointments : List Appointment
deriving DecidableEq, Inhabited, Repr

/-! ## Derived `serde` deserialization

`#[derive(Deserialize)]` without `deny_unknown_fields`: object entries are
visited in order; a known field is decoded by type (an error on mismatch), a
duplicate known field is an error, unknown fields are skipped, fields left
unseen stay `None` (an `Option` field), and a missing non-optional field is an
error.  A present `null` yields `None` for an `Option` field. -/

/-- `i64` deserialization: an integer literal within `i64` range. -/
def decodeI64 : Json → Except String Int
  | .num n true => if -(2 ^ 63) ≤ n ∧ n < 2 ^ 63 then .ok n else .error "number out of i64 range"
  | _ => .error "invalid type: expected i64"

def decodeString : Json → Except String String
  | .str s => .ok s
  | _ => .error "invalid type: expected string"

def decodeBool : Json → Except String Bool
  | .bool b => .ok b
  | _ => .error "invalid type: expected bool"

def decodeStringList : Json → Except String (List String)
  | .arr items =>
    items.foldr
      (fun j acc => do
        let s ← decodeString j
        let rest ← acc
        .ok (s :: rest))
      (.ok [])
  | _ => .error "invalid type: expected array of strings"

/-- `Option<T>`: `null` deserializes to `None`, anything else via `T`. -/
def decodeOpt (f : Json → Except String β) (j : Json) : Except String (Option β) :=
  match j with
  | .null => .ok none
  | _ => (f j).map some

/-- The field names of the (modelled) `Appointment` struct. -/
def appointmentFieldNames : List String :=
  ["id", "appointment_instance", "start", "end", "start_time_slot",
   "end_time_slot", "subjects", "teachers", "groups", "locations",
   "appointment_type", "remark", "valid", "cancelled", "modified", "moved",
   "new", "change_description", "last_modified", "branch_of_school"]

/-- Decode one known field into the record under construction. -/
def setAppointmentField (a : Appointment) (k : String) (v : Json) :
    Except String Appointment :=
  if k = "id" then (decodeOpt decodeI64 v).map (fun x => { a with id := x })
  else if k = "appointment_instance" then
    (decodeOpt decodeI64 v).map (fun x => { a with appointment_instance := x })
  else if k = "start" then (decodeOpt decodeI64 v).map (fun x => { a with start := x })
  else if k = "end" then (decodeOpt decodeI64 v).map (fun x => { a with «end» := x })
  else if k = "start_time_slot" then
    (decodeOpt decodeI64 v).map (fun x => { a with start_time_slot := x })
  else if k = "end_time_slot" then
    (decodeOpt decodeI64 v).map (fun x => { a with end_time_slot := x })
  else if k = "subjects" then
    (decodeOpt decodeStringList v).map (fun x => { a with subjects := x })
  else if k = "teachers" then
    (decodeOpt decodeStringList v).map (fun x => { a with teachers := x })
  else if k = "groups" then
    (decodeOpt decodeStringList v).map (fun x => { a with groups := x })
  else if k = "locations" then
    (decodeOpt decodeStringList v).map (fun x => { a with locations := x })
  else if k = "appointment_type" then
    (decodeOpt decodeString v).map (fun x => { a with appointment_type := x })
  else if k = "remark" then
    (decodeOpt decodeString v).map (fun x => { a with remark := x })
  else if k = "valid" then (decodeOpt decodeBool v).map (fun x => { a with valid := x })
  else if k = "cancelled" then
    (decodeOpt decodeBool v).map (fun x => { a with cancelled := x })
  else if k = "modified" then
    (decodeOpt decodeBool v).map (fun x => { a with modified := x })
  else if k = "moved" then (decodeOpt decodeBool v).map (fun x => { a with moved := x })
  else if k = "new" then (decodeOpt decodeBool v).map (fun x => { a with new := x })
  else if k = "change_description" then
    (decodeOpt decodeString v).map (fun x => { a with change_description := x })
  else if k = "last_modified" then
    (decodeOpt decodeI64 v).map (fun x => { a with last_modified := x })
  else (decodeOpt decodeI64 v).map (fun x => { a with branch_of_school := x })

/-- Fold over the object entries, serde-style. -/
def decodeAppointmentFields :
    List (String × Json) → Appointment → List String → Except String Appointment
  | [], a, _ => .ok a
  | (k, v) :: rest, a, seen =>
    if k ∈ appointmentFieldNames then
      if k ∈ seen then .error ("duplicate field " ++ k)
      else do
        let a2 ← setAppointmentField a k v
        decodeAppointmentFields rest a2 (k :: seen)
    else decodeAppointmentFields rest a seen

def decodeAppointment : Json → Except String Appointment
  | .obj entries => decodeAppointmentFields entries {} []
  | _ => .error "invalid type: expected appointment object"

def decodeAppointmentList : Json → Except String (List Appointment)
  | .arr items =>
    items.foldr
      (fun j acc => do
        let a ← decodeAppointment j
        let rest ← acc
        .ok (a :: rest))
      (.ok [])
  | _ => .error "invalid type: expected array"

/-- Pull a single required field out of an object, serde-derive style
(skip unknown entries, error on a duplicate or a missing field). -/
def requiredField (name : String) :
    List (String × Json) → Option Json → Except String Json
  | [], none => .error ("missing field " ++ name)
  | [], some v => .ok v
  | (k, v) :: rest, acc =>
    if k = name then
      match acc with
      | some _ => .error ("duplicate field " ++ name)
      | none => requiredField name rest (some v)
    else requiredField name rest acc

/-- `AuthenticationResponse { access_token: String }` via `response.json()`. -/
def decodeAuthResponse (body : String) : Except String String :=
  match parseJson body with
  | none => .error "invalid JSON"
  | some (.obj entries) => do
    let v ← requiredField "access_token" entries none
    decodeString v
  | some _ => .error "invalid type: expected object"

/-- `AppointmentsResponse { response: AppointmentsResponseResponse { data } }`
from the already-renamed body text (line 115). -/
def decodeAppointmentsBody (body : String) : Except String (List Appointment) :=
  match parseJson body with
  | none => .error "invalid JSON"
  | some (.obj entries) => do
    let resp ← requiredField "response" entries none
    match resp with
    | .obj inner => do
      let data ← requiredField "data" inner none
      decodeAppointmentList data
    | _ => .error "invalid type: expected object"
  | some _ => .error "invalid type: expected object"

end Zermelo

namespace Zermelo

/-! ## `core::slice::sort` — the pattern-defeating quicksort behind
`sort_unstable_by_key` (translated from the Rust standard library as it stood
in the releases contemporary with this crate; constants `MAX_INSERTION = 20`,
`BLOCK = 128`, `SHORTEST_MEDIAN_OF_MEDIANS = 50`, `MAX_SWAPS = 12`,
`MAX_STEPS = 5`, `SHORTEST_SHIFTING = 50`).  `sort_unstable_by_key(f)` runs
`quicksort(v, |a, b| f(a).lt(&f(b)))`.

Slices are modelled as lists; in-place mutation becomes explicit rebinding.
The hole-shifting loops of `shift_head`/`shift_tail` and the cyclic
permutation of `partition_in_blocks` are translated by their exact sequences
of reads and writes. -/

/-- Walk the reversed initial segment from the old back of the slice,
carrying `x` past every element strictly greater than it
(the comparison sequence of `shift_tail`'s hole loop). -/
def insRev (lt : α → α → Bool) (x : α) : List α → List α
  | [] => [x]
  | y :: ys => if lt x y then y :: insRev lt x ys else x :: y :: ys

/-- `shift_tail`: if the last two elements are out of order, shift the last
element left until it meets a smaller-or-equal element. -/
def shiftTail (lt : α → α → Bool) (w : List α) : List α :=
  match w.reverse with
  | [] => w
  | x :: revInit =>
    match revInit with
    | [] => w
    | y :: _ => if lt x y then (insRev lt x revInit).reverse else w

/-- Walk forward carrying `x` past every element strictly smaller than it
(the comparison sequence of `shift_head`'s hole loop). -/
def insFwd (lt : α → α → Bool) (x : α) : List α → List α
  | [] => [x]
  | y :: ys => if lt y x then y :: insFwd lt x ys else x :: y :: ys

/-- `shift_head`: if the first two elements are out of order, shift the first
element right until it meets a greater-or-equal element. -/
def shiftHead (lt : α → α → Bool) (w : List α) : List α :=
  match w with
  | x :: y :: rest => if lt y x then insFwd lt x (y :: rest) else w
  | _ => w

/-- `insertion_sort`: `for i in 1..len { shift_tail(&mut v[..i+1]) }`.
After step `i` only the first `i+1` positions have been touched, so the
prefix passed to `shift_tail` is the processed prefix plus the next original
element; the loop is that fold (the `i = 0` fold step is the identity, like
the absent `i = 0` loop iteration). -/
def insertionSort (lt : α → α → Bool) (v : List α) : List α :=
  v.foldl (fun acc x => shiftTail lt (acc ++ [x])) []

/-- Advance `l` while `l < r` and `cond v[off + l]` holds (fuelled scan). -/
def scanUp [Inhabited α] (cond : α → Bool) (v : List α) (off : Nat) :
    Nat → Nat → Nat → Nat
  | 0, l, _ => l
  | fuel + 1, l, r =>
    if l < r ∧ cond (getI v (off + l)) then scanUp cond v off fuel (l + 1) r else l

/-- Decrease `r` while `l < r` and `cond v[off + r - 1]` holds. -/
def scanDown [Inhabited α] (cond : α → Bool) (v : List α) (off : Nat) :
    Nat → Nat → Nat → Nat
  | 0, _, r => r
  | fuel + 1, l, r =>
    if l < r ∧ cond (getI v (off + r - 1)) then scanDown cond v off fuel l (r - 1) else r

/-- The descent-finding scan of `partial_insertion_sort`:
advance `i` while `i < len` and `!is_less(v[i], v[i-1])`. -/
def pisScan [Inhabited α] (lt : α → α → Bool) (v : List α) (len : Nat) :
    Nat → Nat → Nat
  | 0, i => i
  | fuel + 1, i =>
    if i < len ∧ ¬ lt (getI v i) (getI v (i - 1)) then pisScan lt v len fuel (i + 1)
    else i

/-- The `MAX_STEPS` loop of `partial_insertion_sort`; `i` persists across
steps.  Returns the (possibly shifted) slice and whether it ended sorted. -/
def pisSteps [Inhabited α] (lt : α → α → Bool) : Nat → List α → Nat → List α × Bool
  | 0, v, _ => (v, false)
  | steps + 1, v, i =>
    let len := v.length
    let i := pisScan lt v len len i
    if i = len then (v, true)
    else if len < 50 then (v, false)
    else
      let v := swapI v (i - 1) i
      let v := shiftTail lt (v.take i) ++ v.drop i
      let v := v.take i ++ shiftHead lt (v.drop i)
      pisSteps lt steps v i

/-- `partial_insertion_sort`. -/
def partialInsertionSort [Inhabited α] (lt : α → α → Bool) (v : List α) :
    List α × Bool :=
  pisSteps lt 5 v 1

/-- `choose_pivot`'s `sort2` closure: swaps the two *index variables* when the
elements they point at are out of order, counting the swap. -/
def cpSort2 [Inhabited α] (lt : α → α → Bool) (v : List α) (a b swaps : Nat) :
    Nat × Nat × Nat :=
  if lt (getI v b) (getI v a) then (b, a, swaps + 1) else (a, b, swaps)

/-- `choose_pivot`'s `sort3` closure. -/
def cpSort3 [Inhabited α] (lt : α → α → Bool) (v : List α) (a b c swaps : Nat) :
    Nat × Nat × Nat × Nat :=
  let p1 := cpSort2 lt v a b swaps
  let p2 := cpSort2 lt v p1.2.1 c p1.2.2
  let p3 := cpSort2 lt v p1.1 p2.1 p2.2.2
  (p3.1, p3.2.1, p2.2.1, p3.2.2)

/-- `choose_pivot`'s `sort_adjacent` closure: the median index among
`a - 1, a, a + 1` (only the middle survives). -/
def cpSortAdjacent [Inhabited α] (lt : α → α → Bool) (v : List α) (a swaps : Nat) :
    Nat × Nat :=
  let q := cpSort3 lt v (a - 1) a (a + 1) swaps
  (q.2.1, q.2.2.2)

/-- `choose_pivot`: returns the (possibly reversed) slice, the pivot index and
the likely-sorted flag. -/
def choosePivot [Inhabited α] (lt : α → α → Bool) (v : List α) :
    List α × Nat × Bool :=
  let len := v.length
  let a := len / 4 * 1
  let b := len / 4 * 2
  let c := len / 4 * 3
  let bs : Nat × Nat :=
    if len ≥ 8 then
      if len ≥ 50 then
        let qa := cpSortAdjacent lt v a 0
        let qb := cpSortAdjacent lt v b qa.2
        let qc := cpSortAdjacent lt v c qb.2
        let q := cpSort3 lt v qa.1 qb.1 qc.1 qc.2
        (q.2.1, q.2.2.2)
      else
        let q := cpSort3 lt v a b c 0
        (q.2.1, q.2.2.2)
    else (b, 0)
  if bs.2 < 12 then (v, bs.1, decide (bs.2 = 0))
  else (v.reverse, len - 1 - bs.1, true)

/-- The swap loop of `partition_equal`, on the inner slice (inner index `i`
is position `1 + i` of the outer slice). -/
def peLoop [Inhabited α] (lt : α → α → Bool) (p : α) :
    Nat → List α → Nat → Nat → List α × Nat
  | 0, v, l, _ => (v, l)
  | fuel + 1, v, l, r =>
    let l := scanUp (fun x => ¬ lt p x) v 1 (r + 1) l r
    let r := scanDown (fun x => lt p x) v 1 (r + 1) l r
    if l ≥ r then (v, l)
    else
      let r := r - 1
      let v := swapI v (1 + l) (1 + r)
      peLoop lt p fuel v (l + 1) r

/-- `partition_equal`: returns the permuted slice and the number of elements
equal to the pivot (`l + 1`, counting the pivot itself). -/
def partitionEqual [Inhabited α] (lt : α → α → Bool) (v : List α) (pivotIdx : Nat) :
    List α × Nat :=
  let v := swapI v 0 pivotIdx
  let p := getI v 0
  let n := v.length - 1
  let q := peLoop lt p (n + 1) v 0 n
  (q.1, q.2 + 1)

/-- Trace a block from the left: offsets `i` with `!is_less(v[l + i], pivot)`. -/
def gatherL [Inhabited α] (lt : α → α → Bool) (p : α) (xs : List α) (base : Nat) :
    Nat → Nat → List Nat
  | 0, _ => []
  | rem + 1, i =>
    if ¬ lt (getI xs (base + i)) p then i :: gatherL lt p xs base rem (i + 1)
    else gatherL lt p xs base rem (i + 1)

/-- Trace a block from the right: offsets `i` with `is_less(v[r - 1 - i], pivot)`. -/
def gatherR [Inhabited α] (lt : α → α → Bool) (p : α) (xs : List α) (r : Nat) :
    Nat → Nat → List Nat
  | 0, _ => []
  | rem + 1, i =>
    if lt (getI xs (r - 1 - i)) p then i :: gatherR lt p xs r rem (i + 1)
    else gatherR lt p xs r rem (i + 1)

/-- The tail of the cyclic permutation: the hole is at `prevR`; each step
fills it from the next left position and re-fills that left position from the
matching right position; the saved first element lands in the last hole. -/
def cycleRest [Inhabited α] (tmp : α) :
    List (Nat × Nat) → List α → Nat → List α
  | [], xs, prevR => setI xs prevR tmp
  | pr :: rest, xs, prevR =>
    let xs := setI xs prevR (getI xs pr.1)
    let xs := setI xs pr.1 (getI xs pr.2)
    cycleRest tmp rest xs pr.2

/-- The cyclic permutation of `partition_in_blocks` exchanging `count`
out-of-order elements; left positions are `l + offset`, right positions are
`r - 1 - offset`. -/
def cycleSwap [Inhabited α] (xs : List α) (l r : Nat) (offsL offsR : List Nat)
    (count : Nat) : List α :=
  match (offsL.take count).map (fun o => l + o),
        (offsR.take count).map (fun o => r - 1 - o) with
  | lp0 :: lps, rp0 :: rps =>
    let tmp := getI xs lp0
    let xs := setI xs lp0 (getI xs rp0)
    cycleRest tmp (lps.zip rps) xs rp0
  | _, _ => xs

/-- Patch-up when the left block still holds offsets: move its remaining
out-of-order elements to the far right (offsets consumed from the back,
passed here already reversed). -/
def fixupL [Inhabited α] : List Nat → List α → Nat → Nat → List α × Nat
  | [], xs, _, r => (xs, r)
  | off :: offs, xs, l, r =>
    let xs := swapI xs (l + off) (r - 1)
    fixupL offs xs l (r - 1)

/-- Patch-up when the right block still holds offsets: move its remaining
out-of-order elements to the far left. -/
def fixupR [Inhabited α] : List Nat → List α → Nat → Nat → List α × Nat
  | [], xs, l, _ => (xs, l)
  | off :: offs, xs, l, r =>
    let xs := swapI xs l (r - 1 - off)
    fixupR offs xs (l + 1) r

/-- The main loop of `partition_in_blocks` over the slice handed to it
(`l`, `r` are indices into that slice).  Returns the permuted slice and the
number of elements smaller than the pivot. -/
def blockLoop [Inhabited α] (lt : α → α → Bool) (p : α) :
    Nat → List α → Nat → Nat → Nat → Nat → List Nat → List Nat → List α × Nat
  | 0, xs, l, _, _, _, _, _ => (xs, l)
  | fuel + 1, xs, l, r, blockL, blockR, offsL, offsR =>
    let isDone := r - l ≤ 2 * 128
    let blocks : Nat × Nat :=
      if isDone then
        let rem := (r - l) - (if offsL ≠ [] ∨ offsR ≠ [] then 128 else 0)
        if offsL ≠ [] then (blockL, rem)
        else if offsR ≠ [] then (rem, blockR)
        else (rem / 2, rem - rem / 2)
      else (blockL, blockR)
    let blockL := blocks.1
    let blockR := blocks.2
    let offsL := if offsL = [] then gatherL lt p xs l blockL 0 else offsL
    let offsR := if offsR = [] then gatherR lt p xs r blockR 0 else offsR
    let count := min offsL.length offsR.length
    let xs := if count > 0 then cycleSwap xs l r offsL offsR count else xs
    let offsL := offsL.drop count
    let offsR := offsR.drop count
    let l := if offsL = [] then l + blockL else l
    let r := if offsR = [] then r - blockR else r
    if isDone then
      if offsL ≠ [] then fixupL offsL.reverse xs l r
      else if offsR ≠ [] then fixupR offsR.reverse xs l r
      else (xs, l)
    else blockLoop lt p fuel xs l r blockL blockR offsL offsR

/-- `partition_in_blocks`. -/
def partitionInBlocks [Inhabited α] (lt : α → α → Bool) (p : α) (seg : List α) :
    List α × Nat :=
  blockLoop lt p (seg.length + 2) seg 0 seg.length 128 128 [] []

/-- `partition`: place the chosen pivot at the front, scan for the first
out-of-order pair, block-partition the middle, then swap the pivot into
place.  Returns the permuted slice, `mid` and the already-partitioned flag. -/
def partitionAt [Inhabited α] (lt : α → α → Bool) (v : List α) (pivotIdx : Nat) :
    List α × Nat × Bool :=
  let v := swapI v 0 pivotIdx
  let p := getI v 0
  let n := v.length - 1
  let l := scanUp (fun x => lt x p) v 1 (n + 1) 0 n
  let r := scanDown (fun x => ¬ lt x p) v 1 (n + 1) l n
  let seg := (v.drop (1 + l)).take (r - l)
  let q := partitionInBlocks lt p seg
  let mid := l + q.2
  let wasP := decide (l ≥ r)
  let v2 := v.take (1 + l) ++ q.1 ++ v.drop (1 + r)
  (swapI v2 0 mid, mid, wasP)

/-- `sift_down` of the fallback heapsort, on the prefix `v[..len]`. -/
def siftDown [Inhabited α] (lt : α → α → Bool) :
    Nat → List α → Nat → Nat → List α
  | 0, xs, _, _ => xs
  | fuel + 1, xs, len, node =>
    let child := 2 * node + 1
    if child ≥ len then xs
    else
      let child :=
        if child + 1 < len ∧ lt (getI xs child) (getI xs (child + 1)) then child + 1
        else child
      if ¬ lt (getI xs node) (getI xs child) then xs
      else siftDown lt fuel (swapI xs node child) len child

/-- The fallback `heapsort`. -/
def heapsort [Inhabited α] (lt : α → α → Bool) (v : List α) : List α :=
  let len := v.length
  let v := ((List.range (len / 2)).reverse).foldl (fun xs i => siftDown lt len xs len i) v
  ((List.range len).drop 1).reverse.foldl
    (fun xs i => siftDown lt len (swapI xs 0 i) i 0) v

/-- One round of the Marsaglia xorshift PRNG on `u32`. -/
def xorshift32 (r : Nat) : Nat :=
  let r := (r ^^^ (r <<< 13)) % 2 ^ 32
  let r := (r ^^^ (r >>> 17)) % 2 ^ 32
  (r ^^^ (r <<< 5)) % 2 ^ 32

/-- `gen_usize` on a 64-bit target: two `gen_u32` draws combined. -/
def genUsize (r : Nat) : Nat × Nat :=
  let r1 := xorshift32 r
  let r2 := xorshift32 r1
  ((r1 <<< 32) ||| r2, r2)

def nextPow2Fuel : Nat → Nat → Nat → Nat
  | 0, p, _ => p
  | fuel + 1, p, n => if p < n then nextPow2Fuel fuel (p * 2) n else p

/-- `usize::next_power_of_two` for the sizes that occur. -/
def nextPow2 (n : Nat) : Nat := nextPow2Fuel 64 1 n

/-- `break_patterns`: scatter three elements near the middle using the
xorshift PRNG seeded with the slice length. -/
def breakPatterns [Inhabited α] (v : List α) : List α :=
  let len := v.length
  if len ≥ 8 then
    let modulus := nextPow2 len
    let pos := len / 4 * 2
    let step := fun (st : List α × Nat) (i : Nat) =>
      let g := genUsize st.2
      let other := g.1 &&& (modulus - 1)
      let other := if other ≥ len then other - len else other
      (swapI st.1 (pos - 1 + i) other, g.2)
    ([0, 1, 2].foldl step (v, len % 2 ^ 32)).1
  else v

/-- `recurse`: the main loop.  The recursion into the shorter side resets the
balance flags (a fresh `recurse` call); the longer side continues the loop
with the updated flags.  The fuel bounds the call depth; every recursive call
is on a strictly shorter slice, so `length + 1` fuel is never exhausted. -/
def pdqLoop [Inhabited α] (lt : α → α → Bool) :
    Nat → List α → Option α → Nat → Bool → Bool → List α
  | 0, v, _, _, _, _ => v
  | fuel + 1, v, pred, limit, wasBalanced, wasPartitioned =>
    let len := v.length
    if len ≤ 20 then insertionSort lt v
    else if limit = 0 then heapsort lt v
    else
      let vl : List α × Nat :=
        if !wasBalanced then (breakPatterns v, limit - 1) else (v, limit)
      let v := vl.1
      let limit := vl.2
      let cp := choosePivot lt v
      let v := cp.1
      let pivotIdx := cp.2.1
      let likelySorted := cp.2.2
      let ps : List α × Bool :=
        if wasBalanced && wasPartitioned && likelySorted then partialInsertionSort lt v
        else (v, false)
      let v := ps.1
      if ps.2 then v
      else
        let predEq : Bool :=
          match pred with
          | some p => !(lt p (getI v pivotIdx))
          | none => false
        if predEq then
          let q := partitionEqual lt v pivotIdx
          q.1.take q.2 ++
            pdqLoop lt fuel (q.1.drop q.2) pred limit wasBalanced wasPartitioned
        else
          let q := partitionAt lt v pivotIdx
          let mid := q.2.1
          let wasP := q.2.2
          let wasBalanced2 := decide (min mid (len - mid) ≥ len / 8)
          let left := q.1.take mid
          match q.1.drop mid with
          | [] => q.1
          | pivotE :: right =>
            if left.length < right.length then
              pdqLoop lt fuel left pred limit true true ++
                pivotE :: pdqLoop lt fuel right (some pivotE) limit wasBalanced2 wasP
            else
              pdqLoop lt fuel left pred limit wasBalanced2 wasP ++
                pivotE :: pdqLoop lt fuel right (some pivotE) limit true true

def bitLenFuel : Nat → Nat → Nat
  | 0, _ => 0
  | fuel + 1, n => if n = 0 then 0 else bitLenFuel fuel (n / 2) + 1

/-- `u64::leading_zeros` of a length (64-bit `usize`). -/
def leadingZeros64 (n : Nat) : Nat := 64 - bitLenFuel 64 n

/-- `core::slice::sort::quicksort` (the `size_of::<T>() == 0` early return
does not apply: `Appointment` is not a zero-sized type). -/
def pdqSort [Inhabited α] (lt : α → α → Bool) (v : List α) : List α :=
  let limit := 64 - leadingZeros64 v.length
  pdqLoop lt (v.length + 1) v none limit true true

/-- `sort_unstable_by_key(f)` = `quicksort(v, |a, b| f(a).lt(&f(b)))`. -/
def sortUnstableByKey [Inhabited α] (key : α → Int) (v : List α) : List α :=
  pdqSort (fun a b => decide (key a < key b)) v

/-! ## The three operations of `Schedule` -/

/-- `Schedule::with_access_token` (lines 75–84): a pure constructor — no
network argument, no error, an empty appointment list. -/
def Schedule.with_access_token (school access_token : String) : Schedule :=
  { school := school, access_token := access_token, appointments := [] }

/-- The token-exchange URL of line 45. -/
def tokenUrl (school : String) : String :=
  "https://" ++ school ++ ".zportal.nl/api/v3/oauth/token"

/-- The form data of line 48: the (misspelled) grant type and the code with
spaces removed (line 47). -/
def Schedule.newPostData (code : String) : List (String × String) :=
  [("grant_type", "autorization_code"), ("code", rustReplace code " " "")]

/-- `Schedule::new` (lines 38–71). -/
def Schedule.new (school code : String) (outcome : FetchOutcome) :
    Except ClientError Schedule :=
  let _url := tokenUrl school
  let _post := Schedule.newPostData code
  match outcome with
  | .transport => .error .reqwestError
  | .readFail status =>
    if status ≠ 200 then .error (.scheduleError "response code is not 200")
    else .error .ioError
  | .ok status body =>
    if status ≠ 200 then .error (.scheduleError "response code is not 200")
    else
      match decodeAuthResponse body with
      | .error e => .error (.serdeError e)
      | .ok access_token =>
        .ok { school := school, access_token := access_token, appointments := [] }

/-- The appointments URL of lines 89–92. -/
def appointmentsUrl (s : Schedule) (start «end» : Int) : String :=
  "https://" ++ s.school ++ ".zportal.nl/api/v3/appointments?user=~me&start=" ++
    toString start ++ "&end=" ++ toString «end» ++ "&access_token=" ++ s.access_token

/-- `Schedule::get_appointments` (lines 88–124).  The first component is the
returned `Result` (`Ok` carries `&Self`, i.e. the updated client); the second
is the state of `self` after the call. -/
def Schedule.get_appointments (s : Schedule) (start «end» : Int)
    (outcome : FetchOutcome) : Except ClientError Schedule × Schedule :=
  let _url := appointmentsUrl s start «end»
  match outcome with
  | .transport => (.error .reqwestError, s)
  | .readFail status =>
    if status ≠ 200 then (.error (.scheduleError "response code is not 200"), s)
    else (.error .ioError, s)
  | .ok status body =>
    if status ≠ 200 then (.error (.scheduleError "response code is not 200"), s)
    else
      match decodeAppointmentsBody (renameBody body) with
      | .error e => (.error (.serdeError e), s)
      | .ok data =>
        let s2 := { s with appointments := sortUnstableByKey sortKey data }
        (.ok s2, s2)

end Zermelo

namespace Zermelo

/-! ## Helper lemmas about the operations -/

/-- On every outcome, the post-call state keeps `school` and `access_token`,
and a returned `Ok` carries exactly the post-call state (`&Self`). -/
theorem get_appointments_frame (s : Schedule) (st en : Int) (o : FetchOutcome) :
    (s.get_appointments st en o).2.school = s.school ∧
    (s.get_appointments st en o).2.access_token = s.access_token ∧
    ∀ s₂, (s.get_appointments st en o).1 = .ok s₂ → s₂ = (s.get_appointments st en o).2 := by
  cases o with
  | transport => exact ⟨rfl, rfl, by simp [Schedule.get_appointments]⟩
  | readFail status =>
    by_cases h2 : status ≠ 200 <;>
      simp [Schedule.get_appointments, h2]
  | ok status body =>
    by_cases h2 : status ≠ 200
    · simp [Schedule.get_appointments, h2]
    · cases h3 : decodeAppointmentsBody (renameBody body) with
      | error msg => simp [Schedule.get_appointments, h2, h3]
      | ok data => simp [Schedule.get_appointments, h2, h3]

/-- A returned error leaves the stored state untouched. -/
theorem get_appointments_error_frame (s : Schedule) (st en : Int) (o : FetchOutcome)
    (e : ClientError) (h : (s.get_appointments st en o).1 = .error e) :
    (s.get_appointments st en o).2 = s := by
  cases o with
  | transport => rfl
  | readFail status =>
    by_cases h2 : status ≠ 200 <;> simp [Schedule.get_appointments, h2]
  | ok status body =>
    by_cases h2 : status ≠ 200
    · simp [Schedule.get_appointments, h2]
    · cases h3 : decodeAppointmentsBody (renameBody body) with
      | error msg => simp [Schedule.get_appointments, h2, h3]
      | ok data => simp [Schedule.get_appointments, h2, h3] at h

/-- Every failing outcome shape produces an error result. -/
theorem get_appointments_failing_outcomes (s : Schedule) (st en : Int) :
    ((s.get_appointments st en .transport).1 = .error .reqwestError) ∧
    (∀ status, (s.get_appointments st en (.readFail status)).1 =
      .error (if status ≠ 200 then .scheduleError "response code is not 200" else .ioError)) ∧
    (∀ status body, status ≠ 200 →
      (s.get_appointments st en (.ok status body)).1 =
        .error (.scheduleError "response code is not 200")) ∧
    (∀ body msg, decodeAppointmentsBody (renameBody body) = .error msg →
      (s.get_appointments st en (.ok 200 body)).1 = .error (.serdeError msg)) := by
  refine ⟨rfl, ?_, ?_, ?_⟩
  · intro status
    by_cases h2 : status ≠ 200 <;> simp [Schedule.get_appointments, h2]
  · intro status body h2
    simp [Schedule.get_appointments, h2]
  · intro body msg h3
    simp [Schedule.get_appointments, h3]

/-- A demonstration client whose stored list is non-empty. -/
def demoSchedule : Schedule :=
  { school := "example", access_token := "tok",
    appointments := [{ id := some 7, start := some 3 }] }

/-- C3: `get_appointments` is atomic on failure — whenever the call returns an
error (which it does on a transport failure, a read failure, a non-200
status, and a JSON-decode failure), the stored client state — in particular
the previously stored appointment list — is exactly what it was before the
call. -/
theorem c3_atomic_on_failure (s : Schedule) (st en : Int) (o : FetchOutcome) :
    (∀ e, (s.get_appointments st en o).1 = .error e →
      (s.get_appointments st en o).2 = s) ∧
    (o = .transport → ∃ e, (s.get_appointments st en o).1 = .error e) ∧
    (∀ status, o = .readFail status → ∃ e, (s.get_appointments st en o).1 = .error e) ∧
    (∀ status body, o = .ok status body → status ≠ 200 →
      ∃ e, (s.get_appointments st en o).1 = .error e) ∧
    (∀ body msg, o = .ok 200 body → decodeAppointmentsBody (renameBody body) = .error msg →
      ∃ e, (s.get_appointments st en o).1 = .error e) := by
  refine ⟨fun e h => get_appointments_error_frame s st en o e h, ?_, ?_, ?_, ?_⟩
  · rintro rfl
    exact ⟨_, (get_appointments_failing_outcomes s st en).1⟩
  · rintro status rfl
    exact ⟨_, (get_appointments_failing_outcomes s st en).2.1 status⟩
  · rintro status body rfl h2
    exact ⟨_, (get_appointments_failing_outcomes s st en).2.2.1 status body h2⟩
  · rintro body msg rfl h3
    exact ⟨_, (get_appointments_failing_outcomes s st en).2.2.2 body msg h3⟩

/-- C3 witness: a concrete failing call (status 500) on a client with a
non-empty stored list returns an error and leaves the state unchanged. -/
theorem c3_witness :
    (demoSchedule.get_appointments 0 1 (.ok 500 "ignored")).2 = demoSchedule :=
  (c3_atomic_on_failure demoSchedule 0 1 (.ok 500 "ignored")).1
    (.scheduleError "response code is not 200") (by decide)

/-- C9: on every outcome — success or failure — `get_appointments` leaves
`school` and `access_token` unchanged; the only field it ever writes is
`appointments` (a returned `Ok` is exactly the post-call state). -/
theorem c9_frame (s : Schedule) (st en : Int) (o : FetchOutcome) :
    (s.get_appointments st en o).2.school = s.school ∧
    (s.get_appointments st en o).2.access_token = s.access_token ∧
    ∀ s₂, (s.get_appointments st en o).1 = .ok s₂ →
      s₂.school = s.school ∧ s₂.access_token = s.access_token := by
  obtain ⟨h1, h2, h3⟩ := get_appointments_frame s st en o
  exact ⟨h1, h2, fun s₂ h => by rw [h3 s₂ h]; exact ⟨h1, h2⟩⟩

/-- C9 witness: a concrete successful call keeps `school`/`access_token`. -/
theorem c9_witness :
    ((demoSchedule.get_appointments 0 1
        (.ok 200 "\x7b\"response\":\x7b\"data\":[]\x7d\x7d")).2.school = "example") ∧
    ((demoSchedule.get_appointments 0 1
        (.ok 200 "\x7b\"response\":\x7b\"data\":[]\x7d\x7d")).2.access_token = "tok") :=
  ⟨(c9_frame demoSchedule 0 1 _).1.trans (by decide),
   (c9_frame demoSchedule 0 1 _).2.1.trans (by decide)⟩

/-- C7: `with_access_token` is a pure constructor (it takes no network
outcome and returns `Schedule`, not a `Result`): the client holds exactly the
given school, the given access token and an empty appointment list. -/
theorem c7_with_access_token_pure (school access_token : String) :
    (Schedule.with_access_token school access_token).school = school ∧
    (Schedule.with_access_token school access_token).access_token = access_token ∧
    (Schedule.with_access_token school access_token).appointments = [] :=
  ⟨rfl, rfl, rfl⟩

/-- C8: the token-exchange form always contains the literal misspelled
`"autorization_code"` as the `grant_type` value, together with the cleaned
code. -/
theorem c8_misspelled_grant_type (code : String) :
    ("grant_type", "autorization_code") ∈ Schedule.newPostData code ∧
    ("code", rustReplace code " " "") ∈ Schedule.newPostData code ∧
    (Schedule.newPostData code).map Prod.fst = ["grant_type", "code"] :=
  ⟨List.mem_cons_self .., List.mem_cons_of_mem _ (List.mem_cons_self ..), rfl⟩

/-- C5 counterexample: a 404 on the token exchange and a 500 on the fetch
produce the *same* error value — the static `ScheduleError` with message
"response code is not 200" — so the two error kinds are not distinct and the
status code is not recoverable from the error. -/
theorem c5_counterexample :
    Schedule.new "s" "c" (.ok 404 "") =
      .error (.scheduleError "response code is not 200") ∧
    (demoSchedule.get_appointments 0 1 (.ok 500 "")).1 =
      .error (.scheduleError "response code is not 200") := by
  constructor <;> rfl

/-- C5 amended: every non-200 status, on either operation, produces the one
static `ScheduleError "response code is not 200"`; no status code and no
operation identity is carried in the error. -/
theorem c5_amended (school code : String) (s : Schedule) (st en : Int)
    (status : Nat) (body : String) (h : status ≠ 200) :
    Schedule.new school code (.ok status body) =
      .error (.scheduleError "response code is not 200") ∧
    (s.get_appointments st en (.ok status body)).1 =
      .error (.scheduleError "response code is not 200") := by
  constructor
  · simp [Schedule.new, h]
  · simp [Schedule.get_appointments, h]

/-- C5 witness: the amended statement at status 404. -/
theorem c5_amended_witness :
    Schedule.new "s" "c" (.ok 404 "") =
      .error (.scheduleError "response code is not 200") ∧
    (demoSchedule.get_appointments 0 1 (.ok 404 "")).1 =
      .error (.scheduleError "response code is not 200") :=
  c5_amended "s" "c" demoSchedule 0 1 404 "" (by decide)

end Zermelo

namespace Zermelo

/-! ## C6: what `code.replace(" ", "")` actually strips -/

theorem replaceFuel_space_filter (fuel : Nat) :
    ∀ cs : List Char, cs.length ≤ fuel →
      replaceFuel [' '] [] fuel cs = cs.filter (fun c => c ≠ ' ') := by
  induction fuel with
  | zero =>
    intro cs h
    have : cs = [] := List.eq_nil_of_length_eq_zero (Nat.le_zero.mp h)
    subst this; rfl
  | succ n ih =>
    intro cs h
    cases cs with
    | nil => rfl
    | cons c cs' =>
      have h' : cs'.length ≤ n := Nat.le_of_succ_le_succ h
      by_cases hc : c = ' '
      · subst hc
        simp [replaceFuel, List.isPrefixOf, ih cs' h']
      · have hc2 : ¬ (' ' = c) := fun h2 => hc h2.symm
        simp [replaceFuel, List.isPrefixOf, hc, hc2, ih cs' h']

/-- C6 counterexample: for the code `"a\tb"` the form data sent still
contains the tab — a whitespace character — so the claim that *all*
whitespace is stripped before sending is false (only the space character
`' '` is removed by `code.replace(" ", "")`). -/
theorem c6_counterexample :
    Schedule.newPostData "a\tb" =
      [("grant_type", "autorization_code"), ("code", "a\tb")] ∧
    '\t' ∈ ("a\tb").data ∧ '\t'.isWhitespace = true := by
  refine ⟨by decide, by decide, by decide⟩

/-- C6 amended: `Schedule::new` strips exactly the space characters (U+0020)
from the code before sending it — the sent code is the input code with every
`' '` removed and all other characters (including other whitespace) kept in
order. -/
theorem c6_amended_strip_spaces (code : String) :
    rustReplace code " " "" = String.mk (code.data.filter (fun c => c ≠ ' ')) ∧
    ("code", rustReplace code " " "") ∈ Schedule.newPostData code := by
  constructor
  · show String.mk (replaceFuel " ".data "".data code.data.length code.data) = _
    rw [show " ".data = [' '] from rfl, show "".data = ([] : List Char) from rfl,
      replaceFuel_space_filter code.data.length code.data (Nat.le_refl _)]
  · exact List.mem_cons_of_mem _ (List.mem_cons_self ..)

/-! ## C2 and C4 counterexamples -/

/-- A response whose single appointment has the *value* `"type"` in its
`remark` field. -/
def c2Body : String :=
  "\x7b\"response\":\x7b\"data\":[\x7b\"id\":1,\"remark\":\"type\",\"start\":10\x7d]\x7d\x7d"

/-- C2 counterexample: the renaming pass rewrites the string *value*
`"type"` of the `remark` field to `"appointment_type"`, so field values do
not all pass through unchanged (the record count and the field names are
intact here; the value is corrupted). -/
theorem c2_counterexample :
    (demoSchedule.get_appointments 0 1 (.ok 200 c2Body)).2.appointments =
      [{ id := some 1, remark := some "appointment_type", start := some 10 }] ∧
    ¬ ((demoSchedule.get_appointments 0 1 (.ok 200 c2Body)).2.appointments.map
        Appointment.remark = [some "type"]) := by
  exact ⟨by decide, by decide⟩

/-- A response with a present `start` of `0` before a record with no
`start`. -/
def c4Body : String :=
  "\x7b\"response\":\x7b\"data\":[\x7b\"id\":1,\"start\":0\x7d,\x7b\"id\":2\x7d]\x7d\x7d"

/-- C4 counterexample: the record with the missing `start` sorts with key 0,
equal to the key of the record whose `start` is present and 0, and stays
*behind* it — so a missing-start record does not in general appear before
every record whose `start` is present. -/
theorem c4_counterexample :
    (demoSchedule.get_appointments 0 1 (.ok 200 c4Body)).2.appointments =
      [{ id := some 1, start := some 0 }, { id := some 2 }] ∧
    ((demoSchedule.get_appointments 0 1 (.ok 200 c4Body)).2.appointments.map
      Appointment.start) = [some 0, none] := by
  exact ⟨by decide, by decide⟩

/-! ## The C1 counterexample: 21 records, two of them with equal keys -/

def c1Record (st id : Int) : String :=
  "\x7b\"start\":" ++ toString st ++ ",\"id\":" ++ toString id ++ "\x7d"

/-- 21 records; the two records with `start = 5` carry ids 100 (first in the
response) and 200 (eleventh).  21 exceeds the `MAX_INSERTION = 20` cutoff, so
`sort_unstable_by_key` takes the quicksort path, whose pivot swaps reorder
the two equal-key records. -/
def c1Body : String :=
  "\x7b\"response\":\x7b\"data\":[" ++
    String.intercalate ","
      [c1Record 5 100, c1Record 4 1, c1Record 4 2, c1Record 3 3, c1Record 3 4,
       c1Record 2 5, c1Record 2 6, c1Record 1 7, c1Record 1 8, c1Record 0 9,
       c1Record 5 200, c1Record 6 11, c1Record 7 12, c1Record 8 13, c1Record 9 14,
       c1Record 10 15, c1Record 11 16, c1Record 12 17, c1Record 13 18, c1Record 14 19,
       c1Record 15 20] ++ "]\x7d\x7d"

set_option maxRecDepth 100000 in
/-- C1 counterexample: in the decoded response the two appointments with sort
key 5 appear in the order id 100, id 200, but in the returned/stored sorted
list they appear as id 200, id 100 — equal-key appointments do not retain
their relative order, so the sort is not stable. -/
theorem c1_counterexample :
    (decodeAppointmentsBody (renameBody c1Body)).map
        (fun l => (l.filter (fun a => sortKey a = 5)).map (fun a => a.id)) =
      .ok [some 100, some 200] ∧
    ((demoSchedule.get_appointments 0 1 (.ok 200 c1Body)).2.appointments.filter
        (fun a => sortKey a = 5)).map (fun a => a.id) = [some 200, some 100] := by
  exact ⟨by decide, by decide⟩

end Zermelo

namespace Zermelo

/-! ## Insertion sort: the path taken for slices of at most 20 elements

`recurse` dispatches any slice of length ≤ `MAX_INSERTION = 20` straight to
`insertion_sort`.  We prove that this path sorts by the key and is stable. -/

theorem shiftTail_append (lt : α → α → Bool) (acc : List α) (x : α) :
    shiftTail lt (acc ++ [x]) = (insRev lt x acc.reverse).reverse := by
  have hw : (acc ++ [x]).reverse = x :: acc.reverse := by simp
  unfold shiftTail
  rw [hw]
  rcases h : acc.reverse with _ | ⟨y, ys⟩
  · have : acc = [] := by simpa using congrArg List.reverse h
    subst this
    simp [insRev]
  · by_cases hlt : lt x y
    · simp [hlt]
    · have hacc : acc = (y :: ys).reverse := by
        have := congrArg List.reverse h
        simpa using this
      simp [hlt, insRev, hacc]

theorem filter_insRev_pos (lt : α → α → Bool) (p : α → Bool) (x : α)
    (hx : p x = true) :
    ∀ l : List α, (∀ y ∈ l, lt x y = true → p y = false) →
      (insRev lt x l).filter p = x :: l.filter p := by
  intro l
  induction l with
  | nil => intro _; simp [insRev, hx]
  | cons y ys ih =>
    intro h
    by_cases hlt : lt x y
    · have hy : p y = false := h y (List.mem_cons_self ..) hlt
      simp [insRev, hlt, hy, ih fun z hz => h z (List.mem_cons_of_mem _ hz)]
    · simp [insRev, hlt, hx]

theorem filter_insRev_neg (lt : α → α → Bool) (p : α → Bool) (x : α)
    (hx : p x = false) :
    ∀ l : List α, (insRev lt x l).filter p = l.filter p := by
  intro l
  induction l with
  | nil => simp [insRev, hx]
  | cons y ys ih =>
    by_cases hlt : lt x y
    · simp [insRev, hlt, List.filter_cons, ih]
    · simp [insRev, hlt, hx]

/-- One insertion step preserves every key-class filter (no ordering
hypothesis needed: the elements the inserted one passes have strictly larger
keys, hence lie in a different key class). -/
theorem filter_shiftTail_append (key : α → Int) (k : Int) (acc : List α) (x : α) :
    (shiftTail (fun a b => decide (key a < key b)) (acc ++ [x])).filter
        (fun a => decide (key a = k)) =
      (acc ++ [x]).filter (fun a => decide (key a = k)) := by
  rw [shiftTail_append]
  rw [List.filter_reverse]
  by_cases hx : key x = k
  · rw [filter_insRev_pos _ _ x (by simp [hx])]
    · simp [List.filter_reverse, List.filter_append, List.filter_cons, hx]
    · intro y _ hlt
      have : key x < key y := of_decide_eq_true hlt
      simp only [decide_eq_false_iff_not]
      omega
  · rw [filter_insRev_neg _ _ x (by simp [hx])]
    simp [List.filter_reverse, hx]

/-- `insertion_sort` is stable: it preserves the subsequence of every key
class. -/
theorem insertionSort_stable (key : α → Int) (k : Int) (v : List α) :
    (insertionSort (fun a b => decide (key a < key b)) v).filter
        (fun a => decide (key a = k)) =
      v.filter (fun a => decide (key a = k)) := by
  suffices h : ∀ acc : List α,
      (v.foldl (fun acc x => shiftTail (fun a b => decide (key a < key b)) (acc ++ [x])) acc).filter
          (fun a => decide (key a = k)) =
        acc.filter (fun a => decide (key a = k)) ++ v.filter (fun a => decide (key a = k)) by
    simpa using h []
  induction v with
  | nil => intro acc; simp
  | cons x xs ih =>
    intro acc
    rw [List.foldl_cons, ih, filter_shiftTail_append]
    cases hpx : decide (key x = k) <;>
      simp [List.filter_append, List.filter_cons, hpx]

theorem mem_insRev (lt : α → α → Bool) (x : α) :
    ∀ l : List α, ∀ z ∈ insRev lt x l, z = x ∨ z ∈ l := by
  intro l
  induction l with
  | nil => intro z hz; simp [insRev] at hz; exact Or.inl hz
  | cons y ys ih =>
    intro z hz
    by_cases hlt : lt x y
    · simp only [insRev, hlt, if_pos] at hz
      rcases List.mem_cons.mp hz with h | h
      · exact Or.inr (by simp [h])
      · rcases ih z h with h2 | h2
        · exact Or.inl h2
        · exact Or.inr (List.mem_cons_of_mem _ h2)
    · simp only [insRev, hlt, if_neg, Bool.false_eq_true, not_false_iff] at hz
      rcases List.mem_cons.mp hz with h | h
      · exact Or.inl h
      · exact Or.inr h

/-- Inserting into a reverse-sorted (non-increasing keys) list keeps it
reverse-sorted. -/
theorem insRev_revSorted (key : α → Int) (x : α) :
    ∀ l : List α, List.Pairwise (fun a b => key b ≤ key a) l →
      List.Pairwise (fun a b => key b ≤ key a)
        (insRev (fun a b => decide (key a < key b)) x l) := by
  intro l
  induction l with
  | nil => intro _; simp [insRev]
  | cons y ys ih =>
    intro h
    rcases List.pairwise_cons.mp h with ⟨hy, hys⟩
    by_cases hlt : decide (key x < key y) = true
    · have hxy : key x < key y := of_decide_eq_true hlt
      simp only [insRev, hlt, if_pos]
      refine List.pairwise_cons.mpr ⟨?_, ih hys⟩
      intro z hz
      rcases mem_insRev _ x ys z hz with h2 | h2
      · subst h2; omega
      · exact hy z h2
    · have hyx : key y ≤ key x := by
        have := of_decide_eq_false (Bool.of_not_eq_true hlt)
        omega
      simp only [insRev, hlt, if_neg, Bool.false_eq_true, not_false_iff]
      refine List.pairwise_cons.mpr ⟨?_, h⟩
      intro z hz
      rcases List.mem_cons.mp hz with h2 | h2
      · subst h2; exact hyx
      · exact le_trans (hy z h2) hyx

/-- One insertion step keeps the accumulator sorted by the key. -/
theorem shiftTail_append_sorted (key : α → Int) (acc : List α) (x : α)
    (h : List.Pairwise (fun a b => key a ≤ key b) acc) :
    List.Pairwise (fun a b => key a ≤ key b)
      (shiftTail (fun a b => decide (key a < key b)) (acc ++ [x])) := by
  rw [shiftTail_append]
  rw [List.pairwise_reverse]
  exact insRev_revSorted key x acc.reverse (by rwa [List.pairwise_reverse])

/-- `insertion_sort` sorts by the key. -/
theorem insertionSort_sorted (key : α → Int) (v : List α) :
    List.Pairwise (fun a b => key a ≤ key b)
      (insertionSort (fun a b => decide (key a < key b)) v) := by
  suffices h : ∀ acc : List α, List.Pairwise (fun a b => key a ≤ key b) acc →
      List.Pairwise (fun a b => key a ≤ key b)
        (v.foldl (fun acc x => shiftTail (fun a b => decide (key a < key b)) (acc ++ [x])) acc) by
    exact h [] (by simp)
  induction v with
  | nil => intro acc hacc; simpa using hacc
  | cons x xs ih =>
    intro acc hacc
    rw [List.foldl_cons]
    exact ih _ (shiftTail_append_sorted key acc x hacc)

/-- For at most `MAX_INSERTION = 20` elements, `sort_unstable_by_key` is
exactly `insertion_sort`. -/
theorem sortUnstableByKey_short [Inhabited α] (key : α → Int) (v : List α)
    (h : v.length ≤ 20) :
    sortUnstableByKey key v =
      insertionSort (fun a b => decide (key a < key b)) v := by
  show pdqLoop _ (v.length + 1) v none _ true true = _
  rw [pdqLoop]
  simp [h]

end Zermelo

namespace Zermelo

/-- C1 amended: `sort_unstable_by_key` is not stable in general (see the
counterexample with 21 records), but for every fetched response whose decoded
record list has at most 20 appointments the sort takes the insertion-sort
path and equal-key appointments (missing `start` counting as 0) do retain
their relative order from the response. -/
theorem c1_amended_stable_upto20 (s : Schedule) (st en : Int) (body : String)
    (data : List Appointment) (k : Int)
    (h : decodeAppointmentsBody (renameBody body) = .ok data)
    (hlen : data.length ≤ 20) :
    ((s.get_appointments st en (.ok 200 body)).2.appointments.filter
        (fun a => decide (sortKey a = k))) =
      data.filter (fun a => decide (sortKey a = k)) := by
  have heq : (s.get_appointments st en (.ok 200 body)).2.appointments =
      sortUnstableByKey sortKey data := by
    simp [Schedule.get_appointments, h]
  rw [heq, sortUnstableByKey_short _ _ hlen, insertionSort_stable]

/-- C1 amended witness: a concrete 3-record response with two equal-key
records (ids 1 and 3, key 1) whose relative order is preserved. -/
theorem c1_amended_witness :
    ((demoSchedule.get_appointments 0 1
        (.ok 200 "\x7b\"response\":\x7b\"data\":[\x7b\"id\":1,\"start\":1\x7d,\x7b\"id\":2\x7d,\x7b\"id\":3,\"start\":1\x7d]\x7d\x7d")).2.appointments.filter
        (fun a => decide (sortKey a = 1))) =
      ([{ id := some 1, start := some 1 }, { id := some 2 },
        { id := some 3, start := some 1 }] : List Appointment).filter
        (fun a => decide (sortKey a = 1)) :=
  c1_amended_stable_upto20 demoSchedule 0 1 _ _ 1 (by decide) (by decide)

end Zermelo

namespace Zermelo

/-! ## Canonical rendering of response bodies (for C2)

To quantify over "every valid response body containing the records
`ws`", bodies are produced by a canonical JSON renderer: fixed field order,
no superfluous whitespace, string values restricted to characters that render
without escapes.  The wire-side record mirrors the pre-rename field names. -/

/-- Modelled from the spec: the wire form of one appointment record — the §6
wire field names (`appointmentInstance`, `startTimeSlot`, `endTimeSlot`,
`type`, `lastModified`, `changeDescription`, `branchOfSchool` plus the
pass-through names), every field optional. -/
structure WireAppointment where
  id : Option Int := none
  appointmentInstance : Option Int := none
  start : Option Int := none
  «end» : Option Int := none
  startTimeSlot : Option Int := none
  endTimeSlot : Option Int := none
  subjects : Option (List String) := none
  teachers : Option (List String) := none
  groups : Option (List String) := none
  locations : Option (List String) := none
  type : Option String := none
  remark : Option String := none
  valid : Option Bool := none
  cancelled : Option Bool := none
  modified : Option Bool := none
  moved : Option Bool := none
  new : Option Bool := none
  changeDescription : Option String := none
  lastModified : Option Int := none
  branchOfSchool : Option Int := none
deriving DecidableEq, Inhabited, Repr

/-- The §6 renaming table as the expected record mapping: renamed fields, all
other fields and all values unchanged. -/
def convertWire (w : WireAppointment) : Appointment :=
  { id := w.id
    appointment_instance := w.appointmentInstance
    start := w.start
    «end» := w.«end»
    start_time_slot := w.startTimeSlot
    end_time_slot := w.endTimeSlot
    subjects := w.subjects
    teachers := w.teachers
    groups := w.groups
    locations := w.locations
    appointment_type := w.type
    remark := w.remark
    valid := w.valid
    cancelled := w.cancelled
    modified := w.modified
    moved := w.moved
    new := w.new
    change_description := w.changeDescription
    last_modified := w.lastModified
    branch_of_school := w.branchOfSchool }

/-- Decimal digits of a natural number (fuelled division recursion). -/
def natDigitsFuel : Nat → Nat → List Char
  | 0, _ => []
  | fuel + 1, n =>
    if n < 10 then [Char.ofNat (48 + n)]
    else natDigitsFuel fuel (n / 10) ++ [Char.ofNat (48 + n % 10)]

def natDigits (n : Nat) : List Char := natDigitsFuel (n + 1) n

/-- Canonical rendering of an `i64` value. -/
def renderInt (n : Int) : String :=
  if n < 0 then String.mk ('-' :: natDigits n.natAbs) else String.mk (natDigits n.toNat)

def digitsFoldVal (acc : Nat) (ds : List Char) : Nat :=
  ds.foldl (fun a c => a * 10 + digitVal c) acc

/-- ASCII letters — the alphabet the rename patterns are made of. -/
def isAsciiLetter (c : Char) : Bool :=
  ('a' ≤ c ∧ c ≤ 'z') ∨ ('A' ≤ c ∧ c ≤ 'Z')

theorem digitChar_spec (d : Nat) (hd : d < 10) :
    isDigitC (Char.ofNat (48 + d)) = true ∧ digitVal (Char.ofNat (48 + d)) = d ∧
    isAsciiLetter (Char.ofNat (48 + d)) = false ∧
    (Char.ofNat (48 + d) = '0' ↔ d = 0) ∧ Char.ofNat (48 + d) ≠ '-' := by
  interval_cases d <;> exact ⟨by decide, by decide, by decide, by decide, by decide⟩

theorem natDigitsFuel_spec (fuel : Nat) :
    ∀ n, n < fuel →
      ((∀ c ∈ natDigitsFuel fuel n, isDigitC c = true ∧ isAsciiLetter c = false ∧ c ≠ '-') ∧
       natDigitsFuel fuel n ≠ [] ∧
       (∀ acc, digitsFoldVal acc (natDigitsFuel fuel n) =
         acc * 10 ^ (natDigitsFuel fuel n).length + n) ∧
       (∀ c, (natDigitsFuel fuel n).head? = some c → c = '0' → n = 0)) := by
  induction fuel with
  | zero => intro n hn; omega
  | succ m ih =>
    intro n hn
    by_cases h10 : n < 10
    · have hd := digitChar_spec n h10
      refine ⟨?_, by simp [natDigitsFuel, h10], ?_, ?_⟩
      · intro c hc
        simp [natDigitsFuel, h10] at hc
        subst hc
        exact ⟨hd.1, hd.2.2.1, hd.2.2.2.2⟩
      · intro acc
        simp [natDigitsFuel, h10, digitsFoldVal, hd.2.1]
      · intro c hc hc0
        simp [natDigitsFuel, h10] at hc
        exact (hd.2.2.2.1).mp (hc0 ▸ hc)
    · have hdiv : n / 10 < m := by
        have h1 : n / 10 < n := Nat.div_lt_self (by omega) (by omega)
        omega
      obtain ⟨ihall, ihne, ihval, ihhead⟩ := ih (n / 10) hdiv
      have hd := digitChar_spec (n % 10) (Nat.mod_lt _ (by omega))
      refine ⟨?_, ?_, ?_, ?_⟩
      · intro c hc
        simp only [natDigitsFuel, if_neg h10] at hc
        rcases List.mem_append.mp hc with h | h
        · exact ihall c h
        · simp at h
          subst h
          exact ⟨hd.1, hd.2.2.1, hd.2.2.2.2⟩
      · simp [natDigitsFuel, h10]
      · intro acc
        simp only [natDigitsFuel, if_neg h10, digitsFoldVal, List.foldl_append,
          List.foldl_cons, List.foldl_nil, List.length_append, List.length_cons,
          List.length_nil]
        have hv := ihval acc
        simp only [digitsFoldVal] at hv
        rw [hv, hd.2.1, pow_succ]
        have h2 : (acc * 10 ^ (natDigitsFuel m (n / 10)).length + n / 10) * 10 + n % 10 =
            acc * (10 ^ (natDigitsFuel m (n / 10)).length * 10) + (10 * (n / 10) + n % 10) := by
          ring
        rw [h2, Nat.div_add_mod]
      · intro c hc hc0
        simp only [natDigitsFuel, if_neg h10] at hc
        rcases hne : natDigitsFuel m (n / 10) with _ | ⟨c0, cs0⟩
        · exact absurd hne ihne
        · rw [hne] at hc
          simp at hc
          have := ihhead c (by rw [hne]; simp [hc]) hc0
          omega

theorem parseDigits_append (ds : List Char) (hds : ∀ c ∈ ds, isDigitC c = true) :
    ∀ rest acc, rest.head?.all (fun c => ¬ isDigitC c) = true →
      parseDigits (ds ++ rest) acc = (digitsFoldVal acc ds, rest) := by
  induction ds with
  | nil =>
    intro rest acc hrest
    cases rest with
    | nil => rfl
    | cons c cs =>
      simp only [Option.all, List.head?] at hrest
      simp [parseDigits, digitsFoldVal, of_decide_eq_true hrest]
  | cons d ds ih =>
    intro rest acc hrest
    have hd : isDigitC d = true := hds d (List.mem_cons_self ..)
    simp only [List.cons_append, parseDigits, hd, if_pos, digitsFoldVal, List.foldl_cons]
    exact ih (fun c hc => hds c (List.mem_cons_of_mem _ hc)) rest _ hrest

theorem countDigits_append (ds : List Char) (hds : ∀ c ∈ ds, isDigitC c = true) :
    ∀ rest, rest.head?.all (fun c => ¬ isDigitC c) = true →
      countDigits (ds ++ rest) = ds.length := by
  induction ds with
  | nil =>
    intro rest hrest
    cases rest with
    | nil => rfl
    | cons c cs =>
      simp only [Option.all, List.head?] at hrest
      simp [countDigits, of_decide_eq_true hrest]
  | cons d ds ih =>
    intro rest hrest
    have hd : isDigitC d = true := hds d (List.mem_cons_self ..)
    simp [countDigits, hd, ih (fun c hc => hds c (List.mem_cons_of_mem _ hc)) rest hrest]

end Zermelo

namespace Zermelo

theorem natDigits_props (n : Nat) :
    (∀ c ∈ natDigits n, isDigitC c = true ∧ isAsciiLetter c = false ∧ c ≠ '-') ∧
    natDigits n ≠ [] ∧
    (∀ acc, digitsFoldVal acc (natDigits n) = acc * 10 ^ (natDigits n).length + n) ∧
    (∀ c, (natDigits n).head? = some c → c = '0' → n = 0) :=
  natDigitsFuel_spec (n + 1) n (Nat.lt_succ_self n)

/-- The character classes a rendered number may be followed by without
changing how it parses. -/
def numBoundary (c : Char) : Prop :=
  isDigitC c = false ∧ c ≠ '.' ∧ c ≠ 'e' ∧ c ≠ 'E'

theorem parseNumberAfterSign_digits (neg : Bool) (m : Nat) (rest : List Char)
    (hrest : ∀ c, rest.head? = some c → numBoundary c) :
    parseNumberAfterSign neg (natDigits m ++ rest) =
      some (if neg then -(m : Int) else (m : Int), true, rest) := by
  obtain ⟨hall, hne, hval, hhead⟩ := natDigits_props m
  have hrest_nd : rest.head?.all (fun c => ¬ isDigitC c) = true := by
    cases hr : rest with
    | nil => rfl
    | cons c cs =>
      have := (hrest c (by rw [hr]; rfl)).1
      simp [Option.all, this]
  have hdigits : ∀ c ∈ natDigits m, isDigitC c = true := fun c hc => (hall c hc).1
  have hparse : parseDigits (natDigits m ++ rest) 0 = (m, rest) := by
    rw [parseDigits_append _ hdigits rest 0 hrest_nd, hval 0]
    simp
  rcases hnd : natDigits m with _ | ⟨d, ds⟩
  · exact absurd hnd hne
  rw [hnd] at hparse hdigits
  have hd : isDigitC d = true := hdigits d (List.mem_cons_self ..)
  have hd0 : d = '0' → ds = [] := by
    intro h0
    have hm0 : m = 0 := hhead d (by rw [hnd]; rfl) h0
    have h1 : natDigits m = ['0'] := by rw [hm0]; rfl
    rw [hnd] at h1
    exact (List.cons_eq_cons.mp h1).2
  show parseNumberAfterSign neg ((d :: ds) ++ rest) = _
  simp only [parseNumberAfterSign, List.cons_append, hd, not_true_eq_false, if_false,
    ite_false]
  simp only [List.cons_append] at hparse
  rw [hparse]
  cases hr : rest with
  | nil =>
    simp only [List.append_nil]
    have hc1 : d = '0' → countDigits (d :: (ds ++ [])) ≤ 1 := by
      intro h0
      rw [hd0 h0, h0]
      decide
    simp [hc1]
    intro h0
    simpa using hc1 h0
  | cons c2 cs2 =>
    have hb := hrest c2 (by rw [hr]; rfl)
    have hc1 : d = '0' → countDigits (d :: (ds ++ c2 :: cs2)) ≤ 1 := by
      intro h0
      rw [hd0 h0, h0]
      simp [countDigits, hb.1]
      decide
    simp only [if_neg hb.2.1, if_neg (show ¬ (c2 = 'e' ∨ c2 = 'E') from by
      rintro (h | h)
      · exact hb.2.2.1 h
      · exact hb.2.2.2 h)]
    simp [hc1]
    exact hc1

theorem parseNumber_renderInt (n : Int) (rest : List Char)
    (hrest : ∀ c, rest.head? = some c → numBoundary c) :
    parseNumber ((renderInt n).data ++ rest) = some (n, true, rest) := by
  by_cases hn : n < 0
  · have hdata : (renderInt n).data = '-' :: natDigits n.natAbs := by
      simp [renderInt, hn]
    rw [hdata]
    show parseNumber ('-' :: (natDigits n.natAbs ++ rest)) = _
    rw [parseNumber]
    simp only [if_pos rfl]
    rw [parseNumberAfterSign_digits true n.natAbs rest hrest]
    have h2 : ((n.natAbs : Int)) = -n := by omega
    simp [h2]
  · have hdata : (renderInt n).data = natDigits n.toNat := by
      simp [renderInt, hn]
    rw [hdata]
    rcases hnd : natDigits n.toNat with _ | ⟨d, ds⟩
    · exact absurd hnd (natDigits_props n.toNat).2.1
    have hd := ((natDigits_props n.toNat).1 d (by rw [hnd]; exact List.mem_cons_self ..))
    rw [← hnd]
    show parseNumber (natDigits n.toNat ++ rest) = _
    rw [hnd]
    show parseNumber (d :: (ds ++ rest)) = _
    rw [parseNumber]
    simp only [if_neg hd.2.2]
    rw [show (d :: (ds ++ rest) : List Char) = (d :: ds) ++ rest from rfl, ← hnd]
    rw [parseNumberAfterSign_digits false n.toNat rest hrest]
    congr 2
    simp
    omega

end Zermelo

namespace Zermelo

/-! ## Reasoning about `str::replace`

`replaceL` is `replaceFuel` at its canonical fuel (the input length, which is
always sufficient).  The key facts: fuel irrelevance, a one-step unfolding,
replacement is the identity on pattern-free text, and replacement distributes
over concatenation when the pattern (a word made of ASCII letters) cannot
straddle the boundary. -/

def replaceL (pat rep cs : List Char) : List Char := replaceFuel pat rep cs.length cs

theorem rustReplace_data (s pat rep : String) :
    (rustReplace s pat rep).data = replaceL pat.data rep.data s.data := rfl

theorem replaceFuel_congr (pat rep : List Char) (hpat : pat ≠ []) :
    ∀ f, ∀ cs : List Char, cs.length ≤ f →
      replaceFuel pat rep f cs = replaceL pat rep cs := by
  intro f
  induction f using Nat.strong_induction_on with
  | _ f ih =>
    intro cs h
    cases f with
    | zero =>
      have : cs = [] := List.eq_nil_of_length_eq_zero (Nat.le_zero.mp h)
      subst this
      rfl
    | succ n =>
      cases cs with
      | nil => rfl
      | cons c cs2 =>
        have hplen : 1 ≤ pat.length := List.length_pos.mpr hpat
        have hlen : cs2.length ≤ n := Nat.le_of_succ_le_succ h
        have hdlen : (List.drop pat.length (c :: cs2)).length ≤ cs2.length := by
          simp only [List.length_drop, List.length_cons]
          omega
        show replaceFuel pat rep (n + 1) (c :: cs2) =
          replaceFuel pat rep (cs2.length + 1) (c :: cs2)
        by_cases hp : pat.isPrefixOf (c :: cs2)
        · simp only [replaceFuel, if_pos (And.intro hpat hp)]
          rw [ih n (Nat.lt_succ_self n) _ (le_trans hdlen hlen),
            ih cs2.length (by omega) _ hdlen]
        · simp only [replaceFuel,
            if_neg (fun hh : pat ≠ [] ∧ pat.isPrefixOf (c :: cs2) => hp hh.2)]
          rw [ih n (Nat.lt_succ_self n) _ hlen]
          rfl

theorem replaceL_cons (pat rep : List Char) (hpat : pat ≠ []) (c : Char) (cs : List Char) :
    replaceL pat rep (c :: cs) =
      if pat.isPrefixOf (c :: cs) then
        rep ++ replaceL pat rep (List.drop pat.length (c :: cs))
      else c :: replaceL pat rep cs := by
  have hplen : 1 ≤ pat.length := List.length_pos.mpr hpat
  show replaceFuel pat rep (cs.length + 1) (c :: cs) = _
  by_cases hp : pat.isPrefixOf (c :: cs)
  · simp only [replaceFuel, if_pos (And.intro hpat hp), if_pos hp]
    rw [replaceFuel_congr pat rep hpat cs.length _
      (by simp only [List.length_drop, List.length_cons]; omega)]
  · simp only [replaceFuel,
      if_neg (fun hh : pat ≠ [] ∧ pat.isPrefixOf (c :: cs) => hp hh.2), if_neg hp]
    rfl

/-- No suffix of `cs` starts with `pat`: the text contains no occurrence. -/
def patFreeL (pat cs : List Char) : Bool :=
  cs.tails.all (fun t => ¬ pat.isPrefixOf t)

theorem patFreeL_cons_iff (pat : List Char) (c : Char) (cs : List Char) :
    patFreeL pat (c :: cs) = true ↔
      pat.isPrefixOf (c :: cs) = false ∧ patFreeL pat cs = true := by
  simp only [patFreeL, List.tails_cons, List.all_cons, Bool.and_eq_true, decide_eq_true_eq]
  constructor
  · rintro ⟨h1, h2⟩
    exact ⟨by simp [h1], h2⟩
  · rintro ⟨h1, h2⟩
    exact ⟨by simp [h1], h2⟩

theorem replaceL_patFree (pat rep : List Char) :
    ∀ cs : List Char, patFreeL pat cs = true → replaceL pat rep cs = cs := by
  intro cs
  induction cs with
  | nil => intro _; rfl
  | cons c cs' ih =>
    intro h
    obtain ⟨h1, h2⟩ := (patFreeL_cons_iff pat c cs').mp h
    by_cases hpat : pat = []
    · subst hpat
      simp [List.isPrefixOf] at h1
    · rw [replaceL_cons pat rep hpat, if_neg (by simp [h1]), ih h2]

theorem patFreeL_of_no_letters (pat : List Char) (hpne : pat ≠ [])
    (hpat : ∀ c ∈ pat, isAsciiLetter c = true) :
    ∀ cs : List Char, (∀ c ∈ cs, isAsciiLetter c = false) → patFreeL pat cs = true := by
  intro cs
  induction cs with
  | nil =>
    intro _
    cases pat with
    | nil => exact absurd rfl hpne
    | cons p ps => rfl
  | cons c cs' ih =>
    intro hcs
    refine (patFreeL_cons_iff pat c cs').mpr ⟨?_, ih (fun x hx => hcs x (List.mem_cons_of_mem _ hx))⟩
    cases pat with
    | nil => exact absurd rfl hpne
    | cons p ps =>
      have hpl : isAsciiLetter p = true := hpat p (List.mem_cons_self ..)
      have hcl : isAsciiLetter c = false := hcs c (List.mem_cons_self ..)
      simp only [List.isPrefixOf, Bool.and_eq_false_iff]
      left
      simp only [beq_eq_false_iff_ne, ne_eq]
      intro hpc
      rw [hpc] at hpl
      rw [hpl] at hcl
      exact absurd hcl (by decide)

end Zermelo

namespace Zermelo

theorem getLast?_of_cons (c : α) (cs : List α) (x : α) (h : cs.getLast? = some x) :
    (c :: cs).getLast? = some x := by
  cases cs with
  | nil => simp at h
  | cons d ds => rw [List.getLast?_cons_cons]; exact h

theorem getLast?_of_drop (l : List α) (n : Nat) (x : α) (h : (l.drop n).getLast? = some x) :
    l.getLast? = some x := by
  induction n generalizing l with
  | zero => exact h
  | succ m ih =>
    cases l with
    | nil => simp at h
    | cons c cs =>
      have h2 : (cs.drop m).getLast? = some x := h
      exact getLast?_of_cons c cs x (ih cs h2)

theorem head?_append_left (a b : List α) (c : α) (h : a.head? = some c) :
    (a ++ b).head? = some c := by
  cases a with
  | nil => simp at h
  | cons d ds => simpa using h

/-- A word made of letters cannot occur as a prefix of `s1 ++ s2` spanning
the boundary when the boundary has a non-letter on either side. -/
theorem not_prefixOf_spanning (pat : List Char)
    (hletters : ∀ c ∈ pat, isAsciiLetter c = true)
    (s1 s2 : List Char) (h1 : s1 ≠ []) (hlen : s1.length < pat.length)
    (hsafe : (∀ c, s1.getLast? = some c → isAsciiLetter c = false) ∨
             (∀ c, s2.head? = some c → isAsciiLetter c = false)) :
    pat.isPrefixOf (s1 ++ s2) = false := by
  by_contra hcon
  have hp : pat <+: (s1 ++ s2) := by
    rw [← List.isPrefixOf_iff_prefix]
    cases hx : pat.isPrefixOf (s1 ++ s2)
    · exact absurd hx hcon
    · rfl
  obtain ⟨t, ht⟩ := hp
  have htake : s1 = pat.take s1.length := by
    have h2 : (s1 ++ s2).take s1.length = s1 := List.take_left ..
    rw [← ht, List.take_append_of_le_length (le_of_lt hlen)] at h2
    exact h2.symm
  rcases hsafe with hl | hr
  · have hmem : s1.getLast h1 ∈ pat := by
      have hm : s1.getLast h1 ∈ s1 := List.getLast_mem h1
      have hsub : s1 ⊆ pat := by
        rw [htake]
        exact List.take_subset _ _
      exact hsub hm
    have hlet := hletters _ hmem
    rw [hl _ (List.getLast?_eq_getLast s1 h1)] at hlet
    exact absurd hlet (by decide)
  · cases s2 with
    | nil =>
      have hpfx : pat <+: s1 := ⟨t, by simpa using ht⟩
      have := hpfx.length_le
      omega
    | cons c2 cs2 =>
      have hpat2 : pat = s1 ++ pat.drop s1.length := by
        conv_lhs => rw [← List.take_append_drop s1.length pat]
        rw [← htake]
      rw [hpat2, List.append_assoc] at ht
      have hcancel : pat.drop s1.length ++ t = c2 :: cs2 :=
        List.append_cancel_left ht
      rcases hd : pat.drop s1.length with _ | ⟨p0, ps⟩
      · have hcl := congrArg List.length hd
        simp only [List.length_drop, List.length_nil] at hcl
        omega
      · rw [hd, List.cons_append] at hcancel
        have hp0 : p0 = c2 := (List.cons.injEq ..).mp hcancel |>.1
        have hmem : p0 ∈ pat := by
          have hm : p0 ∈ pat.drop s1.length := by rw [hd]; exact List.mem_cons_self ..
          exact List.drop_subset _ _ hm
        have hlet := hletters _ hmem
        rw [hp0, hr c2 rfl] at hlet
        exact absurd hlet (by decide)

/-- `str::replace` distributes over a concatenation whose boundary the
pattern cannot straddle. -/
theorem replaceL_append (pat rep : List Char) (hpne : pat ≠ [])
    (hletters : ∀ c ∈ pat, isAsciiLetter c = true) :
    ∀ f (s1 s2 : List Char), s1.length ≤ f →
      ((∀ c, s1.getLast? = some c → isAsciiLetter c = false) ∨
       (∀ c, s2.head? = some c → isAsciiLetter c = false)) →
      replaceL pat rep (s1 ++ s2) = replaceL pat rep s1 ++ replaceL pat rep s2 := by
  intro f
  induction f using Nat.strong_induction_on with
  | _ f ih =>
    intro s1 s2 hf hsafe
    cases s1 with
    | nil => simp [replaceL, replaceFuel]
    | cons c cs =>
      cases f with
      | zero => simp at hf
      | succ n =>
        have hf2 : cs.length ≤ n := Nat.le_of_succ_le_succ hf
        rw [show (c :: cs) ++ s2 = c :: (cs ++ s2) from rfl,
          replaceL_cons pat rep hpne c (cs ++ s2), replaceL_cons pat rep hpne c cs]
        by_cases hp : pat.isPrefixOf (c :: (cs ++ s2))
        · by_cases hfit : pat.length ≤ (c :: cs).length
          · have hpshort : pat.isPrefixOf (c :: cs) = true := by
              rw [List.isPrefixOf_iff_prefix]
              have hpfx : pat <+: ((c :: cs) ++ s2) := by
                rw [← List.isPrefixOf_iff_prefix]
                exact hp
              obtain ⟨t, ht⟩ := hpfx
              have h2 : pat = (c :: cs).take pat.length := by
                have h3 := congrArg (List.take pat.length) ht
                rw [List.take_append_of_le_length hfit,
                  List.take_append_of_le_length (Nat.le_refl pat.length),
                  List.take_length] at h3
                exact h3
              rw [h2]
              exact List.take_prefix ..
            rw [if_pos hp, if_pos hpshort]
            have hdrop : List.drop pat.length (c :: (cs ++ s2)) =
                List.drop pat.length (c :: cs) ++ s2 := by
              rw [show c :: (cs ++ s2) = (c :: cs) ++ s2 from rfl]
              exact List.drop_append_of_le_length hfit
            have hdlen : (List.drop pat.length (c :: cs)).length ≤ n := by
              simp only [List.length_drop, List.length_cons]
              have hplen : 1 ≤ pat.length := List.length_pos.mpr hpne
              omega
            rw [hdrop, ih n (Nat.lt_succ_self n) _ s2 hdlen ?_, List.append_assoc]
            rcases hsafe with hl | hr
            · exact Or.inl (fun x hx => hl x (getLast?_of_drop _ _ _ hx))
            · exact Or.inr hr
          · exfalso
            have hspan := not_prefixOf_spanning pat hletters (c :: cs) s2 (by simp)
              (by simp only [List.length_cons] at hfit ⊢; omega) hsafe
            rw [show (c :: cs) ++ s2 = c :: (cs ++ s2) from rfl] at hspan
            rw [hspan] at hp
            exact absurd hp (by decide)
        · have hpshort : ¬ (pat.isPrefixOf (c :: cs) = true) := by
            intro hx
            apply hp
            rw [List.isPrefixOf_iff_prefix] at hx ⊢
            exact hx.trans (List.prefix_append ..)
          rw [if_neg hp, if_neg hpshort,
            ih n (Nat.lt_succ_self n) cs s2 hf2 ?_]
          · rfl
          rcases hsafe with hl | hr
          · exact Or.inl (fun x hx => hl x (getLast?_of_cons c cs x hx))
          · exact Or.inr hr

end Zermelo

namespace Zermelo

/-- Join pieces with a separator (the renderer's comma). -/
def joinSep (sep : List Char) : List (List Char) → List Char
  | [] => []
  | [p] => p
  | p :: q :: ps => p ++ sep ++ joinSep sep (q :: ps)

theorem joinSep_cons₂ (sep p q : List Char) (ps : List (List Char)) :
    joinSep sep (p :: q :: ps) = p ++ (sep ++ joinSep sep (q :: ps)) := by
  simp [joinSep, List.append_assoc]

theorem replaceL_joinSep (pat rep : List Char) (hpne : pat ≠ [])
    (hletters : ∀ c ∈ pat, isAsciiLetter c = true)
    (sep : List Char) (hsne : sep ≠ [])
    (hsh : ∀ c, sep.head? = some c → isAsciiLetter c = false)
    (hsl : ∀ c, sep.getLast? = some c → isAsciiLetter c = false)
    (hsf : patFreeL pat sep = true) :
    ∀ ps : List (List Char),
      replaceL pat rep (joinSep sep ps) = joinSep sep (ps.map (replaceL pat rep)) := by
  intro ps
  induction ps with
  | nil => rfl
  | cons p ps ih =>
    cases ps with
    | nil => rfl
    | cons q qs =>
      rw [joinSep_cons₂]
      rcases hsep : sep with _ | ⟨sc, scs⟩
      · exact absurd hsep hsne
      rw [← hsep]
      have hshead : sep.head? = some sc := by rw [hsep]; rfl
      rw [replaceL_append pat rep hpne hletters p.length p _ (Nat.le_refl _)
        (Or.inr (fun x hx => by
          rw [head?_append_left sep _ sc hshead] at hx
          cases hx
          exact hsh sc hshead))]
      rw [replaceL_append pat rep hpne hletters sep.length sep _ (Nat.le_refl _)
        (Or.inl hsl)]
      rw [replaceL_patFree pat rep sep hsf, ih]
      simp only [List.map_cons, joinSep_cons₂]

theorem patFreeL_nil (pat : List Char) (hpne : pat ≠ []) : patFreeL pat [] = true := by
  cases pat with
  | nil => exact absurd rfl hpne
  | cons p ps => rfl

/-- Pattern-freeness is preserved by concatenation across a safe boundary. -/
theorem patFreeL_append_safe (pat : List Char) (hpne : pat ≠ [])
    (hletters : ∀ c ∈ pat, isAsciiLetter c = true) :
    ∀ f (s1 s2 : List Char), s1.length ≤ f →
      patFreeL pat s1 = true → patFreeL pat s2 = true →
      ((∀ c, s1.getLast? = some c → isAsciiLetter c = false) ∨
       (∀ c, s2.head? = some c → isAsciiLetter c = false)) →
      patFreeL pat (s1 ++ s2) = true := by
  intro f
  induction f using Nat.strong_induction_on with
  | _ f ih =>
    intro s1 s2 hf h1 h2 hsafe
    cases s1 with
    | nil => simpa using h2
    | cons c cs =>
      cases f with
      | zero => simp at hf
      | succ n =>
        have hf2 : cs.length ≤ n := Nat.le_of_succ_le_succ hf
        obtain ⟨hc1, hc2⟩ := (patFreeL_cons_iff pat c cs).mp h1
        rw [show (c :: cs) ++ s2 = c :: (cs ++ s2) from rfl]
        refine (patFreeL_cons_iff pat c (cs ++ s2)).mpr ⟨?_, ?_⟩
        · by_cases hfit : pat.length ≤ (c :: cs).length
          · cases hx : pat.isPrefixOf (c :: (cs ++ s2))
            · rfl
            · exfalso
              have hpfx : pat <+: ((c :: cs) ++ s2) := by
                rw [← List.isPrefixOf_iff_prefix]
                exact hx
              obtain ⟨t, ht⟩ := hpfx
              have hpeq : pat = (c :: cs).take pat.length := by
                have h3 := congrArg (List.take pat.length) ht
                rw [List.take_append_of_le_length hfit,
                  List.take_append_of_le_length (Nat.le_refl pat.length),
                  List.take_length] at h3
                exact h3
              have hshort : pat.isPrefixOf (c :: cs) = true := by
                rw [List.isPrefixOf_iff_prefix, hpeq]
                exact List.take_prefix ..
              rw [hshort] at hc1
              exact absurd hc1 (by decide)
          · have hspan := not_prefixOf_spanning pat hletters (c :: cs) s2 (by simp)
              (by simp only [List.length_cons] at hfit ⊢; omega) hsafe
            rw [show (c :: cs) ++ s2 = c :: (cs ++ s2) from rfl] at hspan
            exact hspan
        · refine ih n (Nat.lt_succ_self n) cs s2 hf2 hc2 h2 ?_
          rcases hsafe with hl | hr
          · exact Or.inl (fun x hx => hl x (getLast?_of_cons c cs x hx))
          · exact Or.inr hr

theorem patFreeL_joinSep (pat : List Char) (hpne : pat ≠ [])
    (hletters : ∀ c ∈ pat, isAsciiLetter c = true)
    (sep : List Char) (hsne : sep ≠ [])
    (hsh : ∀ c, sep.head? = some c → isAsciiLetter c = false)
    (hsl : ∀ c, sep.getLast? = some c → isAsciiLetter c = false)
    (hsf : patFreeL pat sep = true) :
    ∀ ps : List (List Char), (∀ p ∈ ps, patFreeL pat p = true) →
      patFreeL pat (joinSep sep ps) = true := by
  intro ps
  induction ps with
  | nil => intro _; exact patFreeL_nil pat hpne
  | cons p ps ih =>
    intro hps
    cases ps with
    | nil => exact hps p (List.mem_cons_self ..)
    | cons q qs =>
      rw [joinSep_cons₂]
      rcases hsep : sep with _ | ⟨sc, scs⟩
      · exact absurd hsep hsne
      rw [← hsep]
      have hshead : sep.head? = some sc := by rw [hsep]; rfl
      refine patFreeL_append_safe pat hpne hletters p.length p _ (Nat.le_refl _)
        (hps p (List.mem_cons_self ..)) ?_
        (Or.inr (fun x hx => by
          rw [head?_append_left sep _ sc hshead] at hx
          cases hx
          exact hsh sc hshead))
      refine patFreeL_append_safe pat hpne hletters sep.length sep _ (Nat.le_refl _)
        hsf ?_ (Or.inl hsl)
      exact ih (fun x hx => hps x (List.mem_cons_of_mem _ hx))

end Zermelo

namespace Zermelo

/-! ## The canonical body renderer (wire side), on `List Char` -/

/-- A wire field value: the four JSON shapes the appointment fields use. -/
inductive JVal where
  | jint (n : Int)
  | jstr (s : String)
  | jlist (l : List String)
  | jbool (b : Bool)
deriving DecidableEq, Repr

def quoteD (s : String) : List Char := '"' :: (s.data ++ ['"'])

def renderJValD : JVal → List Char
  | .jint n => (renderInt n).data
  | .jstr s => quoteD s
  | .jlist l => '[' :: (joinSep [','] (l.map quoteD) ++ [']'])
  | .jbool b => if b then "true".data else "false".data

/-- The quoted key plus the colon. -/
def keylitD (k : String) : List Char := '"' :: (k.data ++ ('"' :: [':']))

def renderEntryD (e : String × JVal) : List Char := keylitD e.1 ++ renderJValD e.2

def renderRecordD (es : List (String × JVal)) : List Char :=
  lbrace :: (joinSep [','] (es.map renderEntryD) ++ [rbrace])

def bodyPrefixD : List Char := ("\x7b\"response\":\x7b\"data\":[").data

def bodySuffixD : List Char := ("]\x7d\x7d").data

/-- The canonical rendering of the full response envelope. -/
def renderBodyD (rs : List (List (String × JVal))) : List Char :=
  bodyPrefixD ++ (joinSep [','] (rs.map renderRecordD) ++ bodySuffixD)

/-! ## Value cleanliness: the provisos of the amended C2 -/

/-- A character that renders into a JSON string verbatim (no escape). -/
def plainChar (c : Char) : Bool := c ≠ '"' ∧ c ≠ '\\' ∧ 32 ≤ c.toNat

/-- A string value that renders verbatim and contains none of the seven wire
field names (so the textual renaming pass cannot touch it). -/
def cleanStr (s : String) : Bool :=
  s.data.all plainChar && renamePairs.all (fun pr => patFreeL pr.1.data s.data)

def i64Range (n : Int) : Bool := -(2 ^ 63) ≤ n ∧ n < 2 ^ 63

def cleanJVal : JVal → Bool
  | .jint n => i64Range n
  | .jstr s => cleanStr s
  | .jlist l => l.all cleanStr
  | .jbool _ => true

theorem renamePairs_pat_facts :
    ∀ pr ∈ renamePairs, pr.1.data ≠ [] ∧ (∀ c ∈ pr.1.data, isAsciiLetter c = true) := by
  intro pr hpr
  fin_cases hpr <;> exact ⟨by decide, by decide⟩

theorem option_all_some {p : β → Bool} {o : Option β} (h : o.all p = true)
    (v : β) (hv : o = some v) : p v = true := by
  subst hv
  exact h

theorem renderInt_no_letters (n : Int) :
    ∀ c ∈ (renderInt n).data, isAsciiLetter c = false := by
  intro c hc
  by_cases hn : n < 0
  · simp only [renderInt, if_pos hn] at hc
    rcases List.mem_cons.mp hc with h | h
    · subst h; decide
    · exact ((natDigits_props n.natAbs).1 c h).2.1
  · simp only [renderInt, if_neg hn] at hc
    exact ((natDigits_props n.toNat).1 c hc).2.1

theorem patFree_single_nonletter (pr : String × String) (hpr : pr ∈ renamePairs)
    (c : Char) (hc : isAsciiLetter c = false) : patFreeL pr.1.data [c] = true := by
  obtain ⟨hne, hlet⟩ := renamePairs_pat_facts pr hpr
  refine patFreeL_of_no_letters _ hne hlet [c] ?_
  intro x hx
  rcases List.mem_singleton.mp hx with rfl | _
  exact hc

theorem patFree_quoteD (pr : String × String) (hpr : pr ∈ renamePairs) (s : String)
    (hs : cleanStr s = true) : patFreeL pr.1.data (quoteD s) = true := by
  obtain ⟨hne, hlet⟩ := renamePairs_pat_facts pr hpr
  have hsfree : patFreeL pr.1.data s.data = true := by
    have h2 := (Bool.and_eq_true .. |>.mp hs).2
    rw [List.all_eq_true] at h2
    exact h2 pr hpr
  have hq : patFreeL pr.1.data ['"'] = true :=
    patFree_single_nonletter pr hpr '"' (by decide)
  show patFreeL pr.1.data (['"'] ++ (s.data ++ ['"'])) = true
  refine patFreeL_append_safe _ hne hlet 1 ['"'] _ (by decide) hq ?_
    (Or.inl (fun x hx => by
      simp only [List.getLast?_singleton, Option.some.injEq] at hx
      subst hx; decide))
  refine patFreeL_append_safe _ hne hlet s.data.length s.data _ (Nat.le_refl _) hsfree hq
    (Or.inr (fun x hx => by
      simp only [List.head?_cons, Option.some.injEq] at hx
      subst hx; decide))

theorem patFree_renderJValD (pr : String × String) (hpr : pr ∈ renamePairs) (v : JVal)
    (hv : cleanJVal v = true) : patFreeL pr.1.data (renderJValD v) = true := by
  obtain ⟨hne, hlet⟩ := renamePairs_pat_facts pr hpr
  cases v with
  | jint n =>
    exact patFreeL_of_no_letters _ hne hlet _ (renderInt_no_letters n)
  | jstr s => exact patFree_quoteD pr hpr s hv
  | jlist l =>
    show patFreeL pr.1.data (['['] ++ (joinSep [','] (l.map quoteD) ++ [']'])) = true
    have hlb : patFreeL pr.1.data ['['] = true :=
      patFree_single_nonletter pr hpr '[' (by decide)
    have hrb : patFreeL pr.1.data [']'] = true :=
      patFree_single_nonletter pr hpr ']' (by decide)
    refine patFreeL_append_safe _ hne hlet 1 ['['] _ (by decide) hlb ?_
      (Or.inl (fun x hx => by
        simp only [List.getLast?_singleton, Option.some.injEq] at hx
        subst hx; decide))
    refine patFreeL_append_safe _ hne hlet (joinSep [','] (l.map quoteD)).length _ _
      (Nat.le_refl _) ?_ hrb
      (Or.inr (fun x hx => by
        simp only [List.head?_cons, Option.some.injEq] at hx
        subst hx; decide))
    refine patFreeL_joinSep _ hne hlet [','] (by decide)
      (fun x hx => by
        simp only [List.head?_cons, Option.some.injEq] at hx
        subst hx; decide)
      (fun x hx => by
        simp only [List.getLast?_singleton, Option.some.injEq] at hx
        subst hx; decide)
      (patFree_single_nonletter pr hpr ',' (by decide)) _ ?_
    intro p hp
    obtain ⟨sv, hsv, rfl⟩ := List.mem_map.mp hp
    have hcl : cleanStr sv = true := by
      have hv2 : l.all cleanStr = true := hv
      rw [List.all_eq_true] at hv2
      exact hv2 sv hsv
    exact patFree_quoteD pr hpr sv hcl
  | jbool b =>
    fin_cases hpr <;> cases b <;> decide

end Zermelo

namespace Zermelo

theorem keylitD_eq_append (k : String) : keylitD k = ('"' :: (k.data ++ ['"'])) ++ [':'] := by
  simp [keylitD]

theorem keylitD_getLast (k : String) : (keylitD k).getLast? = some ':' := by
  rw [keylitD_eq_append, List.getLast?_concat]

/-- One rename pass maps one rendered entry to the entry with the renamed
key, leaving the (clean) value text untouched. -/
theorem replaceL_renderEntryD (pr : String × String) (hpr : pr ∈ renamePairs)
    (k k2 : String) (v : JVal)
    (hkey : replaceL pr.1.data pr.2.data (keylitD k) = keylitD k2)
    (hv : cleanJVal v = true) :
    replaceL pr.1.data pr.2.data (renderEntryD (k, v)) = renderEntryD (k2, v) := by
  obtain ⟨hne, hlet⟩ := renamePairs_pat_facts pr hpr
  show replaceL _ _ (keylitD k ++ renderJValD v) = keylitD k2 ++ renderJValD v
  rw [replaceL_append _ _ hne hlet (keylitD k).length _ _ (Nat.le_refl _)
    (Or.inl (fun x hx => by
      rw [keylitD_getLast k] at hx
      cases hx
      decide))]
  rw [hkey, replaceL_patFree _ _ _ (patFree_renderJValD pr hpr v hv)]

/-- One rename pass maps a rendered record entry-wise. -/
theorem replaceL_renderRecordD (pr : String × String) (hpr : pr ∈ renamePairs)
    (es es2 : List (String × JVal))
    (hmap : es.map (fun e => replaceL pr.1.data pr.2.data (renderEntryD e)) =
      es2.map renderEntryD) :
    replaceL pr.1.data pr.2.data (renderRecordD es) = renderRecordD es2 := by
  obtain ⟨hne, hlet⟩ := renamePairs_pat_facts pr hpr
  show replaceL _ _ ([lbrace] ++ (joinSep [','] (es.map renderEntryD) ++ [rbrace])) = _
  rw [replaceL_append _ _ hne hlet 1 [lbrace] _ (by decide)
    (Or.inl (fun x hx => by
      simp only [List.getLast?_singleton, Option.some.injEq] at hx
      subst hx; decide))]
  rw [replaceL_append _ _ hne hlet (joinSep [','] (es.map renderEntryD)).length _ _
    (Nat.le_refl _)
    (Or.inr (fun x hx => by
      simp only [List.head?_cons, Option.some.injEq] at hx
      subst hx; decide))]
  rw [replaceL_patFree _ _ _ (patFree_single_nonletter pr hpr lbrace (by decide)),
    replaceL_patFree _ _ _ (patFree_single_nonletter pr hpr rbrace (by decide))]
  rw [replaceL_joinSep _ _ hne hlet [','] (by decide)
    (fun x hx => by
      simp only [List.head?_cons, Option.some.injEq] at hx
      subst hx; decide)
    (fun x hx => by
      simp only [List.getLast?_singleton, Option.some.injEq] at hx
      subst hx; decide)
    (patFree_single_nonletter pr hpr ',' (by decide))]
  rw [List.map_map]
  show [lbrace] ++ (joinSep [','] (es.map (fun e => replaceL pr.1.data pr.2.data (renderEntryD e))) ++ [rbrace]) = _
  rw [hmap]
  rfl

/-- One rename pass maps the whole rendered body record-wise. -/
theorem replaceL_renderBodyD (pr : String × String) (hpr : pr ∈ renamePairs)
    (rs rs2 : List (List (String × JVal)))
    (hmap : rs.map (fun r => replaceL pr.1.data pr.2.data (renderRecordD r)) =
      rs2.map renderRecordD) :
    replaceL pr.1.data pr.2.data (renderBodyD rs) = renderBodyD rs2 := by
  obtain ⟨hne, hlet⟩ := renamePairs_pat_facts pr hpr
  show replaceL _ _ (bodyPrefixD ++ (joinSep [','] (rs.map renderRecordD) ++ bodySuffixD)) = _
  rw [replaceL_append _ _ hne hlet bodyPrefixD.length _ _ (Nat.le_refl _)
    (Or.inl (fun x hx => by
      have h2 : bodyPrefixD.getLast? = some '[' := by decide
      rw [h2] at hx
      cases hx
      decide))]
  rw [replaceL_append _ _ hne hlet (joinSep [','] (rs.map renderRecordD)).length _ _
    (Nat.le_refl _)
    (Or.inr (fun x hx => by
      have h2 : bodySuffixD.head? = some ']' := by decide
      rw [h2] at hx
      cases hx
      decide))]
  have hpre : replaceL pr.1.data pr.2.data bodyPrefixD = bodyPrefixD := by
    refine replaceL_patFree _ _ _ ?_
    fin_cases hpr <;> decide
  have hsuf : replaceL pr.1.data pr.2.data bodySuffixD = bodySuffixD := by
    refine replaceL_patFree _ _ _ ?_
    fin_cases hpr <;> decide
  rw [hpre, hsuf]
  rw [replaceL_joinSep _ _ hne hlet [','] (by decide)
    (fun x hx => by
      simp only [List.head?_cons, Option.some.injEq] at hx
      subst hx; decide)
    (fun x hx => by
      simp only [List.getLast?_singleton, Option.some.injEq] at hx
      subst hx; decide)
    (patFree_single_nonletter pr hpr ',' (by decide))]
  rw [List.map_map]
  show bodyPrefixD ++ (joinSep [','] (rs.map (fun r => replaceL pr.1.data pr.2.data (renderRecordD r))) ++ bodySuffixD) = _
  rw [hmap]
  rfl

end Zermelo

namespace Zermelo

/-- One optional entry: present fields render, absent fields vanish. -/
def optE (k : String) (enc : β → JVal) : Option β → List (String × JVal)
  | none => []
  | some v => [(k, enc v)]

/-- The canonical entry list of one wire record, with the twenty key names
supplied positionally (so the same shape serves every rename stage). -/
def entriesWithKeys (ks : List String) (w : WireAppointment) : List (String × JVal) :=
  optE (ks.getD 0 "") .jint w.id ++
  optE (ks.getD 1 "") .jint w.appointmentInstance ++
  optE (ks.getD 2 "") .jint w.start ++
  optE (ks.getD 3 "") .jint w.«end» ++
  optE (ks.getD 4 "") .jint w.startTimeSlot ++
  optE (ks.getD 5 "") .jint w.endTimeSlot ++
  optE (ks.getD 6 "") .jlist w.subjects ++
  optE (ks.getD 7 "") .jlist w.teachers ++
  optE (ks.getD 8 "") .jlist w.groups ++
  optE (ks.getD 9 "") .jlist w.locations ++
  optE (ks.getD 10 "") .jstr w.type ++
  optE (ks.getD 11 "") .jstr w.remark ++
  optE (ks.getD 12 "") .jbool w.valid ++
  optE (ks.getD 13 "") .jbool w.cancelled ++
  optE (ks.getD 14 "") .jbool w.modified ++
  optE (ks.getD 15 "") .jbool w.moved ++
  optE (ks.getD 16 "") .jbool w.new ++
  optE (ks.getD 17 "") .jstr w.changeDescription ++
  optE (ks.getD 18 "") .jint w.lastModified ++
  optE (ks.getD 19 "") .jint w.branchOfSchool

/-- All values of the record are clean: strings render verbatim and avoid the
wire names, integers are `i64`-representable. -/
def cleanWire (w : WireAppointment) : Bool :=
  w.id.all i64Range && w.appointmentInstance.all i64Range && w.start.all i64Range &&
  w.«end».all i64Range && w.startTimeSlot.all i64Range && w.endTimeSlot.all i64Range &&
  w.subjects.all (fun l => l.all cleanStr) && w.teachers.all (fun l => l.all cleanStr) &&
  w.groups.all (fun l => l.all cleanStr) && w.locations.all (fun l => l.all cleanStr) &&
  w.type.all cleanStr && w.remark.all cleanStr && w.valid.all (fun _ => true) &&
  w.changeDescription.all cleanStr && w.lastModified.all i64Range &&
  w.branchOfSchool.all i64Range

theorem map_replace_optE (pr : String × String) (hpr : pr ∈ renamePairs)
    (k k2 : String) (enc : β → JVal) (o : Option β)
    (hkey : replaceL pr.1.data pr.2.data (keylitD k) = keylitD k2)
    (hvals : ∀ v, o = some v → cleanJVal (enc v) = true) :
    (optE k enc o).map (fun e => replaceL pr.1.data pr.2.data (renderEntryD e)) =
      (optE k2 enc o).map renderEntryD := by
  cases o with
  | none => rfl
  | some v =>
    simp only [optE, List.map_cons, List.map_nil]
    rw [replaceL_renderEntryD pr hpr k k2 (enc v) hkey (hvals v rfl)]

theorem entries_step (pr : String × String) (hpr : pr ∈ renamePairs)
    (ks ks2 : List String) (w : WireAppointment) (hclean : cleanWire w = true)
    (hkeys : ∀ j, j < 20 →
      replaceL pr.1.data pr.2.data (keylitD (ks.getD j "")) = keylitD (ks2.getD j "")) :
    (entriesWithKeys ks w).map (fun e => replaceL pr.1.data pr.2.data (renderEntryD e)) =
      (entriesWithKeys ks2 w).map renderEntryD := by
  simp only [cleanWire, Bool.and_eq_true] at hclean
  obtain ⟨⟨⟨⟨⟨⟨⟨⟨⟨⟨⟨⟨⟨⟨⟨h1, h2⟩, h3⟩, h4⟩, h5⟩, h6⟩, h7⟩, h8⟩, h9⟩, h10⟩, h11⟩, h12⟩,
    h13⟩, h14⟩, h15⟩, h16⟩ := hclean
  simp only [entriesWithKeys, List.map_append]
  rw [map_replace_optE pr hpr _ _ JVal.jint _ (hkeys 0 (by omega)) (fun v hv => option_all_some h1 v hv),
    map_replace_optE pr hpr _ _ JVal.jint _ (hkeys 1 (by omega)) (fun v hv => option_all_some h2 v hv),
    map_replace_optE pr hpr _ _ JVal.jint _ (hkeys 2 (by omega)) (fun v hv => option_all_some h3 v hv),
    map_replace_optE pr hpr _ _ JVal.jint _ (hkeys 3 (by omega)) (fun v hv => option_all_some h4 v hv),
    map_replace_optE pr hpr _ _ JVal.jint _ (hkeys 4 (by omega)) (fun v hv => option_all_some h5 v hv),
    map_replace_optE pr hpr _ _ JVal.jint _ (hkeys 5 (by omega)) (fun v hv => option_all_some h6 v hv),
    map_replace_optE pr hpr _ _ JVal.jlist _ (hkeys 6 (by omega)) (fun v hv => option_all_some h7 v hv),
    map_replace_optE pr hpr _ _ JVal.jlist _ (hkeys 7 (by omega)) (fun v hv => option_all_some h8 v hv),
    map_replace_optE pr hpr _ _ JVal.jlist _ (hkeys 8 (by omega)) (fun v hv => option_all_some h9 v hv),
    map_replace_optE pr hpr _ _ JVal.jlist _ (hkeys 9 (by omega)) (fun v hv => option_all_some h10 v hv),
    map_replace_optE pr hpr _ _ JVal.jstr _ (hkeys 10 (by omega)) (fun v hv => option_all_some h11 v hv),
    map_replace_optE pr hpr _ _ JVal.jstr _ (hkeys 11 (by omega)) (fun v hv => option_all_some h12 v hv),
    map_replace_optE pr hpr _ _ JVal.jbool _ (hkeys 12 (by omega)) (fun v hv => by rfl),
    map_replace_optE pr hpr _ _ JVal.jbool _ (hkeys 13 (by omega)) (fun v hv => by rfl),
    map_replace_optE pr hpr _ _ JVal.jbool _ (hkeys 14 (by omega)) (fun v hv => by rfl),
    map_replace_optE pr hpr _ _ JVal.jbool _ (hkeys 15 (by omega)) (fun v hv => by rfl),
    map_replace_optE pr hpr _ _ JVal.jbool _ (hkeys 16 (by omega)) (fun v hv => by rfl),
    map_replace_optE pr hpr _ _ JVal.jstr _ (hkeys 17 (by omega)) (fun v hv => option_all_some h14 v hv),
    map_replace_optE pr hpr _ _ JVal.jint _ (hkeys 18 (by omega)) (fun v hv => option_all_some h15 v hv),
    map_replace_optE pr hpr _ _ JVal.jint _ (hkeys 19 (by omega)) (fun v hv => option_all_some h16 v hv)]

/-- One rename pass over the canonically rendered body of a record list. -/
theorem body_step (pr : String × String) (hpr : pr ∈ renamePairs)
    (ks ks2 : List String)
    (hkeys : ∀ j, j < 20 →
      replaceL pr.1.data pr.2.data (keylitD (ks.getD j "")) = keylitD (ks2.getD j ""))
    (ws : List WireAppointment) (hclean : ∀ w ∈ ws, cleanWire w = true) :
    replaceL pr.1.data pr.2.data (renderBodyD (ws.map (entriesWithKeys ks))) =
      renderBodyD (ws.map (entriesWithKeys ks2)) := by
  refine replaceL_renderBodyD pr hpr _ _ ?_
  induction ws with
  | nil => rfl
  | cons w ws ih =>
    simp only [List.map_cons]
    rw [replaceL_renderRecordD pr hpr _ _
      (entries_step pr hpr ks ks2 w (hclean w (List.mem_cons_self ..)) hkeys)]
    rw [ih (fun x hx => hclean x (List.mem_cons_of_mem _ hx))]

end Zermelo

namespace Zermelo

/-- The twenty key names as they stand before the rename pass `i`
(stage 0 = the wire names; stage 7 = the snake-case struct names). -/
def stageKeys : Nat → List String
  | 0 => ["id", "appointmentInstance", "start", "end", "startTimeSlot", "endTimeSlot",
          "subjects", "teachers", "groups", "locations", "type", "remark", "valid",
          "cancelled", "modified", "moved", "new", "changeDescription", "lastModified",
          "branchOfSchool"]
  | 1 => ["id", "appointment_instance", "start", "end", "startTimeSlot", "endTimeSlot",
          "subjects", "teachers", "groups", "locations", "type", "remark", "valid",
          "cancelled", "modified", "moved", "new", "changeDescription", "lastModified",
          "branchOfSchool"]
  | 2 => ["id", "appointment_instance", "start", "end", "start_time_slot", "endTimeSlot",
          "subjects", "teachers", "groups", "locations", "type", "remark", "valid",
          "cancelled", "modified", "moved", "new", "changeDescription", "lastModified",
          "branchOfSchool"]
  | 3 => ["id", "appointment_instance", "start", "end", "start_time_slot", "end_time_slot",
          "subjects", "teachers", "groups", "locations", "type", "remark", "valid",
          "cancelled", "modified", "moved", "new", "changeDescription", "lastModified",
          "branchOfSchool"]
  | 4 => ["id", "appointment_instance", "start", "end", "start_time_slot", "end_time_slot",
          "subjects", "teachers", "groups", "locations", "appointment_type", "remark", "valid",
          "cancelled", "modified", "moved", "new", "changeDescription", "lastModified",
          "branchOfSchool"]
  | 5 => ["id", "appointment_instance", "start", "end", "start_time_slot", "end_time_slot",
          "subjects", "teachers", "groups", "locations", "appointment_type", "remark", "valid",
          "cancelled", "modified", "moved", "new", "changeDescription", "last_modified",
          "branchOfSchool"]
  | 6 => ["id", "appointment_instance", "start", "end", "start_time_slot", "end_time_slot",
          "subjects", "teachers", "groups", "locations", "appointment_type", "remark", "valid",
          "cancelled", "modified", "moved", "new", "change_description", "last_modified",
          "branchOfSchool"]
  | _ => ["id", "appointment_instance", "start", "end", "start_time_slot", "end_time_slot",
          "subjects", "teachers", "groups", "locations", "appointment_type", "remark", "valid",
          "cancelled", "modified", "moved", "new", "change_description", "last_modified",
          "branch_of_school"]

/-- The canonical valid response body containing the records `ws`
(wire field names, fixed field order, no superfluous whitespace). -/
def renderAppointmentsBody (ws : List WireAppointment) : String :=
  String.mk (renderBodyD (ws.map (entriesWithKeys (stageKeys 0))))

theorem rustReplace_mk (l : List Char) (pat rep : String) :
    rustReplace (String.mk l) pat rep = String.mk (replaceL pat.data rep.data l) := rfl

theorem body_step2 (pat rep : String) (hpr : (pat, rep) ∈ renamePairs)
    (ks ks2 : List String)
    (hkeys : ∀ j, j < 20 →
      replaceL pat.data rep.data (keylitD (ks.getD j "")) = keylitD (ks2.getD j ""))
    (ws : List WireAppointment) (hclean : ∀ w ∈ ws, cleanWire w = true) :
    rustReplace (String.mk (renderBodyD (ws.map (entriesWithKeys ks)))) pat rep =
      String.mk (renderBodyD (ws.map (entriesWithKeys ks2))) := by
  rw [rustReplace_mk]
  exact congrArg String.mk (body_step (pat, rep) hpr ks ks2 hkeys ws hclean)

set_option maxRecDepth 100000 in
/-- The seven-pass textual renaming maps the canonically rendered wire body
to the same body with the snake-case field names, touching nothing else. -/
theorem renameBody_render (ws : List WireAppointment)
    (hclean : ∀ w ∈ ws, cleanWire w = true) :
    renameBody (renderAppointmentsBody ws) =
      String.mk (renderBodyD (ws.map (entriesWithKeys (stageKeys 7)))) := by
  show renameBody (String.mk (renderBodyD (ws.map (entriesWithKeys (stageKeys 0))))) = _
  simp only [renameBody, renamePairs, List.foldl_cons, List.foldl_nil]
  rw [body_step2 "appointmentInstance" "appointment_instance" (by decide)
      (stageKeys 0) (stageKeys 1) (by decide) ws hclean,
    body_step2 "startTimeSlot" "start_time_slot" (by decide)
      (stageKeys 1) (stageKeys 2) (by decide) ws hclean,
    body_step2 "endTimeSlot" "end_time_slot" (by decide)
      (stageKeys 2) (stageKeys 3) (by decide) ws hclean,
    body_step2 "type" "appointment_type" (by decide)
      (stageKeys 3) (stageKeys 4) (by decide) ws hclean,
    body_step2 "lastModified" "last_modified" (by decide)
      (stageKeys 4) (stageKeys 5) (by decide) ws hclean,
    body_step2 "changeDescription" "change_description" (by decide)
      (stageKeys 5) (stageKeys 6) (by decide) ws hclean,
    body_step2 "branchOfSchool" "branch_of_school" (by decide)
      (stageKeys 6) (stageKeys 7) (by decide) ws hclean]

end Zermelo

namespace Zermelo

/-! ## Parsing the canonically rendered body back -/

def jvalAst : JVal → Json
  | .jint n => .num n true
  | .jstr s => .str s
  | .jlist l => .arr (l.map Json.str)
  | .jbool b => .bool b

def entryAst (e : String × JVal) : String × Json := (e.1, jvalAst e.2)

def recordAst (es : List (String × JVal)) : Json := .obj (es.map entryAst)

def bodyAst (rs : List (List (String × JVal))) : Json :=
  .obj [("response", .obj [("data", .arr (rs.map recordAst))])]

/-- The characters that may follow a rendered value inside the envelope. -/
def sepBoundary (c : Char) : Prop := c = ',' ∨ c = ']' ∨ c = rbrace

/-- `txt` parses as the single value `v`, consuming exactly itself, whenever
enough fuel is available and the remainder starts with a separator. -/
def ValParses (txt : List Char) (v : Json) : Prop :=
  ∀ fuel rest, txt.length < fuel → (∀ c, rest.head? = some c → sepBoundary c) →
    parseVal fuel (txt ++ rest) = some (v, rest)

theorem strMk_data (s : String) : String.mk s.data = s := rfl

theorem sepBoundary_num (c : Char) (h : sepBoundary c) : numBoundary c := by
  rcases h with rfl | rfl | rfl <;> exact ⟨by decide, by decide, by decide, by decide⟩

theorem skipWs_not_ws (c : Char) (cs : List Char) (h : isJsonWs c = false) :
    skipWs (c :: cs) = c :: cs := by
  simp [skipWs, h]

theorem digit_facts (c : Char) (h : isDigitC c = true) :
    isJsonWs c = false ∧ c ≠ 'n' ∧ c ≠ 't' ∧ c ≠ 'f' ∧ c ≠ '"' ∧ c ≠ '[' ∧ c ≠ lbrace := by
  have h2 : ('0' ≤ c ∧ c ≤ '9') := of_decide_eq_true h
  refine ⟨?_, ?_, ?_, ?_, ?_, ?_, ?_⟩
  · cases hx : isJsonWs c
    · rfl
    · exfalso
      rcases of_decide_eq_true hx with h3 | h3 | h3 | h3 <;>
        (subst h3; revert h; decide)
  all_goals intro hc
  all_goals subst hc
  all_goals revert h
  all_goals decide

theorem parseStrBody_plain (s : List Char) :
    s.all plainChar = true →
    ∀ rest, parseStrBody (s ++ '"' :: rest) = some (s, rest) := by
  induction s with
  | nil =>
    intro _ rest
    show parseStrBody ('"' :: rest) = _
    rw [parseStrBody.eq_def]
    simp
  | cons c cs ih =>
    intro hs rest
    obtain ⟨hc, hcs⟩ := (List.all_cons .. ▸ Bool.and_eq_true .. |>.mp hs)
    obtain ⟨h1, h2, h3⟩ : ¬ (c = '"') ∧ ¬ (c = '\\') ∧ 32 ≤ c.toNat :=
      of_decide_eq_true hc
    show parseStrBody (c :: (cs ++ '"' :: rest)) = _
    rw [parseStrBody.eq_def]
    simp only [if_neg h1, if_neg h2, if_neg (by omega : ¬ c.toNat < 32)]
    rw [ih hcs rest]
    rfl

theorem valParses_str (s : String) (hs : s.data.all plainChar = true) :
    ValParses (quoteD s) (.str s) := by
  intro fuel rest hf hrest
  cases fuel with
  | zero => exact absurd hf (Nat.not_lt_zero _)
  | succ n =>
    show parseVal (n + 1) ('"' :: ((s.data ++ ['"']) ++ rest)) = _
    rw [parseVal]
    rw [skipWs_not_ws '"' _ (by decide)]
    simp only [if_neg (by decide : ¬ ('"' : Char) = 'n'),
      if_neg (by decide : ¬ ('"' : Char) = 't'),
      if_neg (by decide : ¬ ('"' : Char) = 'f'),
      if_pos (rfl : ('"' : Char) = '"')]
    rw [show (s.data ++ ['"']) ++ rest = s.data ++ '"' :: rest by
      simp [List.append_assoc]]
    rw [parseStrBody_plain s.data hs rest]
    simp [strMk_data]

theorem valParses_int (n : Int) : ValParses (renderInt n).data (.num n true) := by
  intro fuel rest hf hrest
  have hnum : parseNumber ((renderInt n).data ++ rest) = some (n, true, rest) :=
    parseNumber_renderInt n rest (fun c hc => sepBoundary_num c (hrest c hc))
  cases fuel with
  | zero =>
    exfalso
    omega
  | succ m =>
    by_cases hn : n < 0
    · have hdata : (renderInt n).data = '-' :: natDigits n.natAbs := by
        simp [renderInt, hn]
      rw [hdata] at hnum ⊢
      show parseVal (m + 1) ('-' :: (natDigits n.natAbs ++ rest)) = _
      rw [parseVal]
      rw [skipWs_not_ws '-' _ (by decide)]
      simp only [if_neg (by decide : ¬ ('-' : Char) = 'n'),
        if_neg (by decide : ¬ ('-' : Char) = 't'),
        if_neg (by decide : ¬ ('-' : Char) = 'f'),
        if_neg (by decide : ¬ ('-' : Char) = '"'),
        if_neg (by decide : ¬ ('-' : Char) = '['),
        if_neg (by decide : ¬ ('-' : Char) = lbrace)]
      rw [show ('-' :: (natDigits n.natAbs ++ rest) : List Char) =
        ('-' :: natDigits n.natAbs) ++ rest from rfl]
      rw [hnum]
      rfl
    · have hdata : (renderInt n).data = natDigits n.toNat := by
        simp [renderInt, hn]
      rw [hdata] at hnum ⊢
      rcases hnd : natDigits n.toNat with _ | ⟨d, ds⟩
      · exact absurd hnd (natDigits_props n.toNat).2.1
      rw [hnd] at hnum
      have hd : isDigitC d = true :=
        ((natDigits_props n.toNat).1 d (by rw [hnd]; exact List.mem_cons_self ..)).1
      obtain ⟨hws, hn', ht', hf', hq', hb', hl'⟩ := digit_facts d hd
      show parseVal (m + 1) ((d :: ds) ++ rest) = _
      rw [parseVal]
      rw [show ((d :: ds) ++ rest : List Char) = d :: (ds ++ rest) from rfl]
      rw [skipWs_not_ws d _ hws]
      simp only [if_neg hn', if_neg ht', if_neg hf', if_neg hq', if_neg hb', if_neg hl']
      rw [show (d :: (ds ++ rest) : List Char) = (d :: ds) ++ rest from rfl]
      rw [hnum]
      rfl

theorem valParses_bool (b : Bool) : ValParses (renderJValD (.jbool b)) (.bool b) := by
  intro fuel rest hf hrest
  cases fuel with
  | zero => exact absurd hf (Nat.not_lt_zero _)
  | succ m =>
    cases b
    · show parseVal (m + 1) ("false".data ++ rest) = _
      show parseVal (m + 1) ('f' :: ('a' :: 'l' :: 's' :: 'e' :: rest)) = _
      rw [parseVal]
      rw [skipWs_not_ws 'f' _ (by decide)]
      simp only [if_neg (by decide : ¬ ('f' : Char) = 'n'),
        if_neg (by decide : ¬ ('f' : Char) = 't'),
        if_pos (rfl : ('f' : Char) = 'f')]
      simp
    · show parseVal (m + 1) ("true".data ++ rest) = _
      show parseVal (m + 1) ('t' :: ('r' :: 'u' :: 'e' :: rest)) = _
      rw [parseVal]
      rw [skipWs_not_ws 't' _ (by decide)]
      simp only [if_neg (by decide : ¬ ('t' : Char) = 'n'),
        if_pos (rfl : ('t' : Char) = 't')]
      simp

end Zermelo

namespace Zermelo

theorem head_cons_sep (x : Char) (xs : List Char) (hx : sepBoundary x) :
    ∀ c : Char, (x :: xs).head? = some c → sepBoundary c := by
  intro c hc
  rw [List.head?_cons] at hc
  cases hc
  exact hx

/-- Items of a rendered array, given as (text, ast) pairs. -/
theorem parseItems_gen (items : List (List Char × Json)) :
    (∀ e ∈ items, ValParses e.1 e.2) → items ≠ [] →
    ∀ fuel rest, (joinSep [','] (items.map Prod.fst)).length + 1 < fuel →
      (∀ c, rest.head? = some c → sepBoundary c) →
      parseItems fuel (joinSep [','] (items.map Prod.fst) ++ (']' :: rest)) =
        some (items.map Prod.snd, rest) := by
  induction items with
  | nil => intro _ h; exact absurd rfl h
  | cons e items ih =>
    intro hvp _ fuel rest hf hrest
    cases fuel with
    | zero => omega
    | succ m =>
      have hv : ValParses e.1 e.2 := hvp e (List.mem_cons_self ..)
      cases items with
      | nil =>
        show parseItems (m + 1) (e.1 ++ ']' :: rest) = _
        have hlen : e.1.length < m := by
          have : (joinSep [','] ((e :: []).map Prod.fst)).length = e.1.length := by
            simp [joinSep]
          omega
        rw [parseItems]
        rw [hv m (']' :: rest) hlen (head_cons_sep ']' rest (Or.inr (Or.inl rfl)))]
        simp only [skipWs_not_ws ']' rest (by decide)]
        simp
      | cons e2 items2 =>
        have hshape : joinSep [','] ((e :: e2 :: items2).map Prod.fst) ++ (']' :: rest) =
            e.1 ++ (',' :: (joinSep [','] ((e2 :: items2).map Prod.fst) ++ (']' :: rest))) := by
          simp only [List.map_cons, joinSep_cons₂]
          simp [List.append_assoc]
        have hlens : (joinSep [','] ((e :: e2 :: items2).map Prod.fst)).length =
            e.1.length + 1 + (joinSep [','] ((e2 :: items2).map Prod.fst)).length := by
          simp only [List.map_cons, joinSep_cons₂]
          simp
          omega
        rw [hshape, parseItems]
        rw [hv m (',' :: (joinSep [','] ((e2 :: items2).map Prod.fst) ++ (']' :: rest)))
          (by omega) (head_cons_sep ',' _ (Or.inl rfl))]
        simp only [skipWs_not_ws ',' _ (by decide), if_true]
        rw [ih (fun x hx => hvp x (List.mem_cons_of_mem _ hx)) (by simp) m rest
          (by omega) hrest]
        rfl

theorem joinSep_head_of_cons (c : Char) (x' : List Char) (x : List Char)
    (hx : x = c :: x') (xs : List (List Char)) :
    ∃ u, joinSep [','] (x :: xs) = c :: u := by
  cases xs with
  | nil => exact ⟨x', by simp [joinSep, hx]⟩
  | cons y ys =>
    refine ⟨x' ++ (',' :: joinSep [','] (y :: ys)), ?_⟩
    rw [joinSep_cons₂, hx]
    simp

/-- A rendered non-degenerate array parses to the list of its items' asts. -/
theorem valParses_arr (items : List (List Char × Json))
    (h : ∀ e ∈ items, ValParses e.1 e.2)
    (hhd : ∀ t, items.head? = some t →
      ∃ c t', t.1 = c :: t' ∧ isJsonWs c = false ∧ ¬ (c = ']')) :
    ValParses ('[' :: (joinSep [','] (items.map Prod.fst) ++ [']']))
      (.arr (items.map Prod.snd)) := by
  intro fuel rest hf hrest
  cases fuel with
  | zero => omega
  | succ m =>
    show parseVal (m + 1) ('[' :: ((joinSep [','] (items.map Prod.fst) ++ [']']) ++ rest)) = _
    rw [parseVal]
    rw [skipWs_not_ws '[' _ (by decide)]
    simp only [if_neg (by decide : ¬ ('[' : Char) = 'n'),
      if_neg (by decide : ¬ ('[' : Char) = 't'),
      if_neg (by decide : ¬ ('[' : Char) = 'f'),
      if_neg (by decide : ¬ ('[' : Char) = '"'),
      if_pos (rfl : ('[' : Char) = '[')]
    cases items with
    | nil =>
      show (match skipWs (([] ++ [']']) ++ rest) with
        | [] => (parseItems m (([] ++ [']']) ++ rest)).map (fun p => (Json.arr p.1, p.2))
        | d :: rest2 =>
          if d = ']' then some (Json.arr [], rest2)
          else (parseItems m (([] ++ [']']) ++ rest)).map (fun p => (Json.arr p.1, p.2))) =
        some (Json.arr [], rest)
      rw [show (([] ++ [']']) ++ rest : List Char) = ']' :: rest by simp]
      rw [skipWs_not_ws ']' rest (by decide)]
      simp
    | cons t ts =>
      obtain ⟨c, t', ht, hcws, hcne⟩ := hhd t rfl
      obtain ⟨u, hu⟩ := joinSep_head_of_cons c t' t.1 ht (ts.map Prod.fst)
      rw [show ((joinSep [','] ((t :: ts).map Prod.fst) ++ [']']) ++ rest : List Char) =
        joinSep [','] ((t :: ts).map Prod.fst) ++ (']' :: rest) by simp [List.append_assoc]]
      rw [show (joinSep [','] ((t :: ts).map Prod.fst) : List Char) =
        joinSep [','] (t.1 :: ts.map Prod.fst) by simp]
      rw [hu]
      rw [show (c :: u ++ (']' :: rest) : List Char) = c :: (u ++ (']' :: rest)) from rfl]
      rw [skipWs_not_ws c _ hcws]
      simp only [if_neg hcne]
      rw [show (c :: (u ++ (']' :: rest)) : List Char) = (c :: u) ++ (']' :: rest) from rfl]
      rw [← hu]
      have hlen2 : ('[' :: (joinSep [','] ((t :: ts).map Prod.fst) ++ [']'])).length =
          (joinSep [','] ((t :: ts).map Prod.fst)).length + 2 := by simp
      have hpi := parseItems_gen (t :: ts) h (by simp) m rest (by omega) hrest
      rw [show (t :: ts).map Prod.fst = t.1 :: ts.map Prod.fst from rfl] at hpi
      simp only [if_true]
      rw [hpi]
      rfl

end Zermelo

namespace Zermelo

/-- The rendered text of one object entry given as key and value text. -/
def entryTextG (e : String × List Char) : List Char := keylitD e.1 ++ e.2

theorem parseMembers_gen (ents : List ((String × List Char) × Json)) :
    (∀ e ∈ ents, e.1.1.data.all plainChar = true ∧ ValParses e.1.2 e.2) → ents ≠ [] →
    ∀ fuel rest, (joinSep [','] (ents.map (fun e => entryTextG e.1))).length + 1 < fuel →
      parseMembers fuel
          (joinSep [','] (ents.map (fun e => entryTextG e.1)) ++ (rbrace :: rest)) =
        some (ents.map (fun e => (e.1.1, e.2)), rest) := by
  induction ents with
  | nil => intro _ h; exact absurd rfl h
  | cons e ents ih =>
    intro hvp _ fuel rest hf
    obtain ⟨hk, hv⟩ := hvp e (List.mem_cons_self ..)
    cases fuel with
    | zero => omega
    | succ m =>
      have hkl : (keylitD e.1.1).length = e.1.1.data.length + 3 := by simp [keylitD]
      cases ents with
      | nil =>
        have hj : (joinSep [','] ([e].map (fun e => entryTextG e.1))).length =
            (keylitD e.1.1).length + e.1.2.length := by simp [joinSep, entryTextG]
        show parseMembers (m + 1) (entryTextG e.1 ++ rbrace :: rest) = _
        rw [show entryTextG e.1 ++ rbrace :: rest =
          '"' :: (e.1.1.data ++ '"' :: (':' :: (e.1.2 ++ rbrace :: rest))) by
            simp [entryTextG, keylitD, List.append_assoc]]
        rw [parseMembers]
        rw [skipWs_not_ws '"' _ (by decide)]
        simp only [if_pos (rfl : ('"' : Char) = '"')]
        rw [parseStrBody_plain e.1.1.data hk (':' :: (e.1.2 ++ rbrace :: rest))]
        simp only [skipWs_not_ws ':' _ (by decide), if_true, eq_self_iff_true]
        rw [hv m (rbrace :: rest) (by omega)
          (head_cons_sep rbrace rest (Or.inr (Or.inr rfl)))]
        simp only [skipWs_not_ws rbrace rest (by decide)]
        simp [strMk_data]
        intro hcon
        exact absurd hcon (by decide)
      | cons e2 ents2 =>
        have hshape : joinSep [','] ((e :: e2 :: ents2).map (fun x => entryTextG x.1)) ++
              (rbrace :: rest) =
            '"' :: (e.1.1.data ++ '"' :: (':' :: (e.1.2 ++
              (',' :: (joinSep [','] ((e2 :: ents2).map (fun x => entryTextG x.1)) ++
                (rbrace :: rest)))))) := by
          simp only [List.map_cons, joinSep_cons₂]
          simp [entryTextG, keylitD, List.append_assoc]
        have hlens : (joinSep [','] ((e :: e2 :: ents2).map (fun x => entryTextG x.1))).length =
            (keylitD e.1.1).length + e.1.2.length + 1 +
              (joinSep [','] ((e2 :: ents2).map (fun x => entryTextG x.1))).length := by
          simp only [List.map_cons, joinSep_cons₂]
          simp [entryTextG]
          omega
        rw [hshape, parseMembers]
        rw [skipWs_not_ws '"' _ (by decide)]
        simp only [if_pos (rfl : ('"' : Char) = '"')]
        rw [parseStrBody_plain e.1.1.data hk _]
        simp only [skipWs_not_ws ':' _ (by decide), if_true, eq_self_iff_true]
        rw [hv m (',' :: (joinSep [','] ((e2 :: ents2).map (fun x => entryTextG x.1)) ++
          (rbrace :: rest))) (by omega) (head_cons_sep ',' _ (Or.inl rfl))]
        simp only [skipWs_not_ws ',' _ (by decide), if_true, eq_self_iff_true]
        rw [ih (fun x hx => hvp x (List.mem_cons_of_mem _ hx)) (by simp) m rest (by omega)]
        simp [strMk_data]

theorem entryTextG_head (e : String × List Char) :
    entryTextG e = '"' :: (e.1.data ++ ('"' :: [':']) ++ e.2) := by
  simp [entryTextG, keylitD, List.append_assoc]

/-- A rendered object parses to the association list of its entries. -/
theorem valParses_obj (ents : List ((String × List Char) × Json))
    (h : ∀ e ∈ ents, e.1.1.data.all plainChar = true ∧ ValParses e.1.2 e.2) :
    ValParses (lbrace :: (joinSep [','] (ents.map (fun e => entryTextG e.1)) ++ [rbrace]))
      (.obj (ents.map (fun e => (e.1.1, e.2)))) := by
  intro fuel rest hf hrest
  cases fuel with
  | zero => omega
  | succ m =>
    show parseVal (m + 1)
      (lbrace :: ((joinSep [','] (ents.map (fun e => entryTextG e.1)) ++ [rbrace]) ++ rest)) = _
    rw [parseVal]
    rw [skipWs_not_ws lbrace _ (by decide)]
    simp only [if_neg (by decide : ¬ lbrace = 'n'),
      if_neg (by decide : ¬ lbrace = 't'),
      if_neg (by decide : ¬ lbrace = 'f'),
      if_neg (by decide : ¬ lbrace = '"'),
      if_neg (by decide : ¬ lbrace = '['),
      if_pos (rfl : lbrace = lbrace)]
    cases ents with
    | nil =>
      rw [show (((List.map (fun e => entryTextG e.1) ([] : List ((String × List Char) × Json))
          |> joinSep [',']) ++ [rbrace]) ++ rest : List Char) = rbrace :: rest by
        simp [joinSep]]
      rw [skipWs_not_ws rbrace rest (by decide)]
      simp
    | cons t ts =>
      obtain ⟨u, hu⟩ := joinSep_head_of_cons '"' (t.1.1.data ++ ('"' :: [':']) ++ t.1.2)
        (entryTextG t.1) (entryTextG_head t.1) (ts.map (fun e => entryTextG e.1))
      rw [show ((joinSep [','] ((t :: ts).map (fun e => entryTextG e.1)) ++ [rbrace]) ++ rest :
          List Char) =
        joinSep [','] ((t :: ts).map (fun e => entryTextG e.1)) ++ (rbrace :: rest) by
          simp [List.append_assoc]]
      rw [show (t :: ts).map (fun e => entryTextG e.1) =
        entryTextG t.1 :: ts.map (fun e => entryTextG e.1) from rfl]
      rw [hu]
      rw [show ('"' :: u ++ (rbrace :: rest) : List Char) = '"' :: (u ++ (rbrace :: rest))
        from rfl]
      rw [skipWs_not_ws '"' _ (by decide)]
      simp only [if_neg (by decide : ¬ ('"' : Char) = rbrace)]
      rw [show ('"' :: (u ++ (rbrace :: rest)) : List Char) = ('"' :: u) ++ (rbrace :: rest)
        from rfl]
      rw [← hu]
      have hlen2 : (lbrace :: (joinSep [','] ((t :: ts).map (fun e => entryTextG e.1)) ++
          [rbrace])).length =
          (joinSep [','] ((t :: ts).map (fun e => entryTextG e.1))).length + 2 := by simp
      have hpm := parseMembers_gen (t :: ts) h (by simp) m rest (by omega)
      rw [show (t :: ts).map (fun e => entryTextG e.1) =
        entryTextG t.1 :: ts.map (fun e => entryTextG e.1) from rfl] at hpm
      rw [hpm]
      rfl

end Zermelo

namespace Zermelo

theorem cleanStr_plain (s : String) (h : cleanStr s = true) :
    s.data.all plainChar = true := (Bool.and_eq_true .. |>.mp h).1

/-- Every clean value's canonical rendering parses back to its ast. -/
theorem valParses_jval (v : JVal) (hv : cleanJVal v = true) :
    ValParses (renderJValD v) (jvalAst v) := by
  cases v with
  | jint n => exact valParses_int n
  | jstr s => exact valParses_str s (cleanStr_plain s hv)
  | jbool b => exact valParses_bool b
  | jlist l =>
    have hall : l.all cleanStr = true := hv
    have h : ∀ e ∈ l.map (fun s => (quoteD s, Json.str s)), ValParses e.1 e.2 := by
      intro e he
      obtain ⟨s, hs, rfl⟩ := List.mem_map.mp he
      exact valParses_str s (cleanStr_plain s (List.all_eq_true.mp hall s hs))
    have hhd : ∀ t, (l.map (fun s => (quoteD s, Json.str s))).head? = some t →
        ∃ c t', t.1 = c :: t' ∧ isJsonWs c = false ∧ ¬ (c = ']') := by
      intro t ht
      rw [List.head?_map] at ht
      obtain ⟨s, hs, rfl⟩ := Option.map_eq_some'.mp ht
      exact ⟨'"', s.data ++ ['"'], rfl, by decide, by decide⟩
    have harr := valParses_arr (l.map (fun s => (quoteD s, Json.str s))) h hhd
    simpa [renderJValD, jvalAst, List.map_map, Function.comp] using harr

/-- A clean record's canonical rendering parses back to its entry asts. -/
theorem valParses_record (es : List (String × JVal))
    (hks : ∀ e ∈ es, e.1.data.all plainChar = true)
    (hvs : ∀ e ∈ es, cleanJVal e.2 = true) :
    ValParses (renderRecordD es) (recordAst es) := by
  have h : ∀ x ∈ es.map (fun e => ((e.1, renderJValD e.2), jvalAst e.2)),
      x.1.1.data.all plainChar = true ∧ ValParses x.1.2 x.2 := by
    intro x hx
    obtain ⟨e, he, rfl⟩ := List.mem_map.mp hx
    exact ⟨hks e he, valParses_jval e.2 (hvs e he)⟩
  have hobj := valParses_obj (es.map (fun e => ((e.1, renderJValD e.2), jvalAst e.2))) h
  simpa [renderRecordD, recordAst, List.map_map, Function.comp, entryTextG,
    renderEntryD, entryAst] using hobj

/-- The rendered `data` array of records parses to the record asts. -/
theorem valParses_dataArr (rs : List (List (String × JVal)))
    (h : ∀ r ∈ rs, ValParses (renderRecordD r) (recordAst r)) :
    ValParses ('[' :: (joinSep [','] (rs.map renderRecordD) ++ [']']))
      (.arr (rs.map recordAst)) := by
  have h2 : ∀ e ∈ rs.map (fun r => (renderRecordD r, recordAst r)), ValParses e.1 e.2 := by
    intro e he
    obtain ⟨r, hr, rfl⟩ := List.mem_map.mp he
    exact h r hr
  have hhd : ∀ t, (rs.map (fun r => (renderRecordD r, recordAst r))).head? = some t →
      ∃ c t', t.1 = c :: t' ∧ isJsonWs c = false ∧ ¬ (c = ']') := by
    intro t ht
    rw [List.head?_map] at ht
    obtain ⟨r, hr, rfl⟩ := Option.map_eq_some'.mp ht
    exact ⟨lbrace, joinSep [','] (r.map renderEntryD) ++ [rbrace], rfl, by decide, by decide⟩
  have harr := valParses_arr (rs.map (fun r => (renderRecordD r, recordAst r))) h2 hhd
  simpa [List.map_map, Function.comp] using harr

/-- The full rendered envelope as the nested-object shape of its parse. -/
theorem renderBodyD_shape (J : List Char) :
    bodyPrefixD ++ (J ++ bodySuffixD) =
      lbrace :: (entryTextG ("response",
        lbrace :: (entryTextG ("data", '[' :: (J ++ [']'])) ++ [rbrace])) ++ [rbrace]) := by
  simp [bodyPrefixD, bodySuffixD, entryTextG, keylitD, List.append_assoc]
  exact ⟨by decide, by decide⟩

/-- The canonical body of clean records parses to the envelope ast. -/
theorem valParses_body (rs : List (List (String × JVal)))
    (h : ∀ r ∈ rs, ValParses (renderRecordD r) (recordAst r)) :
    ValParses (renderBodyD rs) (bodyAst rs) := by
  have harr := valParses_dataArr rs h
  have hobj1 := valParses_obj
    [(("data", '[' :: (joinSep [','] (rs.map renderRecordD) ++ [']'])),
      Json.arr (rs.map recordAst))] (by
    intro e he
    rw [List.mem_singleton] at he
    subst he
    exact ⟨(by decide : ("data" : String).data.all plainChar = true), harr⟩)
  simp only [List.map_cons, List.map_nil, joinSep] at hobj1
  have hobj2 := valParses_obj
    [(("response",
        lbrace :: (entryTextG ("data",
          '[' :: (joinSep [','] (rs.map renderRecordD) ++ [']'])) ++ [rbrace])),
      Json.obj [("data", Json.arr (rs.map recordAst))])] (by
    intro e he
    rw [List.mem_singleton] at he
    subst he
    exact ⟨(by decide : ("response" : String).data.all plainChar = true), hobj1⟩)
  simp only [List.map_cons, List.map_nil, joinSep] at hobj2
  show ValParses (bodyPrefixD ++ (joinSep [','] (rs.map renderRecordD) ++ bodySuffixD))
    (bodyAst rs)
  rw [renderBodyD_shape (joinSep [','] (rs.map renderRecordD))]
  exact hobj2

/-- `serde_json::from_str` of the canonical body of clean records. -/
theorem parseJson_renderBody (rs : List (List (String × JVal)))
    (h : ∀ r ∈ rs, ValParses (renderRecordD r) (recordAst r)) :
    parseJson (String.mk (renderBodyD rs)) = some (bodyAst rs) := by
  have hv := valParses_body rs h ((renderBodyD rs).length + 1) [] (by omega)
    (by intro c hc; simp at hc)
  rw [List.append_nil] at hv
  show (match parseVal ((renderBodyD rs).length + 1) (renderBodyD rs) with
    | some (v, rest) => if skipWs rest = [] then some v else none
    | none => none) = some (bodyAst rs)
  rw [hv]
  rfl

end Zermelo

namespace Zermelo

/-! ## Decoding the parsed canonical body -/

theorem decodeI64_clean (v : Int) (hv : i64Range v = true) :
    decodeI64 (Json.num v true) = .ok v := by
  have h : -(2 ^ 63) ≤ v ∧ v < 2 ^ 63 := of_decide_eq_true hv
  show (if -(2 ^ 63) ≤ v ∧ v < 2 ^ 63 then (Except.ok v : Except String Int)
    else .error "number out of i64 range") = .ok v
  rw [if_pos h]

theorem decodeStringList_strs (l : List String) :
    decodeStringList (Json.arr (l.map .str)) = .ok l := by
  induction l with
  | nil => rfl
  | cons s t ih =>
    simp only [List.map_cons, decodeStringList, List.foldr_cons]
    simp only [decodeStringList] at ih
    rw [ih]
    rfl

theorem decodeOpt_int (v : Int) (hv : i64Range v = true) :
    decodeOpt decodeI64 (Json.num v true) = .ok (some v) := by
  show (decodeI64 (Json.num v true)).map some = _
  rw [decodeI64_clean v hv]
  rfl

theorem decodeOpt_str (s : String) : decodeOpt decodeString (Json.str s) = .ok (some s) := rfl

theorem decodeOpt_bool (b : Bool) : decodeOpt decodeBool (Json.bool b) = .ok (some b) := rfl

theorem decodeOpt_strList (l : List String) :
    decodeOpt decodeStringList (Json.arr (l.map .str)) = .ok (some l) := by
  show (decodeStringList (Json.arr (l.map .str))).map some = _
  rw [decodeStringList_strs l]
  rfl

/-- The entry lists of a run of optional-field segments, concatenated. -/
def segsText : List (List (String × Json) × (Appointment → Appointment)) →
    List (String × Json)
  | [] => []
  | s :: ss => s.1 ++ segsText ss

def segsKeys (segs : List (List (String × Json) × (Appointment → Appointment))) :
    List String := (segsText segs).map Prod.fst

/-- The record updates of the segments applied in order. -/
def applySegs : List (List (String × Json) × (Appointment → Appointment)) →
    Appointment → Appointment
  | [], a => a
  | s :: ss, a => applySegs ss (s.2 a)

/-- Walking `decodeAppointmentFields` over a run of segments, each either
empty (field absent, identity update) or a single known, fresh field whose
decode succeeds, applies exactly the segment updates. -/
theorem decodeFields_segs (segs : List (List (String × Json) × (Appointment → Appointment))) :
    (∀ s ∈ segs,
      (s.1 = [] ∧ ∀ b, s.2 b = b) ∨
      ∃ k v, s.1 = [(k, v)] ∧ k ∈ appointmentFieldNames ∧
        ∀ b, setAppointmentField b k v = .ok (s.2 b)) →
    (segsKeys segs).Nodup →
    ∀ a seen, (∀ k ∈ segsKeys segs, k ∉ seen) →
      decodeAppointmentFields (segsText segs) a seen = .ok (applySegs segs a) := by
  induction segs with
  | nil => intro _ _ a seen _; rfl
  | cons s ss ih =>
    intro hok hnd a seen hdisj
    rcases hok s (List.mem_cons_self ..) with ⟨h1, h2⟩ | ⟨k, v, hseg, hk, hset⟩
    · have hkeq : segsKeys (s :: ss) = segsKeys ss := by
        simp [segsKeys, segsText, h1]
      show decodeAppointmentFields (s.1 ++ segsText ss) a seen = .ok (applySegs ss (s.2 a))
      rw [h1, h2 a]
      show decodeAppointmentFields (segsText ss) a seen = _
      exact ih (fun x hx => hok x (List.mem_cons_of_mem _ hx)) (hkeq ▸ hnd) a seen
        (fun k hk2 => hdisj k (hkeq ▸ hk2))
    · have hks : segsKeys (s :: ss) = k :: segsKeys ss := by
        simp [segsKeys, segsText, hseg]
      have hndk : k ∉ segsKeys ss ∧ (segsKeys ss).Nodup := by
        rw [hks] at hnd
        exact ⟨(List.nodup_cons.mp hnd).1, (List.nodup_cons.mp hnd).2⟩
      show decodeAppointmentFields (s.1 ++ segsText ss) a seen = .ok (applySegs ss (s.2 a))
      rw [hseg]
      show decodeAppointmentFields ((k, v) :: segsText ss) a seen = _
      rw [decodeAppointmentFields]
      rw [if_pos hk]
      rw [if_neg (hdisj k (by rw [hks]; exact List.mem_cons_self ..))]
      rw [hset a]
      show decodeAppointmentFields (segsText ss) (s.2 a) (k :: seen) =
        .ok (applySegs ss (s.2 a))
      refine ih (fun x hx => hok x (List.mem_cons_of_mem _ hx)) hndk.2 (s.2 a) (k :: seen) ?_
      intro k2 hk2
      rw [List.mem_cons]
      rintro (rfl | hk3)
      · exact hndk.1 hk2
      · exact hdisj k2 (by rw [hks]; exact List.mem_cons_of_mem _ hk2) hk3

end Zermelo

namespace Zermelo

/-- The twenty field segments of one wire record at the post-rename stage:
the rendered entries (empty when the field is absent) and the record update
the decode of that segment performs. -/
def wireSegs (w : WireAppointment) :
    List (List (String × Json) × (Appointment → Appointment)) :=
  [((optE "id" .jint w.id).map entryAst, fun b => { b with id := w.id.or b.id }),
   ((optE "appointment_instance" .jint w.appointmentInstance).map entryAst,
     fun b => { b with appointment_instance := w.appointmentInstance.or b.appointment_instance }),
   ((optE "start" .jint w.start).map entryAst, fun b => { b with start := w.start.or b.start }),
   ((optE "end" .jint w.«end»).map entryAst, fun b => { b with «end» := w.«end».or b.«end» }),
   ((optE "start_time_slot" .jint w.startTimeSlot).map entryAst,
     fun b => { b with start_time_slot := w.startTimeSlot.or b.start_time_slot }),
   ((optE "end_time_slot" .jint w.endTimeSlot).map entryAst,
     fun b => { b with end_time_slot := w.endTimeSlot.or b.end_time_slot }),
   ((optE "subjects" .jlist w.subjects).map entryAst,
     fun b => { b with subjects := w.subjects.or b.subjects }),
   ((optE "teachers" .jlist w.teachers).map entryAst,
     fun b => { b with teachers := w.teachers.or b.teachers }),
   ((optE "groups" .jlist w.groups).map entryAst,
     fun b => { b with groups := w.groups.or b.groups }),
   ((optE "locations" .jlist w.locations).map entryAst,
     fun b => { b with locations := w.locations.or b.locations }),
   ((optE "appointment_type" .jstr w.type).map entryAst,
     fun b => { b with appointment_type := w.type.or b.appointment_type }),
   ((optE "remark" .jstr w.remark).map entryAst,
     fun b => { b with remark := w.remark.or b.remark }),
   ((optE "valid" .jbool w.valid).map entryAst,
     fun b => { b with valid := w.valid.or b.valid }),
   ((optE "cancelled" .jbool w.cancelled).map entryAst,
     fun b => { b with cancelled := w.cancelled.or b.cancelled }),
   ((optE "modified" .jbool w.modified).map entryAst,
     fun b => { b with modified := w.modified.or b.modified }),
   ((optE "moved" .jbool w.moved).map entryAst,
     fun b => { b with moved := w.moved.or b.moved }),
   ((optE "new" .jbool w.new).map entryAst, fun b => { b with new := w.new.or b.new }),
   ((optE "change_description" .jstr w.changeDescription).map entryAst,
     fun b => { b with change_description := w.changeDescription.or b.change_description }),
   ((optE "last_modified" .jint w.lastModified).map entryAst,
     fun b => { b with last_modified := w.lastModified.or b.last_modified }),
   ((optE "branch_of_school" .jint w.branchOfSchool).map entryAst,
     fun b => { b with branch_of_school := w.branchOfSchool.or b.branch_of_school })]

theorem segsText_wireSegs (w : WireAppointment) :
    segsText (wireSegs w) = (entriesWithKeys (stageKeys 7) w).map entryAst := by
  simp only [segsText, wireSegs, entriesWithKeys, List.map_append, List.append_nil,
    List.append_assoc]
  rfl

theorem wireSegs_ok (w : WireAppointment) (hclean : cleanWire w = true) :
    ∀ s ∈ wireSegs w,
      (s.1 = [] ∧ ∀ b, s.2 b = b) ∨
      ∃ k v, s.1 = [(k, v)] ∧ k ∈ appointmentFieldNames ∧
        ∀ b, setAppointmentField b k v = .ok (s.2 b) := by
  simp only [cleanWire, Bool.and_eq_true] at hclean
  obtain ⟨⟨⟨⟨⟨⟨⟨⟨⟨⟨⟨⟨⟨⟨⟨h1, h2⟩, h3⟩, h4⟩, h5⟩, h6⟩, h7⟩, h8⟩, h9⟩, h10⟩, h11⟩, h12⟩,
    h13⟩, h14⟩, h15⟩, h16⟩ := hclean
  intro s hs
  simp only [wireSegs, List.mem_cons, List.not_mem_nil, or_false] at hs
  rcases hs with rfl | rfl | rfl | rfl | rfl | rfl | rfl | rfl | rfl | rfl | rfl | rfl |
    rfl | rfl | rfl | rfl | rfl | rfl | rfl | rfl
  · rcases hw : w.id with _ | v
    · exact Or.inl ⟨rfl, fun b => rfl⟩
    · refine Or.inr ⟨"id", Json.num v true, rfl, by decide, fun b => ?_⟩
      simp [setAppointmentField, Except.map, decodeOpt_int v (option_all_some h1 v hw)]
  · rcases hw : w.appointmentInstance with _ | v
    · exact Or.inl ⟨rfl, fun b => rfl⟩
    · refine Or.inr ⟨"appointment_instance", Json.num v true, rfl, by decide,
        fun b => ?_⟩
      simp [setAppointmentField, Except.map, decodeOpt_int v (option_all_some h2 v hw)]
  · rcases hw : w.start with _ | v
    · exact Or.inl ⟨rfl, fun b => rfl⟩
    · refine Or.inr ⟨"start", Json.num v true, rfl, by decide, fun b => ?_⟩
      simp [setAppointmentField, Except.map, decodeOpt_int v (option_all_some h3 v hw)]
  · rcases hw : w.«end» with _ | v
    · exact Or.inl ⟨rfl, fun b => rfl⟩
    · refine Or.inr ⟨"end", Json.num v true, rfl, by decide, fun b => ?_⟩
      simp [setAppointmentField, Except.map, decodeOpt_int v (option_all_some h4 v hw)]
  · rcases hw : w.startTimeSlot with _ | v
    · exact Or.inl ⟨rfl, fun b => rfl⟩
    · refine Or.inr ⟨"start_time_slot", Json.num v true, rfl, by decide,
        fun b => ?_⟩
      simp [setAppointmentField, Except.map, decodeOpt_int v (option_all_some h5 v hw)]
  · rcases hw : w.endTimeSlot with _ | v
    · exact Or.inl ⟨rfl, fun b => rfl⟩
    · refine Or.inr ⟨"end_time_slot", Json.num v true, rfl, by decide,
        fun b => ?_⟩
      simp [setAppointmentField, Except.map, decodeOpt_int v (option_all_some h6 v hw)]
  · rcases hw : w.subjects with _ | v
    · exact Or.inl ⟨rfl, fun b => rfl⟩
    · refine Or.inr ⟨"subjects", Json.arr (v.map .str), rfl, by decide,
        fun b => ?_⟩
      simp [setAppointmentField, Except.map, decodeOpt_strList v]
  · rcases hw : w.teachers with _ | v
    · exact Or.inl ⟨rfl, fun b => rfl⟩
    · refine Or.inr ⟨"teachers", Json.arr (v.map .str), rfl, by decide,
        fun b => ?_⟩
      simp [setAppointmentField, Except.map, decodeOpt_strList v]
  · rcases hw : w.groups with _ | v
    · exact Or.inl ⟨rfl, fun b => rfl⟩
    · refine Or.inr ⟨"groups", Json.arr (v.map .str), rfl, by decide,
        fun b => ?_⟩
      simp [setAppointmentField, Except.map, decodeOpt_strList v]
  · rcases hw : w.locations with _ | v
    · exact Or.inl ⟨rfl, fun b => rfl⟩
    · refine Or.inr ⟨"locations", Json.arr (v.map .str), rfl, by decide,
        fun b => ?_⟩
      simp [setAppointmentField, Except.map, decodeOpt_strList v]
  · rcases hw : w.type with _ | v
    · exact Or.inl ⟨rfl, fun b => rfl⟩
    · refine Or.inr ⟨"appointment_type", Json.str v, rfl, by decide,
        fun b => ?_⟩
      simp [setAppointmentField, Except.map, decodeOpt_str v]
  · rcases hw : w.remark with _ | v
    · exact Or.inl ⟨rfl, fun b => rfl⟩
    · refine Or.inr ⟨"remark", Json.str v, rfl, by decide, fun b => ?_⟩
      simp [setAppointmentField, Except.map, decodeOpt_str v]
  · rcases hw : w.valid with _ | v
    · exact Or.inl ⟨rfl, fun b => rfl⟩
    · refine Or.inr ⟨"valid", Json.bool v, rfl, by decide, fun b => ?_⟩
      simp [setAppointmentField, Except.map, decodeOpt_bool v]
  · rcases hw : w.cancelled with _ | v
    · exact Or.inl ⟨rfl, fun b => rfl⟩
    · refine Or.inr ⟨"cancelled", Json.bool v, rfl, by decide, fun b => ?_⟩
      simp [setAppointmentField, Except.map, decodeOpt_bool v]
  · rcases hw : w.modified with _ | v
    · exact Or.inl ⟨rfl, fun b => rfl⟩
    · refine Or.inr ⟨"modified", Json.bool v, rfl, by decide, fun b => ?_⟩
      simp [setAppointmentField, Except.map, decodeOpt_bool v]
  · rcases hw : w.moved with _ | v
    · exact Or.inl ⟨rfl, fun b => rfl⟩
    · refine Or.inr ⟨"moved", Json.bool v, rfl, by decide, fun b => ?_⟩
      simp [setAppointmentField, Except.map, decodeOpt_bool v]
  · rcases hw : w.new with _ | v
    · exact Or.inl ⟨rfl, fun b => rfl⟩
    · refine Or.inr ⟨"new", Json.bool v, rfl, by decide, fun b => ?_⟩
      simp [setAppointmentField, Except.map, decodeOpt_bool v]
  · rcases hw : w.changeDescription with _ | v
    · exact Or.inl ⟨rfl, fun b => rfl⟩
    · refine Or.inr ⟨"change_description", Json.str v, rfl, by decide,
        fun b => ?_⟩
      simp [setAppointmentField, Except.map, decodeOpt_str v]
  · rcases hw : w.lastModified with _ | v
    · exact Or.inl ⟨rfl, fun b => rfl⟩
    · refine Or.inr ⟨"last_modified", Json.num v true, rfl, by decide,
        fun b => ?_⟩
      simp [setAppointmentField, Except.map, decodeOpt_int v (option_all_some h15 v hw)]
  · rcases hw : w.branchOfSchool with _ | v
    · exact Or.inl ⟨rfl, fun b => rfl⟩
    · refine Or.inr ⟨"branch_of_school", Json.num v true, rfl, by decide,
        fun b => ?_⟩
      simp [setAppointmentField, Except.map, decodeOpt_int v (option_all_some h16 v hw)]

end Zermelo

namespace Zermelo

theorem optE_keys_sublist (k : String) (enc : β → JVal) (o : Option β) :
    List.Sublist (((optE k enc o).map entryAst).map Prod.fst) [k] := by
  cases o with
  | none => exact List.nil_sublist _
  | some v => exact List.Sublist.refl _

theorem wireSegs_keys_sublist (w : WireAppointment) :
    List.Sublist (segsKeys (wireSegs w)) appointmentFieldNames := by
  show List.Sublist ((segsText (wireSegs w)).map Prod.fst) _
  simp only [segsText, wireSegs, List.map_append, List.append_nil, List.map_nil]
  show List.Sublist _ (["id"] ++ (["appointment_instance"] ++ (["start"] ++ (["end"] ++
    (["start_time_slot"] ++ (["end_time_slot"] ++ (["subjects"] ++ (["teachers"] ++
    (["groups"] ++ (["locations"] ++ (["appointment_type"] ++ (["remark"] ++
    (["valid"] ++ (["cancelled"] ++ (["modified"] ++ (["moved"] ++ (["new"] ++
    (["change_description"] ++ (["last_modified"] ++ (["branch_of_school"] ++
      ([] : List String)))))))))))))))))))))
  refine (optE_keys_sublist _ _ _).append ?_
  refine (optE_keys_sublist _ _ _).append ?_
  refine (optE_keys_sublist _ _ _).append ?_
  refine (optE_keys_sublist _ _ _).append ?_
  refine (optE_keys_sublist _ _ _).append ?_
  refine (optE_keys_sublist _ _ _).append ?_
  refine (optE_keys_sublist _ _ _).append ?_
  refine (optE_keys_sublist _ _ _).append ?_
  refine (optE_keys_sublist _ _ _).append ?_
  refine (optE_keys_sublist _ _ _).append ?_
  refine (optE_keys_sublist _ _ _).append ?_
  refine (optE_keys_sublist _ _ _).append ?_
  refine (optE_keys_sublist _ _ _).append ?_
  refine (optE_keys_sublist _ _ _).append ?_
  refine (optE_keys_sublist _ _ _).append ?_
  refine (optE_keys_sublist _ _ _).append ?_
  refine (optE_keys_sublist _ _ _).append ?_
  refine (optE_keys_sublist _ _ _).append ?_
  refine (optE_keys_sublist _ _ _).append ?_
  exact optE_keys_sublist _ _ _

theorem wireSegs_keys_nodup (w : WireAppointment) : (segsKeys (wireSegs w)).Nodup :=
  (wireSegs_keys_sublist w).nodup (by decide)

theorem applySegs_wireSegs (w : WireAppointment) :
    applySegs (wireSegs w) {} = convertWire w := by
  simp [applySegs, wireSegs, convertWire, Option.or_none]

/-- Decoding a canonically rendered clean record produces exactly the
§6-renamed appointment: renamed fields, all values unchanged. -/
theorem decodeAppointment_record (w : WireAppointment) (hclean : cleanWire w = true) :
    decodeAppointment (recordAst (entriesWithKeys (stageKeys 7) w)) =
      .ok (convertWire w) := by
  show decodeAppointmentFields ((entriesWithKeys (stageKeys 7) w).map entryAst) {} [] = _
  rw [← segsText_wireSegs w]
  rw [decodeFields_segs (wireSegs w) (wireSegs_ok w hclean) (wireSegs_keys_nodup w) {} []
    (by intro k _; exact List.not_mem_nil k)]
  rw [applySegs_wireSegs w]

theorem decodeAppointmentList_records (ws : List WireAppointment)
    (hclean : ∀ w ∈ ws, cleanWire w = true) :
    decodeAppointmentList
        (.arr ((ws.map (entriesWithKeys (stageKeys 7))).map recordAst)) =
      .ok (ws.map convertWire) := by
  induction ws with
  | nil => rfl
  | cons w ws ih =>
    simp only [List.map_cons, decodeAppointmentList, List.foldr_cons]
    simp only [decodeAppointmentList] at ih
    rw [ih (fun x hx => hclean x (List.mem_cons_of_mem _ hx))]
    rw [decodeAppointment_record w (hclean w (List.mem_cons_self ..))]
    rfl

end Zermelo

namespace Zermelo

theorem mem_optE (k : String) (enc : β → JVal) (o : Option β) (e : String × JVal)
    (he : e ∈ optE k enc o) : ∃ v, o = some v ∧ e = (k, enc v) := by
  cases o with
  | none => exact absurd (show e ∈ ([] : List (String × JVal)) from he) (List.not_mem_nil e)
  | some v =>
    have he2 : e ∈ [(k, enc v)] := he
    rw [List.mem_singleton] at he2
    exact ⟨v, rfl, he2⟩

theorem entriesWithKeys_facts (w : WireAppointment) (hclean : cleanWire w = true) :
    ∀ e ∈ entriesWithKeys (stageKeys 7) w,
      e.1.data.all plainChar = true ∧ cleanJVal e.2 = true := by
  simp only [cleanWire, Bool.and_eq_true] at hclean
  obtain ⟨⟨⟨⟨⟨⟨⟨⟨⟨⟨⟨⟨⟨⟨⟨h1, h2⟩, h3⟩, h4⟩, h5⟩, h6⟩, h7⟩, h8⟩, h9⟩, h10⟩, h11⟩, h12⟩,
    h13⟩, h14⟩, h15⟩, h16⟩ := hclean
  intro e he
  simp only [entriesWithKeys, List.mem_append] at he
  rcases he with ((((((((((((((((((he | he) | he) | he) | he) | he) | he) | he) | he) |
    he) | he) | he) | he) | he) | he) | he) | he) | he) | he) | he
  · obtain ⟨v, hv, rfl⟩ := mem_optE _ _ _ e he
    exact ⟨(by decide : ((stageKeys 7).getD 0 "").data.all plainChar = true), option_all_some h1 v hv⟩
  · obtain ⟨v, hv, rfl⟩ := mem_optE _ _ _ e he
    exact ⟨(by decide : ((stageKeys 7).getD 1 "").data.all plainChar = true), option_all_some h2 v hv⟩
  · obtain ⟨v, hv, rfl⟩ := mem_optE _ _ _ e he
    exact ⟨(by decide : ((stageKeys 7).getD 2 "").data.all plainChar = true), option_all_some h3 v hv⟩
  · obtain ⟨v, hv, rfl⟩ := mem_optE _ _ _ e he
    exact ⟨(by decide : ((stageKeys 7).getD 3 "").data.all plainChar = true), option_all_some h4 v hv⟩
  · obtain ⟨v, hv, rfl⟩ := mem_optE _ _ _ e he
    exact ⟨(by decide : ((stageKeys 7).getD 4 "").data.all plainChar = true), option_all_some h5 v hv⟩
  · obtain ⟨v, hv, rfl⟩ := mem_optE _ _ _ e he
    exact ⟨(by decide : ((stageKeys 7).getD 5 "").data.all plainChar = true), option_all_some h6 v hv⟩
  · obtain ⟨v, hv, rfl⟩ := mem_optE _ _ _ e he
    exact ⟨(by decide : ((stageKeys 7).getD 6 "").data.all plainChar = true), option_all_some h7 v hv⟩
  · obtain ⟨v, hv, rfl⟩ := mem_optE _ _ _ e he
    exact ⟨(by decide : ((stageKeys 7).getD 7 "").data.all plainChar = true), option_all_some h8 v hv⟩
  · obtain ⟨v, hv, rfl⟩ := mem_optE _ _ _ e he
    exact ⟨(by decide : ((stageKeys 7).getD 8 "").data.all plainChar = true), option_all_some h9 v hv⟩
  · obtain ⟨v, hv, rfl⟩ := mem_optE _ _ _ e he
    exact ⟨(by decide : ((stageKeys 7).getD 9 "").data.all plainChar = true), option_all_some h10 v hv⟩
  · obtain ⟨v, hv, rfl⟩ := mem_optE _ _ _ e he
    exact ⟨(by decide : ((stageKeys 7).getD 10 "").data.all plainChar = true), option_all_some h11 v hv⟩
  · obtain ⟨v, hv, rfl⟩ := mem_optE _ _ _ e he
    exact ⟨(by decide : ((stageKeys 7).getD 11 "").data.all plainChar = true), option_all_some h12 v hv⟩
  · obtain ⟨v, hv, rfl⟩ := mem_optE _ _ _ e he
    exact ⟨(by decide : ((stageKeys 7).getD 12 "").data.all plainChar = true), rfl⟩
  · obtain ⟨v, hv, rfl⟩ := mem_optE _ _ _ e he
    exact ⟨(by decide : ((stageKeys 7).getD 13 "").data.all plainChar = true), rfl⟩
  · obtain ⟨v, hv, rfl⟩ := mem_optE _ _ _ e he
    exact ⟨(by decide : ((stageKeys 7).getD 14 "").data.all plainChar = true), rfl⟩
  · obtain ⟨v, hv, rfl⟩ := mem_optE _ _ _ e he
    exact ⟨(by decide : ((stageKeys 7).getD 15 "").data.all plainChar = true), rfl⟩
  · obtain ⟨v, hv, rfl⟩ := mem_optE _ _ _ e he
    exact ⟨(by decide : ((stageKeys 7).getD 16 "").data.all plainChar = true), rfl⟩
  · obtain ⟨v, hv, rfl⟩ := mem_optE _ _ _ e he
    exact ⟨(by decide : ((stageKeys 7).getD 17 "").data.all plainChar = true), option_all_some h14 v hv⟩
  · obtain ⟨v, hv, rfl⟩ := mem_optE _ _ _ e he
    exact ⟨(by decide : ((stageKeys 7).getD 18 "").data.all plainChar = true), option_all_some h15 v hv⟩
  · obtain ⟨v, hv, rfl⟩ := mem_optE _ _ _ e he
    exact ⟨(by decide : ((stageKeys 7).getD 19 "").data.all plainChar = true), option_all_some h16 v hv⟩

theorem stage7_records_parse (ws : List WireAppointment)
    (hclean : ∀ w ∈ ws, cleanWire w = true) :
    ∀ r ∈ ws.map (entriesWithKeys (stageKeys 7)),
      ValParses (renderRecordD r) (recordAst r) := by
  intro r hr
  obtain ⟨w, hw, rfl⟩ := List.mem_map.mp hr
  have hf := entriesWithKeys_facts w (hclean w hw)
  exact valParses_record _ (fun e he => (hf e he).1) (fun e he => (hf e he).2)

/-- `serde_json::from_str::<AppointmentsResponse>` of the canonical body at
the post-rename stage: exactly the records, each the §6-renamed appointment. -/
theorem decodeBody_renderBody (ws : List WireAppointment)
    (hclean : ∀ w ∈ ws, cleanWire w = true) :
    decodeAppointmentsBody
        (String.mk (renderBodyD (ws.map (entriesWithKeys (stageKeys 7))))) =
      .ok (ws.map convertWire) := by
  have hp := parseJson_renderBody (ws.map (entriesWithKeys (stageKeys 7)))
    (stage7_records_parse ws hclean)
  simp only [decodeAppointmentsBody]
  rw [hp]
  exact decodeAppointmentList_records ws hclean

end Zermelo

namespace Zermelo

/-- C2 (amended): for every response body that is the canonical rendering of
`N` wire appointment records whose values are clean (string values use
escape-free characters and contain none of the seven wire field names as
substrings; integers fit in `i64`), the decode stage of `get_appointments`
returns exactly those `N` records, each record's present wire fields renamed
per the §6 table (`appointmentInstance→appointment_instance`,
`startTimeSlot→start_time_slot`, `endTimeSlot→end_time_slot`,
`type→appointment_type`, `lastModified→last_modified`,
`changeDescription→change_description`, `branchOfSchool→branch_of_school`,
via `convertWire`), all other fields and all field values unchanged; the
stored result is that record list only further reordered by the
`sort_unstable_by_key` sort. -/
theorem c2_amended_renames_values (ws : List WireAppointment) (s : Schedule)
    (start «end» : Int) (hclean : ∀ w ∈ ws, cleanWire w = true) :
    decodeAppointmentsBody (renameBody (renderAppointmentsBody ws)) =
      .ok (ws.map convertWire) ∧
    (ws.map convertWire).length = ws.length ∧
    (s.get_appointments start «end» (.ok 200 (renderAppointmentsBody ws))).2 =
      { s with appointments := sortUnstableByKey sortKey (ws.map convertWire) } := by
  have hdec : decodeAppointmentsBody (renameBody (renderAppointmentsBody ws)) =
      .ok (ws.map convertWire) := by
    rw [renameBody_render ws hclean]
    exact decodeBody_renderBody ws hclean
  refine ⟨hdec, List.length_map .., ?_⟩
  show (Schedule.get_appointments s start «end» (.ok 200 (renderAppointmentsBody ws))).2 = _
  simp [Schedule.get_appointments, hdec]

/-- The example record of spec §8 (and of the crate's own test) as a wire
record. -/
def c2WitnessWire : WireAppointment :=
  { id := some 5, start := some 42364236, «end» := some 436234523,
    startTimeSlot := some 1, endTimeSlot := some 1, subjects := some ["ne"],
    teachers := some ["KRO"], groups := some ["v1a"], locations := some ["M92"],
    type := some "lesson", remark := some "Take care to bring your books",
    valid := some true, cancelled := some false, modified := some true,
    moved := some false, new := some false,
    changeDescription := some "The location has been changed from M13 to M92" }

/-- Witness for the amended C2 at the spec §8 example record. -/
theorem c2_amended_witness :
    (∀ w ∈ [c2WitnessWire], cleanWire w = true) ∧
    (decodeAppointmentsBody (renameBody (renderAppointmentsBody [c2WitnessWire])) =
      .ok ([c2WitnessWire].map convertWire) ∧
    ([c2WitnessWire].map convertWire).length = [c2WitnessWire].length ∧
    (demoSchedule.get_appointments 0 1
        (.ok 200 (renderAppointmentsBody [c2WitnessWire]))).2 =
      { demoSchedule with
        appointments := sortUnstableByKey sortKey ([c2WitnessWire].map convertWire) }) :=
  ⟨by decide, c2_amended_renames_values [c2WitnessWire] demoSchedule 0 1 (by decide)⟩

end Zermelo

namespace Zermelo

/-! ## Functional correctness of the `sort_unstable_by_key` embedding

Bottom layer: reads, writes and swaps on indexed lists. -/

theorem getI_eq_get [Inhabited α] (v : List α) (i : Nat) (h : i < v.length) :
    getI v i = v.get ⟨i, h⟩ := by
  simp [getI, List.getD_eq_getElem?_getD, List.getElem?_eq_getElem h]

theorem getI_mem [Inhabited α] (v : List α) (i : Nat) (h : i < v.length) :
    getI v i ∈ v := by
  rw [getI_eq_get v i h]
  exact List.get_mem ..

theorem list_decomp (v : List α) (i : Nat) (h : i < v.length) :
    v = v.take i ++ v.get ⟨i, h⟩ :: v.drop (i + 1) := by
  conv_lhs => rw [← List.take_append_drop i v]
  congr 1
  rw [List.get_cons_drop]

theorem setI_decomp (v : List α) (i : Nat) (x : α) (h : i < v.length) :
    setI v i x = v.take i ++ x :: v.drop (i + 1) := by
  simp [setI, List.set_eq_take_append_cons_drop, h]

theorem getI_setI_self [Inhabited α] (v : List α) (i : Nat) (x : α)
    (h : i < v.length) : getI (setI v i x) i = x := by
  have h2 : i < (setI v i x).length := by rwa [length_setI]
  rw [getI_eq_get _ i h2]
  simp [setI]

theorem getI_setI_ne [Inhabited α] (v : List α) (i j : Nat) (x : α)
    (h : i ≠ j) : getI (setI v i x) j = getI v j := by
  simp [getI, setI, List.getD_eq_getElem?_getD, List.getElem?_set_ne h]

theorem getI_swapI_left [Inhabited α] (v : List α) (i j : Nat)
    (hi : i < v.length) (hj : j < v.length) : getI (swapI v i j) i = getI v j := by
  show getI (setI (setI v i (getI v j)) j (getI v i)) i = getI v j
  by_cases h : j = i
  · subst h
    rw [getI_setI_self _ _ _ (by rwa [length_setI])]
  · rw [getI_setI_ne _ _ _ _ h, getI_setI_self _ _ _ hi]

theorem getI_swapI_right [Inhabited α] (v : List α) (i j : Nat)
    (hj : j < v.length) : getI (swapI v i j) j = getI v i := by
  show getI (setI (setI v i (getI v j)) j (getI v i)) j = getI v i
  rw [getI_setI_self _ _ _ (by rwa [length_setI])]

theorem getI_swapI_other [Inhabited α] (v : List α) (i j k : Nat)
    (h1 : k ≠ i) (h2 : k ≠ j) : getI (swapI v i j) k = getI v k := by
  show getI (setI (setI v i (getI v j)) j (getI v i)) k = getI v k
  rw [getI_setI_ne _ _ _ _ (fun h => h2 h.symm), getI_setI_ne _ _ _ _ (fun h => h1 h.symm)]

theorem setI_multiset [Inhabited α] (v : List α) (i : Nat) (x : α)
    (h : i < v.length) :
    (getI v i) ::ₘ (↑(setI v i x) : Multiset α) = x ::ₘ (↑v : Multiset α) := by
  rw [setI_decomp v i x h]
  conv_rhs => rw [list_decomp v i h, ← getI_eq_get v i h]
  show getI v i ::ₘ ↑(v.take i ++ x :: v.drop (i + 1)) =
    x ::ₘ ↑(v.take i ++ getI v i :: v.drop (i + 1))
  rw [← Multiset.coe_add, ← Multiset.coe_add]
  show getI v i ::ₘ (↑(v.take i) + ↑(x :: v.drop (i + 1))) =
    x ::ₘ (↑(v.take i) + ↑(getI v i :: v.drop (i + 1)))
  rw [← Multiset.cons_coe, ← Multiset.cons_coe]
  rw [Multiset.add_cons, Multiset.add_cons, Multiset.cons_swap]

theorem swapI_perm [Inhabited α] (v : List α) (i j : Nat)
    (hi : i < v.length) (hj : j < v.length) : List.Perm (swapI v i j) v := by
  rw [← Multiset.coe_eq_coe]
  show (↑(setI (setI v i (getI v j)) j (getI v i)) : Multiset α) = ↑v
  have h1 := setI_multiset v i (getI v j) hi
  have h2 := setI_multiset (setI v i (getI v j)) j (getI v i) (by rwa [length_setI])
  have hA : getI (setI v i (getI v j)) j = getI v j := by
    by_cases hij : i = j
    · subst hij
      exact getI_setI_self v i (getI v i) hi
    · exact getI_setI_ne v i j (getI v j) hij
  rw [hA] at h2
  have h3 : getI v j ::ₘ (↑(setI (setI v i (getI v j)) j (getI v i)) : Multiset α) =
      getI v j ::ₘ (↑v : Multiset α) := h2.trans h1
  exact (Multiset.cons_inj_right _).mp h3

theorem setI_take (v : List α) (i n : Nat) (x : α) (h : i < n) :
    (setI v i x).take n = setI (v.take n) i x := by
  induction v generalizing i n with
  | nil => simp [setI]
  | cons a as ih =>
    cases i with
    | zero =>
      cases n with
      | zero => omega
      | succ m => simp [setI]
    | succ k =>
      cases n with
      | zero => omega
      | succ m =>
        show (a :: as.set k x).take (m + 1) = ((a :: as).take (m + 1)).set (k + 1) x
        rw [List.take_succ_cons, List.take_succ_cons]
        show a :: (as.set k x).take m = a :: (as.take m).set k x
        rw [show (as.set k x).take m = setI (as.take m) k x from ih k m (by omega)]
        rfl

theorem setI_drop (v : List α) (i n : Nat) (x : α) (h : i < n) :
    (setI v i x).drop n = v.drop n := by
  induction v generalizing i n with
  | nil => simp [setI]
  | cons a as ih =>
    cases i with
    | zero =>
      cases n with
      | zero => omega
      | succ m => simp [setI]
    | succ k =>
      cases n with
      | zero => omega
      | succ m =>
        show (a :: as.set k x).drop (m + 1) = (a :: as).drop (m + 1)
        rw [List.drop_succ_cons, List.drop_succ_cons]
        exact ih k m (by omega)

theorem getI_take [Inhabited α] (v : List α) (i n : Nat) (h : i < n) :
    getI (v.take n) i = getI v i := by
  by_cases h2 : i < v.length
  · have h3 : i < (v.take n).length := by
      rw [List.length_take]
      omega
    rw [getI_eq_get _ i h3, getI_eq_get _ i h2]
    simp [List.get_take]
  · have h3 : ¬ i < (v.take n).length := by
      rw [List.length_take]
      omega
    simp [getI, List.getD_eq_getElem?_getD, List.getElem?_eq_none (by omega : v.length ≤ i),
      List.getElem?_eq_none (by rw [List.length_take]; omega : (v.take n).length ≤ i)]

theorem swapI_take [Inhabited α] (v : List α) (i j n : Nat) (hi : i < n) (hj : j < n) :
    (swapI v i j).take n = swapI (v.take n) i j := by
  show (setI (setI v i (getI v j)) j (getI v i)).take n = _
  rw [setI_take _ _ _ _ hj, setI_take _ _ _ _ hi]
  show setI (setI (v.take n) i (getI v j)) j (getI v i) =
    setI (setI (v.take n) i (getI (v.take n) j)) j (getI (v.take n) i)
  rw [getI_take v j n hj, getI_take v i n hi]

theorem swapI_drop [Inhabited α] (v : List α) (i j n : Nat) (hi : i < n) (hj : j < n) :
    (swapI v i j).drop n = v.drop n := by
  show (setI (setI v i (getI v j)) j (getI v i)).drop n = _
  rw [setI_drop _ _ _ _ hj, setI_drop _ _ _ _ hi]

theorem swapI_take_perm [Inhabited α] (v : List α) (i j n : Nat)
    (hi : i < n) (hj : j < n) (hn : n ≤ v.length) :
    List.Perm ((swapI v i j).take n) (v.take n) := by
  rw [swapI_take v i j n hi hj]
  exact swapI_perm _ i j (by rw [List.length_take]; omega) (by rw [List.length_take]; omega)

end Zermelo

namespace Zermelo

theorem length_insRev (lt : α → α → Bool) (x : α) :
    ∀ l : List α, (insRev lt x l).length = l.length + 1 := by
  intro l
  induction l with
  | nil => rfl
  | cons y ys ih =>
    by_cases h : lt x y
    · simp [insRev, h, ih]
    · simp [insRev, h]

theorem insRev_perm (lt : α → α → Bool) (x : α) :
    ∀ l : List α, List.Perm (insRev lt x l) (x :: l) := by
  intro l
  induction l with
  | nil => exact List.Perm.refl _
  | cons y ys ih =>
    by_cases h : lt x y
    · simp only [insRev, h, if_pos]
      exact (ih.cons y).trans (List.Perm.swap x y ys)
    · simp only [insRev, h, if_neg]
      exact List.Perm.refl _

theorem length_shiftTail (lt : α → α → Bool) (w : List α) :
    (shiftTail lt w).length = w.length := by
  unfold shiftTail
  rcases h : w.reverse with _ | ⟨x, revInit⟩
  · rfl
  · rcases h2 : revInit with _ | ⟨y, t⟩
    · rfl
    · by_cases hlt : lt x y
      · simp only [if_pos hlt]
        have hw : w.length = revInit.length + 1 := by
          have := congrArg List.length h
          simp at this
          omega
        simp [length_insRev, h2, hw]
      · simp [hlt]

theorem shiftTail_perm (lt : α → α → Bool) (w : List α) :
    List.Perm (shiftTail lt w) w := by
  unfold shiftTail
  rcases h : w.reverse with _ | ⟨x, revInit⟩
  · exact List.Perm.refl _
  · rcases h2 : revInit with _ | ⟨y, t⟩
    · exact List.Perm.refl _
    · by_cases hlt : lt x y
      · simp only [if_pos hlt]
        have hw : w = (x :: revInit).reverse := by
          rw [← h, List.reverse_reverse]
        rw [hw, h2]
        exact ((List.reverse_perm _).trans (insRev_perm lt x (y :: t))).trans
          (List.reverse_perm _).symm
      · simp [hlt]

theorem length_insFwd (lt : α → α → Bool) (x : α) :
    ∀ l : List α, (insFwd lt x l).length = l.length + 1 := by
  intro l
  induction l with
  | nil => rfl
  | cons y ys ih =>
    by_cases h : lt y x
    · simp [insFwd, h, ih]
    · simp [insFwd, h]

theorem insFwd_perm (lt : α → α → Bool) (x : α) :
    ∀ l : List α, List.Perm (insFwd lt x l) (x :: l) := by
  intro l
  induction l with
  | nil => exact List.Perm.refl _
  | cons y ys ih =>
    by_cases h : lt y x
    · simp only [insFwd, h, if_pos]
      exact (ih.cons y).trans (List.Perm.swap x y ys)
    · simp only [insFwd, h, if_neg]
      exact List.Perm.refl _

theorem length_shiftHead (lt : α → α → Bool) (w : List α) :
    (shiftHead lt w).length = w.length := by
  unfold shiftHead
  rcases w with _ | ⟨x, _ | ⟨y, rest⟩⟩
  · rfl
  · rfl
  · by_cases hlt : lt y x
    · simp [hlt, length_insFwd]
    · simp [hlt]

theorem shiftHead_perm (lt : α → α → Bool) (w : List α) :
    List.Perm (shiftHead lt w) w := by
  unfold shiftHead
  rcases w with _ | ⟨x, _ | ⟨y, rest⟩⟩
  · exact List.Perm.refl _
  · exact List.Perm.refl _
  · by_cases hlt : lt y x
    · simp only [if_pos hlt]
      exact insFwd_perm lt x (y :: rest)
    · simp [hlt]

theorem insertionSort_perm (lt : α → α → Bool) (v : List α) :
    List.Perm (insertionSort lt v) v := by
  suffices h : ∀ acc : List α,
      List.Perm (v.foldl (fun acc x => shiftTail lt (acc ++ [x])) acc) (acc ++ v) by
    simpa using h []
  induction v with
  | nil => intro acc; simp
  | cons x xs ih =>
    intro acc
    rw [List.foldl_cons]
    refine ((ih _).trans ((shiftTail_perm lt _).append_right xs)).trans ?_
    rw [List.append_assoc]
    exact List.Perm.refl _

theorem pairwise_of_index_mono [Inhabited α] (key : α → Int) (v : List α)
    (h : ∀ j, 0 < j → j < v.length → key (getI v (j - 1)) ≤ key (getI v j)) :
    List.Pairwise (fun a b => key a ≤ key b) v := by
  have hmono : ∀ j, j < v.length → ∀ i, i ≤ j → key (getI v i) ≤ key (getI v j) := by
    intro j
    induction j with
    | zero =>
      intro _ i hi
      interval_cases i
      exact le_refl _
    | succ m ihm =>
      intro hm i hi
      rcases Nat.eq_or_lt_of_le hi with rfl | hlt
      · exact le_refl _
      · calc key (getI v i) ≤ key (getI v m) := ihm (by omega) i (by omega)
          _ ≤ key (getI v (m + 1)) := by
              have := h (m + 1) (by omega) hm
              simpa using this
  rw [List.pairwise_iff_get]
  intro a b hab
  have h2 := hmono b b.isLt a (le_of_lt hab)
  rwa [getI_eq_get v a a.isLt, getI_eq_get v b b.isLt] at h2

end Zermelo

namespace Zermelo

theorem setI_take_of_le (v : List α) (i n : Nat) (x : α) (h : n ≤ i) :
    (setI v i x).take n = v.take n := by
  induction v generalizing i n with
  | nil => simp [setI]
  | cons a as ih =>
    cases i with
    | zero =>
      cases n with
      | zero => simp
      | succ m => omega
    | succ k =>
      cases n with
      | zero => simp
      | succ m =>
        show ((a :: as).set (k + 1) x).take (m + 1) = (a :: as).take (m + 1)
        rw [List.set_cons_succ, List.take_succ_cons, List.take_succ_cons]
        rw [show (as.set k x).take m = as.take m from ih k m (by omega)]

theorem take_succ_getI [Inhabited α] (v : List α) (i : Nat) (h : i < v.length) :
    v.take (i + 1) = v.take i ++ [getI v i] := by
  rw [List.take_succ, getI_eq_get v i h]
  simp [List.getElem?_eq_getElem h]


/-- `scanUp` finds the first failure of `cond` at or after `l` (up to `r`). -/
theorem scanUp_spec [Inhabited α] (cond : α → Bool) (v : List α) (off : Nat) :
    ∀ fuel l r, l ≤ r → r - l ≤ fuel →
      l ≤ scanUp cond v off fuel l r ∧ scanUp cond v off fuel l r ≤ r ∧
      (∀ j, l ≤ j → j < scanUp cond v off fuel l r → cond (getI v (off + j)) = true) ∧
      (scanUp cond v off fuel l r < r →
        cond (getI v (off + scanUp cond v off fuel l r)) = false) := by
  intro fuel
  induction fuel with
  | zero =>
    intro l r hlr hf
    have heq : scanUp cond v off 0 l r = l := rfl
    rw [heq]
    exact ⟨le_refl _, hlr, fun j h1 h2 => by omega, fun h => by omega⟩
  | succ f ih =>
    intro l r hlr hf
    by_cases hc : l < r ∧ cond (getI v (off + l)) = true
    · have hstep : scanUp cond v off (f + 1) l r = scanUp cond v off f (l + 1) r := by
        show (if l < r ∧ cond (getI v (off + l)) then scanUp cond v off f (l + 1) r else l) = _
        rw [if_pos hc]
      obtain ⟨h1, h2, h3, h4⟩ := ih (l + 1) r (by omega) (by omega)
      rw [hstep]
      refine ⟨by omega, h2, ?_, h4⟩
      intro j hj1 hj2
      rcases Nat.eq_or_lt_of_le hj1 with rfl | hlt
      · exact hc.2
      · exact h3 j (by omega) hj2
    · have hstep : scanUp cond v off (f + 1) l r = l := by
        show (if l < r ∧ cond (getI v (off + l)) then scanUp cond v off f (l + 1) r else l) = _
        rw [if_neg hc]
      rw [hstep]
      refine ⟨le_refl _, hlr, fun j hj1 hj2 => by omega, ?_⟩
      intro hlt
      rcases Bool.eq_false_or_eq_true (cond (getI v (off + l))) with h | h
      · exact absurd ⟨hlt, h⟩ hc
      · exact h

/-- `scanDown` finds the last failure of `cond` strictly below `r` (down to `l`). -/
theorem scanDown_spec [Inhabited α] (cond : α → Bool) (v : List α) (off : Nat) :
    ∀ fuel l r, l ≤ r → r - l ≤ fuel →
      l ≤ scanDown cond v off fuel l r ∧ scanDown cond v off fuel l r ≤ r ∧
      (∀ j, scanDown cond v off fuel l r ≤ j → j < r → cond (getI v (off + j)) = true) ∧
      (l < scanDown cond v off fuel l r →
        cond (getI v (off + scanDown cond v off fuel l r - 1)) = false) := by
  intro fuel
  induction fuel with
  | zero =>
    intro l r hlr hf
    have heq : scanDown cond v off 0 l r = r := rfl
    rw [heq]
    exact ⟨hlr, le_refl _, fun j h1 h2 => by omega, fun h => by
      have : l = r := by omega
      omega⟩
  | succ f ih =>
    intro l r hlr hf
    by_cases hc : l < r ∧ cond (getI v (off + r - 1)) = true
    · have hstep : scanDown cond v off (f + 1) l r = scanDown cond v off f l (r - 1) := by
        show (if l < r ∧ cond (getI v (off + r - 1)) then scanDown cond v off f l (r - 1)
          else r) = _
        rw [if_pos hc]
      obtain ⟨h1, h2, h3, h4⟩ := ih l (r - 1) (by omega) (by omega)
      rw [hstep]
      refine ⟨h1, by omega, ?_, h4⟩
      intro j hj1 hj2
      rcases Nat.lt_or_ge j (r - 1) with hlt | hge
      · exact h3 j hj1 hlt
      · have hj : j = r - 1 := by omega
        subst hj
        have : off + (r - 1) = off + r - 1 := by omega
        rw [this]
        exact hc.2
    · have hstep : scanDown cond v off (f + 1) l r = r := by
        show (if l < r ∧ cond (getI v (off + r - 1)) then scanDown cond v off f l (r - 1)
          else r) = _
        rw [if_neg hc]
      rw [hstep]
      refine ⟨hlr, le_refl _, fun j hj1 hj2 => by omega, ?_⟩
      intro hlt
      rcases Bool.eq_false_or_eq_true (cond (getI v (off + r - 1))) with h | h
      · exact absurd ⟨hlt, h⟩ hc
      · exact h

/-- The descent scan of `partial_insertion_sort`: everything verified up to the
returned index is adjacent-ascending; a descent sits at the returned index if
it is below `len`. -/
theorem pisScan_spec [Inhabited α] (lt : α → α → Bool) (v : List α) (len : Nat) :
    ∀ fuel i, len - i ≤ fuel →
      i ≤ pisScan lt v len fuel i ∧ (i ≤ len → pisScan lt v len fuel i ≤ len) ∧
      (∀ j, i ≤ j → j < pisScan lt v len fuel i → j < len ∧
        lt (getI v j) (getI v (j - 1)) = false) ∧
      (pisScan lt v len fuel i < len → lt (getI v (pisScan lt v len fuel i))
        (getI v (pisScan lt v len fuel i - 1)) = true) := by
  intro fuel
  induction fuel with
  | zero =>
    intro i hf
    have heq : pisScan lt v len 0 i = i := rfl
    rw [heq]
    exact ⟨le_refl _, fun h => h, fun j h1 h2 => by omega, fun h => absurd h (by omega)⟩
  | succ f ih =>
    intro i hf
    by_cases hc : i < len ∧ ¬ lt (getI v i) (getI v (i - 1)) = true
    · have hstep : pisScan lt v len (f + 1) i = pisScan lt v len f (i + 1) := by
        show (if i < len ∧ ¬ lt (getI v i) (getI v (i - 1)) then pisScan lt v len f (i + 1)
          else i) = _
        rw [if_pos hc]
      obtain ⟨h1, h2, h3, h4⟩ := ih (i + 1) (by omega)
      rw [hstep]
      refine ⟨by omega, fun _ => h2 (by omega), ?_, h4⟩
      intro j hj1 hj2
      rcases Nat.eq_or_lt_of_le hj1 with rfl | hlt
      · exact ⟨hc.1, Bool.not_eq_true _ ▸ (Bool.of_not_eq_true hc.2)⟩
      · exact h3 j (by omega) hj2
    · have hstep : pisScan lt v len (f + 1) i = i := by
        show (if i < len ∧ ¬ lt (getI v i) (getI v (i - 1)) then pisScan lt v len f (i + 1)
          else i) = _
        rw [if_neg hc]
      rw [hstep]
      refine ⟨le_refl _, fun h => h, fun j hj1 hj2 => by omega, ?_⟩
      intro hlt
      rcases Bool.eq_false_or_eq_true (lt (getI v i) (getI v (i - 1))) with h | h
      · exact h
      · exact absurd ⟨hlt, by rw [h]; exact Bool.false_ne_true⟩ hc

end Zermelo

namespace Zermelo

theorem setI_append_last (l : List α) (c x : α) :
    setI (l ++ [c]) l.length x = l ++ [x] := by
  rw [setI_decomp (l ++ [c]) l.length x (by simp)]
  congr 1
  · exact List.take_left ..
  · simp

theorem pairwise_take_adjacent [Inhabited α] (key : α → Int) (v : List α) (i : Nat)
    (h : List.Pairwise (fun a b => key a ≤ key b) (v.take i)) :
    ∀ j, 0 < j → j < i → j < v.length → key (getI v (j - 1)) ≤ key (getI v j) := by
  intro j hj1 hj2 hj3
  rw [List.pairwise_iff_get] at h
  have hj1' : j - 1 < (v.take i).length := by
    rw [List.length_take]
    omega
  have hj2' : j < (v.take i).length := by
    rw [List.length_take]
    omega
  have h2 := h ⟨j - 1, hj1'⟩ ⟨j, hj2'⟩ (by
    show j - 1 < j
    omega)
  rw [← getI_eq_get _ _ hj1', ← getI_eq_get _ _ hj2'] at h2
  rwa [getI_take v (j - 1) i (by omega), getI_take v j i (by omega)] at h2

theorem pairwise_take_of_adjacent [Inhabited α] (key : α → Int) (v : List α) (m : Nat)
    (h : ∀ j, 0 < j → j < m → j < v.length → key (getI v (j - 1)) ≤ key (getI v j)) :
    List.Pairwise (fun a b => key a ≤ key b) (v.take m) := by
  apply pairwise_of_index_mono
  intro j hj1 hj2
  rw [List.length_take] at hj2
  rw [getI_take v (j - 1) m (by omega), getI_take v j m (by omega)]
  exact h j hj1 (by omega) (by omega)

/-- `partial_insertion_sort`'s step loop: the result is a permutation, and a
`true` verdict means it is sorted. -/
theorem pisSteps_spec [Inhabited α] (key : α → Int) :
    ∀ steps (v : List α) i, 1 ≤ i → i ≤ v.length →
      List.Pairwise (fun a b => key a ≤ key b) (v.take i) →
      List.Perm (pisSteps (fun a b => decide (key a < key b)) steps v i).1 v ∧
      ((pisSteps (fun a b => decide (key a < key b)) steps v i).2 = true →
        List.Pairwise (fun a b => key a ≤ key b)
          (pisSteps (fun a b => decide (key a < key b)) steps v i).1) := by
  intro steps
  induction steps with
  | zero =>
    intro v i h1 h2 h3
    exact ⟨List.Perm.refl _, fun h => absurd h (by
      show (false : Bool) ≠ true
      exact Bool.false_ne_true)⟩
  | succ st ih =>
    intro v i hi1 hilen hsort
    obtain ⟨s1, s2, s3, s4⟩ := pisScan_spec (fun a b => decide (key a < key b)) v
      v.length v.length i (by omega)
    set i2 := pisScan (fun a b => decide (key a < key b)) v v.length v.length i with hi2def
    have hi2ub : i2 ≤ v.length := s2 hilen
    -- adjacent ascent up to i2
    have hadj : ∀ j, 0 < j → j < i2 → j < v.length →
        key (getI v (j - 1)) ≤ key (getI v j) := by
      intro j hj1 hj2 hj3
      rcases Nat.lt_or_ge j i with hji | hji
      · exact pairwise_take_adjacent key v i hsort j hj1 hji hj3
      · have h5 := (s3 j hji hj2).2
        have h6 := of_decide_eq_false h5
        omega
    by_cases hdone : i2 = v.length
    · have hstep : pisSteps (fun a b => decide (key a < key b)) (st + 1) v i =
          (v, true) := by
        show (if i2 = v.length then (v, true) else _) = _
        rw [if_pos hdone]
      rw [hstep]
      refine ⟨List.Perm.refl _, fun _ => ?_⟩
      apply pairwise_of_index_mono
      intro j hj1 hj2
      exact hadj j hj1 (hdone ▸ hj2) hj2
    · by_cases hsmall : v.length < 50
      · have hstep : pisSteps (fun a b => decide (key a < key b)) (st + 1) v i =
            (v, false) := by
          show (if i2 = v.length then (v, true)
            else if v.length < 50 then (v, false) else _) = _
          rw [if_neg hdone, if_pos hsmall]
        rw [hstep]
        exact ⟨List.Perm.refl _, fun h => absurd h Bool.false_ne_true⟩
      · have hi2lt : i2 < v.length := by omega
        have hi2pos : 1 ≤ i2 := by omega
        -- the three rebindings
        have hstep : pisSteps (fun a b => decide (key a < key b)) (st + 1) v i =
            pisSteps (fun a b => decide (key a < key b)) st
              ((shiftTail (fun a b => decide (key a < key b))
                  ((swapI v (i2 - 1) i2).take i2) ++ (swapI v (i2 - 1) i2).drop i2).take i2 ++
                shiftHead (fun a b => decide (key a < key b))
                  ((shiftTail (fun a b => decide (key a < key b))
                    ((swapI v (i2 - 1) i2).take i2) ++
                      (swapI v (i2 - 1) i2).drop i2).drop i2)) i2 := by
          show (if i2 = v.length then (v, true)
            else if v.length < 50 then (v, false) else _) = _
          rw [if_neg hdone, if_neg hsmall]
        rw [hstep]
        -- name the stages
        have hw1len : (swapI v (i2 - 1) i2).length = v.length := length_swapI ..
        have hw1take : (swapI v (i2 - 1) i2).take i2 =
            v.take (i2 - 1) ++ [getI v i2] := by
          show (setI (setI v (i2 - 1) (getI v i2)) i2 (getI v (i2 - 1))).take i2 = _
          rw [setI_take_of_le _ _ _ _ (le_refl i2)]
          rw [setI_take _ _ _ _ (by omega : i2 - 1 < i2)]
          have hv : v.take i2 = v.take (i2 - 1) ++ [getI v (i2 - 1)] := by
            have := take_succ_getI v (i2 - 1) (by omega)
            rwa [show i2 - 1 + 1 = i2 by omega] at this
          rw [hv]
          have hlen2 : (v.take (i2 - 1)).length = i2 - 1 := by
            rw [List.length_take]
            omega
          have h7 := setI_append_last (v.take (i2 - 1)) (getI v (i2 - 1)) (getI v i2)
          rwa [hlen2] at h7
        have hx1len : (shiftTail (fun a b => decide (key a < key b))
            ((swapI v (i2 - 1) i2).take i2)).length = i2 := by
          rw [length_shiftTail, List.length_take, hw1len]
          omega
        have hw2take : (shiftTail (fun a b => decide (key a < key b))
              ((swapI v (i2 - 1) i2).take i2) ++ (swapI v (i2 - 1) i2).drop i2).take i2 =
            shiftTail (fun a b => decide (key a < key b))
              ((swapI v (i2 - 1) i2).take i2) :=
          List.take_left' hx1len
        have hsorted2 : List.Pairwise (fun a b => key a ≤ key b)
            (shiftTail (fun a b => decide (key a < key b))
              ((swapI v (i2 - 1) i2).take i2)) := by
          rw [hw1take]
          apply shiftTail_append_sorted
          have hp : List.Pairwise (fun a b => key a ≤ key b) (v.take i2) :=
            pairwise_take_of_adjacent key v i2 (fun j h1 h2 h3 => hadj j h1 h2 h3)
          have hsub : List.Sublist (v.take (i2 - 1)) (v.take i2) := by
            rw [show v.take (i2 - 1) = (v.take i2).take (i2 - 1) by
              rw [List.take_take]
              congr 1
              omega]
            exact List.take_sublist ..
          exact hp.sublist hsub
        -- lengths of stage 2 and 3
        have hw2len : (shiftTail (fun a b => decide (key a < key b))
            ((swapI v (i2 - 1) i2).take i2) ++ (swapI v (i2 - 1) i2).drop i2).length =
            v.length := by
          rw [List.length_append, hx1len, List.length_drop, hw1len]
          omega
        have hw3take : ((shiftTail (fun a b => decide (key a < key b))
              ((swapI v (i2 - 1) i2).take i2) ++ (swapI v (i2 - 1) i2).drop i2).take i2 ++
            shiftHead (fun a b => decide (key a < key b))
              ((shiftTail (fun a b => decide (key a < key b))
                ((swapI v (i2 - 1) i2).take i2) ++
                  (swapI v (i2 - 1) i2).drop i2).drop i2)).take i2 =
            shiftTail (fun a b => decide (key a < key b))
              ((swapI v (i2 - 1) i2).take i2) :=
          (List.take_left' (by rw [List.length_take, hw2len]; omega)).trans hw2take
        have hw3len : ((shiftTail (fun a b => decide (key a < key b))
              ((swapI v (i2 - 1) i2).take i2) ++ (swapI v (i2 - 1) i2).drop i2).take i2 ++
            shiftHead (fun a b => decide (key a < key b))
              ((shiftTail (fun a b => decide (key a < key b))
                ((swapI v (i2 - 1) i2).take i2) ++
                  (swapI v (i2 - 1) i2).drop i2).drop i2)).length = v.length := by
          rw [List.length_append, List.length_take, length_shiftHead, List.length_drop,
            hw2len]
          omega
        -- permutation to v
        have hperm3 : List.Perm
            ((shiftTail (fun a b => decide (key a < key b))
              ((swapI v (i2 - 1) i2).take i2) ++ (swapI v (i2 - 1) i2).drop i2).take i2 ++
            shiftHead (fun a b => decide (key a < key b))
              ((shiftTail (fun a b => decide (key a < key b))
                ((swapI v (i2 - 1) i2).take i2) ++
                  (swapI v (i2 - 1) i2).drop i2).drop i2)) v := by
          have p2 : List.Perm
              ((shiftTail (fun a b => decide (key a < key b))
                ((swapI v (i2 - 1) i2).take i2) ++ (swapI v (i2 - 1) i2).drop i2).take i2 ++
              shiftHead (fun a b => decide (key a < key b))
                ((shiftTail (fun a b => decide (key a < key b))
                  ((swapI v (i2 - 1) i2).take i2) ++
                    (swapI v (i2 - 1) i2).drop i2).drop i2))
              ((shiftTail (fun a b => decide (key a < key b))
                ((swapI v (i2 - 1) i2).take i2) ++ (swapI v (i2 - 1) i2).drop i2).take i2 ++
              (shiftTail (fun a b => decide (key a < key b))
                ((swapI v (i2 - 1) i2).take i2) ++
                  (swapI v (i2 - 1) i2).drop i2).drop i2) :=
            List.Perm.append_left _ (shiftHead_perm ..)
          have p3 := List.take_append_drop i2
            (shiftTail (fun a b => decide (key a < key b))
              ((swapI v (i2 - 1) i2).take i2) ++ (swapI v (i2 - 1) i2).drop i2)
          have p4 := p3 ▸ p2
          have p6 : List.Perm
              (shiftTail (fun a b => decide (key a < key b))
                ((swapI v (i2 - 1) i2).take i2) ++ (swapI v (i2 - 1) i2).drop i2)
              ((swapI v (i2 - 1) i2).take i2 ++ (swapI v (i2 - 1) i2).drop i2) :=
            (shiftTail_perm ..).append_right _
          have p7 := List.take_append_drop i2 (swapI v (i2 - 1) i2)
          have p8 := p7 ▸ p6
          exact (p4.trans p8).trans (swapI_perm v (i2 - 1) i2 (by omega) hi2lt)
        obtain ⟨ihp, ihs⟩ := ih _ i2 hi2pos (by rw [hw3len]; omega) (by
          rw [hw3take]
          exact hsorted2)
        exact ⟨ihp.trans hperm3, ihs⟩

/-- `partial_insertion_sort`: a permutation; `true` means sorted. -/
theorem partialInsertionSort_spec [Inhabited α] (key : α → Int) (v : List α)
    (hv : 1 ≤ v.length) :
    List.Perm (partialInsertionSort (fun a b => decide (key a < key b)) v).1 v ∧
    ((partialInsertionSort (fun a b => decide (key a < key b)) v).2 = true →
      List.Pairwise (fun a b => key a ≤ key b)
        (partialInsertionSort (fun a b => decide (key a < key b)) v).1) := by
  apply pisSteps_spec key 5 v 1 (le_refl 1) hv
  rcases v with _ | ⟨a, as⟩
  · simp at hv
  · show List.Pairwise _ [a]
    exact List.pairwise_singleton ..

end Zermelo

namespace Zermelo

theorem cpSort2_bound [Inhabited α] (lt : α → α → Bool) (v : List α)
    (a b s n : Nat) (ha : a < n) (hb : b < n) :
    (cpSort2 lt v a b s).1 < n ∧ (cpSort2 lt v a b s).2.1 < n := by
  unfold cpSort2
  by_cases h : lt (getI v b) (getI v a) = true
  · rw [if_pos h]
    exact ⟨hb, ha⟩
  · rw [if_neg h]
    exact ⟨ha, hb⟩

theorem cpSort3_bound [Inhabited α] (lt : α → α → Bool) (v : List α)
    (a b c s n : Nat) (ha : a < n) (hb : b < n) (hc : c < n) :
    (cpSort3 lt v a b c s).1 < n ∧ (cpSort3 lt v a b c s).2.1 < n ∧
    (cpSort3 lt v a b c s).2.2.1 < n := by
  obtain ⟨q1, q2⟩ := cpSort2_bound lt v a b s n ha hb
  obtain ⟨q3, q4⟩ := cpSort2_bound lt v (cpSort2 lt v a b s).2.1 c
    (cpSort2 lt v a b s).2.2 n q2 hc
  obtain ⟨q5, q6⟩ := cpSort2_bound lt v (cpSort2 lt v a b s).1
    (cpSort2 lt v (cpSort2 lt v a b s).2.1 c (cpSort2 lt v a b s).2.2).1
    (cpSort2 lt v (cpSort2 lt v a b s).2.1 c (cpSort2 lt v a b s).2.2).2.2 n q1 q3
  exact ⟨q5, q6, q4⟩

theorem cpSortAdjacent_bound [Inhabited α] (lt : α → α → Bool) (v : List α)
    (a s n : Nat) (ha : a + 1 < n) :
    (cpSortAdjacent lt v a s).1 < n := by
  obtain ⟨_, q2, _⟩ := cpSort3_bound lt v (a - 1) a (a + 1) s n (by omega) (by omega) ha
  exact q2

theorem choosePivot_spec [Inhabited α] (lt : α → α → Bool) (v : List α)
    (h8 : 8 ≤ v.length) :
    (choosePivot lt v).1.length = v.length ∧
    List.Perm (choosePivot lt v).1 v ∧
    (choosePivot lt v).2.1 < v.length := by
  have hb : ∀ bs : Nat × Nat, bs.1 < v.length →
      ((if bs.2 < 12 then (v, bs.1, decide (bs.2 = 0))
        else (v.reverse, v.length - 1 - bs.1, true)) : List α × Nat × Bool).1.length =
          v.length ∧
      List.Perm ((if bs.2 < 12 then (v, bs.1, decide (bs.2 = 0))
        else (v.reverse, v.length - 1 - bs.1, true)) : List α × Nat × Bool).1 v ∧
      ((if bs.2 < 12 then (v, bs.1, decide (bs.2 = 0))
        else (v.reverse, v.length - 1 - bs.1, true)) : List α × Nat × Bool).2.1 <
          v.length := by
    intro bs hbs
    by_cases h12 : bs.2 < 12
    · rw [if_pos h12]
      exact ⟨rfl, List.Perm.refl _, hbs⟩
    · rw [if_neg h12]
      exact ⟨List.length_reverse _, List.reverse_perm _, by
        show v.length - 1 - bs.1 < v.length
        omega⟩
  have hbound : ((if v.length ≥ 8 then
      (if v.length ≥ 50 then
        ((cpSort3 lt v
          (cpSortAdjacent lt v (v.length / 4 * 1) 0).1
          (cpSortAdjacent lt v (v.length / 4 * 2)
            (cpSortAdjacent lt v (v.length / 4 * 1) 0).2).1
          (cpSortAdjacent lt v (v.length / 4 * 3)
            (cpSortAdjacent lt v (v.length / 4 * 2)
              (cpSortAdjacent lt v (v.length / 4 * 1) 0).2).2).1
          (cpSortAdjacent lt v (v.length / 4 * 3)
            (cpSortAdjacent lt v (v.length / 4 * 2)
              (cpSortAdjacent lt v (v.length / 4 * 1) 0).2).2).2).2.1,
         (cpSort3 lt v
          (cpSortAdjacent lt v (v.length / 4 * 1) 0).1
          (cpSortAdjacent lt v (v.length / 4 * 2)
            (cpSortAdjacent lt v (v.length / 4 * 1) 0).2).1
          (cpSortAdjacent lt v (v.length / 4 * 3)
            (cpSortAdjacent lt v (v.length / 4 * 2)
              (cpSortAdjacent lt v (v.length / 4 * 1) 0).2).2).1
          (cpSortAdjacent lt v (v.length / 4 * 3)
            (cpSortAdjacent lt v (v.length / 4 * 2)
              (cpSortAdjacent lt v (v.length / 4 * 1) 0).2).2).2).2.2.2)
      else
        ((cpSort3 lt v (v.length / 4 * 1) (v.length / 4 * 2) (v.length / 4 * 3) 0).2.1,
         (cpSort3 lt v (v.length / 4 * 1) (v.length / 4 * 2) (v.length / 4 * 3) 0).2.2.2))
    else (v.length / 4 * 2, 0)) : Nat × Nat).1 < v.length := by
    rw [if_pos h8]
    by_cases h50 : v.length ≥ 50
    · rw [if_pos h50]
      have ha1 := cpSortAdjacent_bound lt v (v.length / 4 * 1) 0 v.length (by omega)
      have ha2 := cpSortAdjacent_bound lt v (v.length / 4 * 2)
        (cpSortAdjacent lt v (v.length / 4 * 1) 0).2 v.length (by omega)
      have ha3 := cpSortAdjacent_bound lt v (v.length / 4 * 3)
        (cpSortAdjacent lt v (v.length / 4 * 2)
          (cpSortAdjacent lt v (v.length / 4 * 1) 0).2).2 v.length (by omega)
      obtain ⟨_, q, _⟩ := cpSort3_bound lt v
        (cpSortAdjacent lt v (v.length / 4 * 1) 0).1
        (cpSortAdjacent lt v (v.length / 4 * 2)
          (cpSortAdjacent lt v (v.length / 4 * 1) 0).2).1
        (cpSortAdjacent lt v (v.length / 4 * 3)
          (cpSortAdjacent lt v (v.length / 4 * 2)
            (cpSortAdjacent lt v (v.length / 4 * 1) 0).2).2).1
        (cpSortAdjacent lt v (v.length / 4 * 3)
          (cpSortAdjacent lt v (v.length / 4 * 2)
            (cpSortAdjacent lt v (v.length / 4 * 1) 0).2).2).2
        v.length ha1 ha2 ha3
      exact q
    · rw [if_neg h50]
      obtain ⟨_, q, _⟩ := cpSort3_bound lt v (v.length / 4 * 1) (v.length / 4 * 2)
        (v.length / 4 * 3) 0 v.length (by omega) (by omega) (by omega)
      exact q
  exact hb _ hbound

end Zermelo

namespace Zermelo

theorem nextPow2Fuel_lt : ∀ fuel p n, p < 2 * n → nextPow2Fuel fuel p n < 2 * n := by
  intro fuel
  induction fuel with
  | zero => intro p n h; exact h
  | succ f ih =>
    intro p n h
    show (if p < n then nextPow2Fuel f (p * 2) n else p) < 2 * n
    by_cases hc : p < n
    · rw [if_pos hc]
      exact ih (p * 2) n (by omega)
    · rw [if_neg hc]
      exact h

theorem nextPow2_lt (n : Nat) (h : 1 ≤ n) : nextPow2 n < 2 * n :=
  nextPow2Fuel_lt 64 1 n (by omega)

/-- A fold of state-and-seed steps that each permute the list permutes the
list. -/
theorem foldl_perm [Inhabited α] (n : Nat) (f : (List α × Nat) → Nat → List α × Nat) :
    ∀ is : List Nat,
      (∀ st i, i ∈ is → st.1.length = n →
        (f st i).1.length = n ∧ List.Perm (f st i).1 st.1) →
      ∀ st : List α × Nat, st.1.length = n →
        (is.foldl f st).1.length = n ∧ List.Perm (is.foldl f st).1 st.1 := by
  intro is
  induction is with
  | nil => intro _ st h; exact ⟨h, List.Perm.refl _⟩
  | cons i is ih =>
    intro hf st h
    rw [List.foldl_cons]
    obtain ⟨h1, h2⟩ := hf st i (List.mem_cons_self ..) h
    obtain ⟨h3, h4⟩ := ih (fun st j hj hl => hf st j (List.mem_cons_of_mem _ hj) hl)
      (f st i) h1
    exact ⟨h3, h4.trans h2⟩

theorem breakPatterns_spec [Inhabited α] (v : List α) :
    (breakPatterns v).length = v.length ∧ List.Perm (breakPatterns v) v := by
  by_cases h8 : v.length ≥ 8
  · have he : breakPatterns v = ([0, 1, 2].foldl
        (fun (st : List α × Nat) (i : Nat) =>
          (swapI st.1 (v.length / 4 * 2 - 1 + i)
            (if (genUsize st.2).1 &&& (nextPow2 v.length - 1) ≥ v.length
              then ((genUsize st.2).1 &&& (nextPow2 v.length - 1)) - v.length
              else (genUsize st.2).1 &&& (nextPow2 v.length - 1)), (genUsize st.2).2))
        (v, v.length % 2 ^ 32)).1 := by
      unfold breakPatterns
      rw [if_pos h8]
    rw [he]
    refine foldl_perm v.length _ [0, 1, 2] ?_ (v, v.length % 2 ^ 32) rfl
    intro st i him hlen
    have hi2 : i ≤ 2 := by
      simp only [List.mem_cons, List.not_mem_nil, or_false] at him
      omega
    have hand : (genUsize st.2).1 &&& (nextPow2 v.length - 1) ≤ nextPow2 v.length - 1 :=
      Nat.and_le_right
    have hnp := nextPow2_lt v.length (by omega)
    have hidx1 : v.length / 4 * 2 - 1 + i < st.1.length := by
      rw [hlen]
      omega
    have hidx2 : (if (genUsize st.2).1 &&& (nextPow2 v.length - 1) ≥ v.length
        then ((genUsize st.2).1 &&& (nextPow2 v.length - 1)) - v.length
        else (genUsize st.2).1 &&& (nextPow2 v.length - 1)) < st.1.length := by
      rw [hlen]
      by_cases hc : (genUsize st.2).1 &&& (nextPow2 v.length - 1) ≥ v.length
      · rw [if_pos hc]
        omega
      · rw [if_neg hc]
        omega
    exact ⟨(length_swapI ..).trans hlen, swapI_perm _ _ _ hidx1 hidx2⟩
  · have he : breakPatterns v = v := by
      unfold breakPatterns
      rw [if_neg h8]
    rw [he]
    exact ⟨rfl, List.Perm.refl _⟩

end Zermelo

namespace Zermelo

/-- The Hoare swap loop of `partition_equal`: positions `1..1+result` hold
elements not above the pivot, the rest hold elements above it. -/
theorem peLoop_spec [Inhabited α] (lt : α → α → Bool) (p : α) (n : Nat) :
    ∀ fuel (v : List α) l r, v.length = n + 1 → l ≤ r → r ≤ n → r - l + 1 ≤ fuel →
      (∀ j, j < l → ¬ lt p (getI v (1 + j)) = true) →
      (∀ j, r ≤ j → j < n → lt p (getI v (1 + j)) = true) →
      (peLoop lt p fuel v l r).1.length = n + 1 ∧
      List.Perm (peLoop lt p fuel v l r).1 v ∧
      getI (peLoop lt p fuel v l r).1 0 = getI v 0 ∧
      l ≤ (peLoop lt p fuel v l r).2 ∧ (peLoop lt p fuel v l r).2 ≤ n ∧
      (∀ j, j < (peLoop lt p fuel v l r).2 →
        ¬ lt p (getI (peLoop lt p fuel v l r).1 (1 + j)) = true) ∧
      (∀ j, (peLoop lt p fuel v l r).2 ≤ j → j < n →
        lt p (getI (peLoop lt p fuel v l r).1 (1 + j)) = true) := by
  intro fuel
  induction fuel with
  | zero =>
    intro v l r _ h1 h2 h3 _ _
    omega
  | succ f ih =>
    intro v l r hvlen hlr hrn hfuel hW1 hW2
    obtain ⟨u1, u2, u3, u4⟩ := scanUp_spec (fun x => ¬ lt p x) v 1 (r + 1) l r hlr (by omega)
    set l2 := scanUp (fun x => ¬ lt p x) v 1 (r + 1) l r with hl2def
    obtain ⟨d1, d2, d3, d4⟩ := scanDown_spec (fun x => lt p x) v 1 (r + 1) l2 r u2 (by omega)
    set r2 := scanDown (fun x => lt p x) v 1 (r + 1) l2 r with hr2def
    by_cases hstop : l2 ≥ r2
    · have hstep : peLoop lt p (f + 1) v l r = (v, l2) := by
        show (if l2 ≥ r2 then (v, l2) else _) = _
        rw [if_pos hstop]
      rw [hstep]
      refine ⟨hvlen, List.Perm.refl _, rfl, u1, by omega, ?_, ?_⟩
      · intro j hj
        rcases Nat.lt_or_ge j l with hc | hc
        · exact hW1 j hc
        · exact of_decide_eq_true (u3 j hc hj)
      · intro j hj1 hj2
        rcases Nat.lt_or_ge j r with hc | hc
        · exact d3 j (by omega) hc
        · exact hW2 j hc hj2
    · have hlt2 : l2 < r2 := by omega
      -- scan exit facts
      have hex1 : lt p (getI v (1 + l2)) = true := by
        have := u4 (by omega)
        have h5 := of_decide_eq_false this
        exact Decidable.not_not.mp h5
      have hex2 : lt p (getI v (1 + (r2 - 1))) = false := by
        have := d4 (by omega)
        have h6 : 1 + r2 - 1 = 1 + (r2 - 1) := by omega
        rwa [h6] at this
      have hr3lt : l2 < r2 - 1 := by
        rcases Nat.lt_or_ge l2 (r2 - 1) with hc | hc
        · exact hc
        · exfalso
          have : l2 = r2 - 1 := by omega
          rw [this] at hex1
          rw [hex1] at hex2
          exact Bool.noConfusion hex2
      have hstep : peLoop lt p (f + 1) v l r =
          peLoop lt p f (swapI v (1 + l2) (1 + (r2 - 1))) (l2 + 1) (r2 - 1) := by
        show (if l2 ≥ r2 then (v, l2) else _) = _
        rw [if_neg hstop]
      rw [hstep]
      have hi1 : 1 + l2 < v.length := by omega
      have hi2 : 1 + (r2 - 1) < v.length := by omega
      have hlen2 : (swapI v (1 + l2) (1 + (r2 - 1))).length = n + 1 := by
        rw [length_swapI]
        exact hvlen
      obtain ⟨c1, c2, c3, c4, c5, c6, c7⟩ := ih (swapI v (1 + l2) (1 + (r2 - 1)))
        (l2 + 1) (r2 - 1) hlen2 (by omega) (by omega) (by omega)
        (by
          intro j hj
          rcases Nat.lt_or_ge j l2 with hc | hc
          · rw [getI_swapI_other v _ _ _ (by omega) (by omega)]
            rcases Nat.lt_or_ge j l with hc2 | hc2
            · exact hW1 j hc2
            · exact of_decide_eq_true (u3 j hc2 hc)
          · have hj2 : j = l2 := by omega
            subst hj2
            rw [getI_swapI_left v _ _ hi1 hi2]
            rw [hex2]
            exact Bool.false_ne_true)
        (by
          intro j hj1 hj2
          rcases Nat.eq_or_lt_of_le hj1 with rfl | hc
          · rw [getI_swapI_right v _ _ hi2]
            exact hex1
          · rw [getI_swapI_other v _ _ _ (by omega) (by omega)]
            rcases Nat.lt_or_ge j r with hc2 | hc2
            · exact d3 j (by omega) hc2
            · exact hW2 j hc2 hj2)
      refine ⟨c1, c2.trans (swapI_perm v _ _ hi1 hi2), ?_, by omega, c5, c6, c7⟩
      rw [c3]
      exact getI_swapI_other v _ _ _ (by omega) (by omega)

/-- `partition_equal`: the first `count` positions hold elements not above
the pivot (the pivot itself at position 0), the rest hold strictly greater
elements. -/
theorem partitionEqual_spec [Inhabited α] (lt : α → α → Bool) (v : List α)
    (pivotIdx : Nat) (hlen : 1 ≤ v.length) (hpi : pivotIdx < v.length) :
    (partitionEqual lt v pivotIdx).1.length = v.length ∧
    List.Perm (partitionEqual lt v pivotIdx).1 v ∧
    1 ≤ (partitionEqual lt v pivotIdx).2 ∧
    (partitionEqual lt v pivotIdx).2 ≤ v.length ∧
    getI (partitionEqual lt v pivotIdx).1 0 = getI (swapI v 0 pivotIdx) 0 ∧
    (∀ j, 1 ≤ j → j < (partitionEqual lt v pivotIdx).2 →
      ¬ lt (getI (swapI v 0 pivotIdx) 0)
        (getI (partitionEqual lt v pivotIdx).1 j) = true) ∧
    (∀ j, (partitionEqual lt v pivotIdx).2 ≤ j → j < v.length →
      lt (getI (swapI v 0 pivotIdx) 0)
        (getI (partitionEqual lt v pivotIdx).1 j) = true) := by
  have hvlen : (swapI v 0 pivotIdx).length = (v.length - 1) + 1 := by
    rw [length_swapI]
    omega
  obtain ⟨c1, c2, c3, c4, c5, c6, c7⟩ := peLoop_spec lt (getI (swapI v 0 pivotIdx) 0)
    (v.length - 1) ((v.length - 1) + 1) (swapI v 0 pivotIdx) 0 (v.length - 1)
    hvlen (by omega) (le_refl _) (by omega)
    (fun j hj => absurd hj (by omega))
    (fun j hj1 hj2 => absurd hj2 (by omega))
  have hq : partitionEqual lt v pivotIdx =
      ((peLoop lt (getI (swapI v 0 pivotIdx) 0) ((v.length - 1) + 1)
        (swapI v 0 pivotIdx) 0 (v.length - 1)).1,
       (peLoop lt (getI (swapI v 0 pivotIdx) 0) ((v.length - 1) + 1)
        (swapI v 0 pivotIdx) 0 (v.length - 1)).2 + 1) := by
    show ((peLoop lt (getI (swapI v 0 pivotIdx) 0)
      ((swapI v 0 pivotIdx).length - 1 + 1) (swapI v 0 pivotIdx) 0
      ((swapI v 0 pivotIdx).length - 1)).1, _) = _
    rw [length_swapI]
  rw [hq]
  have hswap_perm : List.Perm (swapI v 0 pivotIdx) v :=
    swapI_perm v 0 pivotIdx (by omega) hpi
  refine ⟨by rw [c1]; omega, c2.trans hswap_perm, by omega, by omega, c3, ?_, ?_⟩
  · intro j hj1 hj2
    have := c6 (j - 1) (by omega)
    rwa [show 1 + (j - 1) = j by omega] at this
  · intro j hj1 hj2
    have := c7 (j - 1) (by omega) (by omega)
    rwa [show 1 + (j - 1) = j by omega] at this

end Zermelo

namespace Zermelo

/-- `gatherL` collects exactly the offsets in `[i, i+rem)` whose element is
not below the pivot, in increasing order. -/
theorem gatherL_spec [Inhabited α] (lt : α → α → Bool) (p : α) (xs : List α)
    (base : Nat) :
    ∀ rem i,
      (∀ o ∈ gatherL lt p xs base rem i, i ≤ o ∧ o < i + rem ∧
        lt (getI xs (base + o)) p = false) ∧
      (∀ o, i ≤ o → o < i + rem → o ∉ gatherL lt p xs base rem i →
        lt (getI xs (base + o)) p = true) ∧
      List.Pairwise (· < ·) (gatherL lt p xs base rem i) := by
  intro rem
  induction rem with
  | zero =>
    intro i
    exact ⟨fun o ho => absurd ho (List.not_mem_nil o), fun o h1 h2 _ => by omega,
      List.Pairwise.nil⟩
  | succ rm ih =>
    intro i
    obtain ⟨ih1, ih2, ih3⟩ := ih (i + 1)
    by_cases hc : ¬ lt (getI xs (base + i)) p = true
    · have hstep : gatherL lt p xs base (rm + 1) i =
          i :: gatherL lt p xs base rm (i + 1) := by
        show (if ¬ lt (getI xs (base + i)) p then _ else _) = _
        rw [if_pos hc]
      rw [hstep]
      refine ⟨?_, ?_, ?_⟩
      · intro o ho
        rcases List.mem_cons.mp ho with rfl | ho2
        · exact ⟨le_refl _, by omega, Bool.not_eq_true _ ▸ hc⟩
        · obtain ⟨q1, q2, q3⟩ := ih1 o ho2
          exact ⟨by omega, by omega, q3⟩
      · intro o h1 h2 h3
        rcases Nat.eq_or_lt_of_le h1 with rfl | h4
        · exact absurd (List.mem_cons_self ..) h3
        · exact ih2 o (by omega) (by omega) (fun hm => h3 (List.mem_cons_of_mem _ hm))
      · rw [List.pairwise_cons]
        exact ⟨fun o ho => by
          have := (ih1 o ho).1
          omega, ih3⟩
    · have hstep : gatherL lt p xs base (rm + 1) i =
          gatherL lt p xs base rm (i + 1) := by
        show (if ¬ lt (getI xs (base + i)) p then _ else _) = _
        rw [if_neg hc]
      rw [hstep]
      refine ⟨?_, ?_, ih3⟩
      · intro o ho
        obtain ⟨q1, q2, q3⟩ := ih1 o ho
        exact ⟨by omega, by omega, q3⟩
      · intro o h1 h2 h3
        rcases Nat.eq_or_lt_of_le h1 with rfl | h4
        · exact Decidable.not_not.mp hc
        · exact ih2 o (by omega) (by omega) h3

/-- `gatherR` collects exactly the offsets in `[i, i+rem)` whose element
(at mirrored position `r - 1 - o`) is below the pivot, in increasing order. -/
theorem gatherR_spec [Inhabited α] (lt : α → α → Bool) (p : α) (xs : List α)
    (r : Nat) :
    ∀ rem i,
      (∀ o ∈ gatherR lt p xs r rem i, i ≤ o ∧ o < i + rem ∧
        lt (getI xs (r - 1 - o)) p = true) ∧
      (∀ o, i ≤ o → o < i + rem → o ∉ gatherR lt p xs r rem i →
        lt (getI xs (r - 1 - o)) p = false) ∧
      List.Pairwise (· < ·) (gatherR lt p xs r rem i) := by
  intro rem
  induction rem with
  | zero =>
    intro i
    exact ⟨fun o ho => absurd ho (List.not_mem_nil o), fun o h1 h2 _ => by omega,
      List.Pairwise.nil⟩
  | succ rm ih =>
    intro i
    obtain ⟨ih1, ih2, ih3⟩ := ih (i + 1)
    by_cases hc : lt (getI xs (r - 1 - i)) p = true
    · have hstep : gatherR lt p xs r (rm + 1) i =
          i :: gatherR lt p xs r rm (i + 1) := by
        show (if lt (getI xs (r - 1 - i)) p then _ else _) = _
        rw [if_pos hc]
      rw [hstep]
      refine ⟨?_, ?_, ?_⟩
      · intro o ho
        rcases List.mem_cons.mp ho with rfl | ho2
        · exact ⟨le_refl _, by omega, hc⟩
        · obtain ⟨q1, q2, q3⟩ := ih1 o ho2
          exact ⟨by omega, by omega, q3⟩
      · intro o h1 h2 h3
        rcases Nat.eq_or_lt_of_le h1 with rfl | h4
        · exact absurd (List.mem_cons_self ..) h3
        · exact ih2 o (by omega) (by omega) (fun hm => h3 (List.mem_cons_of_mem _ hm))
      · rw [List.pairwise_cons]
        exact ⟨fun o ho => by
          have := (ih1 o ho).1
          omega, ih3⟩
    · have hstep : gatherR lt p xs r (rm + 1) i =
          gatherR lt p xs r rm (i + 1) := by
        show (if lt (getI xs (r - 1 - i)) p then _ else _) = _
        rw [if_neg hc]
      rw [hstep]
      refine ⟨?_, ?_, ih3⟩
      · intro o ho
        obtain ⟨q1, q2, q3⟩ := ih1 o ho
        exact ⟨by omega, by omega, q3⟩
      · intro o h1 h2 h3
        rcases Nat.eq_or_lt_of_le h1 with rfl | h4
        · exact Bool.not_eq_true _ ▸ hc
        · exact ih2 o (by omega) (by omega) h3

end Zermelo

namespace Zermelo

/-- The positions touched by a pair list, interleaved. -/
def pairsPos : List (Nat × Nat) → List Nat
  | [] => []
  | pr :: rest => pr.1 :: pr.2 :: pairsPos rest

theorem pairsPos_perm : ∀ (l1 l2 : List Nat), l1.length = l2.length →
    List.Perm (pairsPos (l1.zip l2)) (l1 ++ l2) := by
  intro l1
  induction l1 with
  | nil =>
    intro l2 h
    have h2 : l2 = [] := List.eq_nil_of_length_eq_zero h.symm
    subst h2
    exact List.Perm.refl _
  | cons a l1 ih =>
    intro l2 h
    rcases l2 with _ | ⟨b, l2⟩
    · simp at h
    · show List.Perm (a :: b :: pairsPos (l1.zip l2)) ((a :: l1) ++ b :: l2)
      have hp := ih l2 (by simpa using h)
      exact ((hp.cons b).cons a).trans ((List.perm_middle.symm).cons a)

theorem mem_zip_left : ∀ (l1 l2 : List Nat), l1.length = l2.length →
    ∀ a ∈ l1, ∃ b, (a, b) ∈ l1.zip l2 := by
  intro l1
  induction l1 with
  | nil => intro l2 h a ha; exact absurd ha (List.not_mem_nil a)
  | cons x l1 ih =>
    intro l2 h a ha
    rcases l2 with _ | ⟨y, l2⟩
    · simp at h
    · rcases List.mem_cons.mp ha with rfl | ha2
      · exact ⟨y, List.mem_cons_self ..⟩
      · obtain ⟨b, hb⟩ := ih l2 (by simpa using h) a ha2
        exact ⟨b, List.mem_cons_of_mem _ hb⟩

theorem mem_zip_right : ∀ (l1 l2 : List Nat), l1.length = l2.length →
    ∀ b ∈ l2, ∃ a, (a, b) ∈ l1.zip l2 := by
  intro l1
  induction l1 with
  | nil =>
    intro l2 h b hb
    have h2 : l2 = [] := List.eq_nil_of_length_eq_zero h.symm
    subst h2
    exact absurd hb (List.not_mem_nil b)
  | cons x l1 ih =>
    intro l2 h b hb
    rcases l2 with _ | ⟨y, l2⟩
    · simp at h
    · rcases List.mem_cons.mp hb with rfl | hb2
      · exact ⟨x, List.mem_cons_self ..⟩
      · obtain ⟨a, ha⟩ := ih l2 (by simpa using h) b hb2
        exact ⟨a, List.mem_cons_of_mem _ ha⟩

/-- The hole-filling tail of the cyclic permutation: length, multiset (the
saved `tmp` replaces the running hole), untouched positions, and the
value classes that land on the left/right positions. -/
theorem cycleRest_spec [Inhabited α] (P Q : α → Prop) :
    ∀ (pairs : List (Nat × Nat)) (tmp : α) (xs : List α) (hole : Nat),
      hole < xs.length →
      (∀ pr ∈ pairs, pr.1 < xs.length ∧ pr.2 < xs.length) →
      (hole :: pairsPos pairs).Nodup →
      P tmp →
      (∀ pr ∈ pairs, P (getI xs pr.1) ∧ Q (getI xs pr.2)) →
      (cycleRest tmp pairs xs hole).length = xs.length ∧
      (getI xs hole) ::ₘ (↑(cycleRest tmp pairs xs hole) : Multiset α) =
        tmp ::ₘ (↑xs : Multiset α) ∧
      (∀ j, j < xs.length → j ≠ hole → (∀ pr ∈ pairs, j ≠ pr.1 ∧ j ≠ pr.2) →
        getI (cycleRest tmp pairs xs hole) j = getI xs j) ∧
      (∀ pr ∈ pairs, Q (getI (cycleRest tmp pairs xs hole) pr.1)) ∧
      (∀ pr ∈ pairs, P (getI (cycleRest tmp pairs xs hole) pr.2)) ∧
      P (getI (cycleRest tmp pairs xs hole) hole) := by
  intro pairs
  induction pairs with
  | nil =>
    intro tmp xs hole hhole _ _ hP _
    refine ⟨length_setI .., setI_multiset xs hole tmp hhole, ?_, ?_, ?_, ?_⟩
    · intro j _ hj _
      exact getI_setI_ne xs hole j tmp (fun h => hj h.symm)
    · intro pr hpr
      exact absurd hpr (List.not_mem_nil pr)
    · intro pr hpr
      exact absurd hpr (List.not_mem_nil pr)
    · show P (getI (setI xs hole tmp) hole)
      rwa [getI_setI_self xs hole tmp hhole]
  | cons pr0 rest ih =>
    intro tmp xs hole hhole hbnd hnd hP hPQ
    obtain ⟨ha, hb⟩ := hbnd pr0 (List.mem_cons_self ..)
    have hndl : (hole :: pr0.1 :: pr0.2 :: pairsPos rest).Nodup := hnd
    have hhA : hole ≠ pr0.1 := by
      intro h
      exact (List.nodup_cons.mp hndl).1 (h ▸ List.mem_cons_self ..)
    have hhB : hole ≠ pr0.2 := by
      intro h
      exact (List.nodup_cons.mp hndl).1 (h ▸ List.mem_cons_of_mem _ (List.mem_cons_self ..))
    have hAB : pr0.1 ≠ pr0.2 := by
      have h2 := (List.nodup_cons.mp hndl).2
      intro h
      exact (List.nodup_cons.mp h2).1 (h ▸ List.mem_cons_self ..)
    have hApos : ∀ x ∈ pairsPos rest, pr0.1 ≠ x := by
      intro x hx h
      have h2 := (List.nodup_cons.mp hndl).2
      exact (List.nodup_cons.mp h2).1 (h ▸ List.mem_cons_of_mem _ hx)
    have hBpos : ∀ x ∈ pairsPos rest, pr0.2 ≠ x := by
      intro x hx h
      have h2 := (List.nodup_cons.mp (List.nodup_cons.mp hndl).2).2
      exact (List.nodup_cons.mp h2).1 (h ▸ hx)
    have hHpos : ∀ x ∈ pairsPos rest, hole ≠ x := by
      intro x hx h
      exact (List.nodup_cons.mp hndl).1
        (h ▸ List.mem_cons_of_mem _ (List.mem_cons_of_mem _ hx))
    have hmemA : ∀ q ∈ rest, q.1 ∈ pairsPos rest ∧ q.2 ∈ pairsPos rest := by
      intro q hq
      clear hnd hndl hApos hBpos hHpos hPQ hbnd ih
      induction rest with
      | nil => exact absurd hq (List.not_mem_nil q)
      | cons w ws ihw =>
        rcases List.mem_cons.mp hq with rfl | hq2
        · exact ⟨List.mem_cons_self .., List.mem_cons_of_mem _ (List.mem_cons_self ..)⟩
        · obtain ⟨m1, m2⟩ := ihw hq2
          exact ⟨List.mem_cons_of_mem _ (List.mem_cons_of_mem _ m1),
            List.mem_cons_of_mem _ (List.mem_cons_of_mem _ m2)⟩
    have hstep : cycleRest tmp (pr0 :: rest) xs hole =
        cycleRest tmp rest (setI (setI xs hole (getI xs pr0.1)) pr0.1 (getI xs pr0.2))
          pr0.2 := by
      show cycleRest tmp rest (setI (setI xs hole (getI xs pr0.1)) pr0.1
        (getI (setI xs hole (getI xs pr0.1)) pr0.2)) pr0.2 = _
      rw [getI_setI_ne _ _ _ _ hhB]
    set xs1 := setI (setI xs hole (getI xs pr0.1)) pr0.1 (getI xs pr0.2) with hxs1
    have hlen1 : xs1.length = xs.length := by
      rw [hxs1, length_setI, length_setI]
    have hxs1A : getI xs1 pr0.1 = getI xs pr0.2 := by
      rw [hxs1]
      exact getI_setI_self _ _ _ (by rw [length_setI]; exact ha)
    have hxs1other : ∀ j, j ≠ hole → j ≠ pr0.1 → getI xs1 j = getI xs j := by
      intro j h1 h2
      rw [hxs1, getI_setI_ne _ _ _ _ (fun h => h2 h.symm),
        getI_setI_ne _ _ _ _ (fun h => h1 h.symm)]
    have hxs1hole : getI xs1 hole = getI xs pr0.1 := by
      rw [hxs1, getI_setI_ne _ _ _ _ (fun h => hhA h.symm)]
      exact getI_setI_self _ _ _ hhole
    obtain ⟨c1, c2, c3, c4, c5, c6⟩ := ih tmp xs1 pr0.2 (by rw [hlen1]; exact hb)
      (by
        intro q hq
        obtain ⟨q1, q2⟩ := hbnd q (List.mem_cons_of_mem _ hq)
        rw [hlen1]
        exact ⟨q1, q2⟩)
      (by
        exact (List.nodup_cons.mp (List.nodup_cons.mp hndl).2).2)
      hP
      (by
        intro q hq
        obtain ⟨m1, m2⟩ := hmemA q hq
        obtain ⟨p1, p2⟩ := hPQ q (List.mem_cons_of_mem _ hq)
        rw [hxs1other q.1 (fun h => hHpos q.1 m1 h.symm) (fun h => hApos q.1 m1 h.symm),
          hxs1other q.2 (fun h => hHpos q.2 m2 h.symm) (fun h => hApos q.2 m2 h.symm)]
        exact ⟨p1, p2⟩)
    rw [hstep]
    have huntouchedA : getI (cycleRest tmp rest xs1 pr0.2) pr0.1 = getI xs pr0.2 := by
      rw [c3 pr0.1 (by rw [hlen1]; exact ha) hAB
        (fun q hq => ⟨fun h => hApos q.1 (hmemA q hq).1 h,
          fun h => hApos q.2 (hmemA q hq).2 h⟩)]
      exact hxs1A
    have huntouchedH : getI (cycleRest tmp rest xs1 pr0.2) hole = getI xs pr0.1 := by
      rw [c3 hole (by rw [hlen1]; exact hhole) hhB
        (fun q hq => ⟨fun h => hHpos q.1 (hmemA q hq).1 h,
          fun h => hHpos q.2 (hmemA q hq).2 h⟩)]
      exact hxs1hole
    have hx1p2 : getI xs1 pr0.2 = getI xs pr0.2 :=
      hxs1other pr0.2 (fun h => hhB h.symm) (fun h => hAB h.symm)
    rw [hx1p2] at c2
    refine ⟨c1.trans hlen1, ?_, ?_, ?_, ?_, ?_⟩
    · -- multiset: A ::ₘ y = tmp ::ₘ xs
      have s1 := setI_multiset xs hole (getI xs pr0.1) hhole
      have s2 := setI_multiset (setI xs hole (getI xs pr0.1)) pr0.1 (getI xs pr0.2)
        (by rw [length_setI]; exact ha)
      rw [getI_setI_ne _ _ _ _ hhA] at s2
      rw [← Multiset.singleton_add, ← Multiset.singleton_add] at s1 s2 c2 ⊢
      have big : ({getI xs pr0.1} : Multiset α) + {getI xs pr0.2} +
          ({getI xs hole} + (↑(cycleRest tmp rest xs1 pr0.2) : Multiset α)) =
          {getI xs pr0.1} + {getI xs pr0.2} + ({tmp} + (↑xs : Multiset α)) := by
        calc ({getI xs pr0.1} : Multiset α) + {getI xs pr0.2} +
            ({getI xs hole} + (↑(cycleRest tmp rest xs1 pr0.2) : Multiset α))
            = {getI xs hole} + {getI xs pr0.1} +
              ({getI xs pr0.2} + ↑(cycleRest tmp rest xs1 pr0.2)) := by abel
          _ = {getI xs hole} + {getI xs pr0.1} + ({tmp} + ↑xs1) := by rw [c2]
          _ = {getI xs hole} + {tmp} + ({getI xs pr0.1} + ↑xs1) := by abel
          _ = {getI xs hole} + {tmp} + ({getI xs pr0.2} +
              ↑(setI xs hole (getI xs pr0.1))) := by rw [s2]
          _ = {tmp} + {getI xs pr0.2} + ({getI xs hole} +
              ↑(setI xs hole (getI xs pr0.1))) := by abel
          _ = {tmp} + {getI xs pr0.2} + ({getI xs pr0.1} + ↑xs) := by rw [s1]
          _ = {getI xs pr0.1} + {getI xs pr0.2} + ({tmp} + ↑xs) := by abel
      exact add_left_cancel big
    · intro j hj h1 h2
      have h3 := h2 pr0 (List.mem_cons_self ..)
      rw [c3 j (by rw [hlen1]; exact hj) h3.2
        (fun q hq => h2 q (List.mem_cons_of_mem _ hq))]
      exact hxs1other j h1 h3.1
    · intro q hq
      rcases List.mem_cons.mp hq with rfl | hq2
      · rw [huntouchedA]
        exact (hPQ q (List.mem_cons_self ..)).2
      · exact c4 q hq2
    · intro q hq
      rcases List.mem_cons.mp hq with rfl | hq2
      · exact c6
      · exact c5 q hq2
    · rw [huntouchedH]
      exact (hPQ pr0 (List.mem_cons_self ..)).1

/-- The block-swap cycle: with distinct in-range left/right positions whose
values fall in classes `P` (left, misplaced) and `Q` (right, misplaced), the
cycle preserves the multiset, leaves other positions alone, and exchanges the
classes at the named positions. -/
theorem cycleSwap_spec [Inhabited α] (P Q : α → Prop) (xs : List α) (l r : Nat)
    (offsL offsR : List Nat) (count : Nat)
    (lp0 : Nat) (lps : List Nat) (rp0 : Nat) (rps : List Nat)
    (hL : (offsL.take count).map (fun o => l + o) = lp0 :: lps)
    (hR : (offsR.take count).map (fun o => r - 1 - o) = rp0 :: rps)
    (hlen : lps.length = rps.length)
    (hbnd : ∀ pos ∈ (lp0 :: lps) ++ (rp0 :: rps), pos < xs.length)
    (hnd : ((lp0 :: lps) ++ (rp0 :: rps)).Nodup)
    (hPcl : ∀ pos ∈ lp0 :: lps, P (getI xs pos))
    (hQcl : ∀ pos ∈ rp0 :: rps, Q (getI xs pos)) :
    (cycleSwap xs l r offsL offsR count).length = xs.length ∧
    (↑(cycleSwap xs l r offsL offsR count) : Multiset α) = (↑xs : Multiset α) ∧
    (∀ j, j < xs.length → j ∉ lp0 :: lps → j ∉ rp0 :: rps →
      getI (cycleSwap xs l r offsL offsR count) j = getI xs j) ∧
    (∀ pos ∈ lp0 :: lps, Q (getI (cycleSwap xs l r offsL offsR count) pos)) ∧
    (∀ pos ∈ rp0 :: rps, P (getI (cycleSwap xs l r offsL offsR count) pos)) := by
  have hstep : cycleSwap xs l r offsL offsR count =
      cycleRest (getI xs lp0) (lps.zip rps) (setI xs lp0 (getI xs rp0)) rp0 := by
    unfold cycleSwap
    rw [hL, hR]
  have hnd' : (lp0 :: (lps ++ rp0 :: rps)).Nodup := by
    rwa [List.cons_append] at hnd
  have hlp0nm : lp0 ∉ lps ++ rp0 :: rps := (List.nodup_cons.mp hnd').1
  have hnd1 : (lps ++ rp0 :: rps).Nodup := (List.nodup_cons.mp hnd').2
  have hlp0bnd : lp0 < xs.length := hbnd lp0 (List.mem_cons_self ..)
  have hrp0bnd : rp0 < xs.length :=
    hbnd rp0 (List.mem_append_right _ (List.mem_cons_self ..))
  have hlr0 : lp0 ≠ rp0 := by
    intro h
    exact hlp0nm (List.mem_append_right _ (h ▸ List.mem_cons_self ..))
  set xs1 := setI xs lp0 (getI xs rp0) with hxs1
  have hlen1 : xs1.length = xs.length := length_setI ..
  have hxs1lp0 : getI xs1 lp0 = getI xs rp0 := getI_setI_self _ _ _ hlp0bnd
  have hxs1other : ∀ j, j ≠ lp0 → getI xs1 j = getI xs j := by
    intro j hj
    exact getI_setI_ne _ _ _ _ (fun h => hj h.symm)
  have hpermNd : (rp0 :: pairsPos (lps.zip rps)).Nodup := by
    have hperm : List.Perm (rp0 :: pairsPos (lps.zip rps)) (lps ++ rp0 :: rps) :=
      ((pairsPos_perm lps rps hlen).cons rp0).trans List.perm_middle.symm
    exact hperm.nodup_iff.mpr hnd1
  obtain ⟨c1, c2, c3, c4, c5, c6⟩ := cycleRest_spec P Q (lps.zip rps) (getI xs lp0)
    xs1 rp0 (by rw [hlen1]; exact hrp0bnd)
    (by
      intro pr hpr
      obtain ⟨m1, m2⟩ := List.of_mem_zip hpr
      rw [hlen1]
      exact ⟨hbnd pr.1 (List.mem_cons_of_mem _ (List.mem_append_left _ m1)),
        hbnd pr.2 (List.mem_append_right _ (List.mem_cons_of_mem _ m2))⟩)
    hpermNd
    (hPcl lp0 (List.mem_cons_self ..))
    (by
      intro pr hpr
      obtain ⟨m1, m2⟩ := List.of_mem_zip hpr
      have h1 : pr.1 ≠ lp0 := by
        intro h
        exact hlp0nm (List.mem_append_left _ (h ▸ m1))
      have h2 : pr.2 ≠ lp0 := by
        intro h
        exact hlp0nm (List.mem_append_right _ (List.mem_cons_of_mem _ (h ▸ m2)))
      rw [hxs1other pr.1 h1, hxs1other pr.2 h2]
      exact ⟨hPcl pr.1 (List.mem_cons_of_mem _ m1),
        hQcl pr.2 (List.mem_cons_of_mem _ m2)⟩)
  rw [hstep]
  have hrp0mem : ∀ x ∈ pairsPos (lps.zip rps), rp0 ≠ x := by
    intro x hx h
    exact (List.nodup_cons.mp hpermNd).1 (h ▸ hx)
  have hx1rp0 : getI xs1 rp0 = getI xs rp0 := hxs1other rp0 (fun h => hlr0 h.symm)
  refine ⟨c1.trans hlen1, ?_, ?_, ?_, ?_⟩
  · -- multiset preservation
    have s := setI_multiset xs lp0 (getI xs rp0) hlp0bnd
    rw [hx1rp0] at c2
    exact (Multiset.cons_inj_right _).mp (c2.trans s)
  · intro j hj hjl hjr
    have hjlp0 : j ≠ lp0 := fun h => hjl (h ▸ List.mem_cons_self ..)
    have hjrp0 : j ≠ rp0 := fun h => hjr (h ▸ List.mem_cons_self ..)
    rw [c3 j (by rw [hlen1]; exact hj) hjrp0
      (by
        intro pr hpr
        obtain ⟨m1, m2⟩ := List.of_mem_zip hpr
        exact ⟨fun h => hjl (h ▸ List.mem_cons_of_mem _ m1),
          fun h => hjr (h ▸ List.mem_cons_of_mem _ m2)⟩)]
    exact hxs1other j hjlp0
  · intro pos hpos
    rcases List.mem_cons.mp hpos with rfl | hpos2
    · have hplr : pos ≠ rp0 := hlr0
      rw [c3 pos (by rw [hlen1]; exact hlp0bnd) hplr
        (by
          intro pr hpr
          obtain ⟨m1, m2⟩ := List.of_mem_zip hpr
          exact ⟨fun h => hlp0nm (List.mem_append_left _ (h ▸ m1)),
            fun h => hlp0nm (List.mem_append_right _
              (List.mem_cons_of_mem _ (h ▸ m2)))⟩)]
      rw [hxs1lp0]
      exact hQcl rp0 (List.mem_cons_self ..)
    · obtain ⟨b, hb⟩ := mem_zip_left lps rps hlen pos hpos2
      exact c4 (pos, b) hb
  · intro pos hpos
    rcases List.mem_cons.mp hpos with rfl | hpos2
    · exact c6
    · obtain ⟨a, ha⟩ := mem_zip_right lps rps hlen pos hpos2
      exact c5 (a, pos) ha

/-- `fixupL`: with strictly decreasing offsets marking the `P`-class stragglers
in the window `[l, r)` (every other window slot `Qc`-class), the patch-up moves
the stragglers to the back of the window and returns the new frontier. -/
theorem fixupL_spec [Inhabited α] (P Qc : α → Prop) (l : Nat) :
    ∀ (offs : List Nat) (xs : List α) (r : Nat),
      offs.Pairwise (· > ·) →
      (∀ off ∈ offs, l + off < r) →
      r ≤ xs.length →
      (∀ off ∈ offs, P (getI xs (l + off))) →
      (∀ j, l ≤ j → j < r → (∀ off ∈ offs, j ≠ l + off) → Qc (getI xs j)) →
      (fixupL offs xs l r).2 = r - offs.length ∧
      (fixupL offs xs l r).1.length = xs.length ∧
      (↑(fixupL offs xs l r).1 : Multiset α) = (↑xs : Multiset α) ∧
      (∀ j, j < xs.length → (j < l ∨ r ≤ j) →
        getI (fixupL offs xs l r).1 j = getI xs j) ∧
      (∀ j, l ≤ j → j < r - offs.length → Qc (getI (fixupL offs xs l r).1 j)) ∧
      (∀ j, r - offs.length ≤ j → j < r → P (getI (fixupL offs xs l r).1 j)) := by
  intro offs
  induction offs with
  | nil =>
    intro xs r _ _ _ _ hQ
    exact ⟨rfl, rfl, rfl, fun j _ _ => rfl,
      fun j h1 h2 => hQ j h1 h2 (fun off hoff => absurd hoff (List.not_mem_nil off)),
      fun j h1 h2 => absurd h1 (by simp only [List.length_nil, Nat.sub_zero]; omega)⟩
  | cons off0 offs ih =>
    intro xs r hdec hwin hr hP hQ
    have hoff0 : l + off0 < r := hwin off0 (List.mem_cons_self ..)
    have hmax : ∀ off ∈ offs, off < off0 := fun off hoff =>
      (List.pairwise_cons.mp hdec).1 off hoff
    have hstep : fixupL (off0 :: offs) xs l r =
        fixupL offs (swapI xs (l + off0) (r - 1)) l (r - 1) := rfl
    set xs1 := swapI xs (l + off0) (r - 1) with hxs1
    have hlen1 : xs1.length = xs.length := length_swapI ..
    have hr1 : r - 1 < xs.length := by omega
    have hl0 : l + off0 < xs.length := by omega
    have hx1left : getI xs1 (l + off0) = getI xs (r - 1) :=
      getI_swapI_left xs _ _ hl0 hr1
    have hx1right : getI xs1 (r - 1) = getI xs (l + off0) :=
      getI_swapI_right xs _ _ hr1
    have hx1other : ∀ j, j ≠ l + off0 → j ≠ r - 1 → getI xs1 j = getI xs j :=
      fun j h1 h2 => getI_swapI_other xs _ _ j h1 h2
    obtain ⟨c1, c2, c3, c4, c5, c6⟩ := ih xs1 (r - 1)
      (List.pairwise_cons.mp hdec).2
      (by
        intro off hoff
        have := hmax off hoff
        omega)
      (by omega)
      (by
        intro off hoff
        rw [hx1other (l + off) (by have := hmax off hoff; omega)
          (by have := hwin off (List.mem_cons_of_mem _ hoff); have := hmax off hoff; omega)]
        exact hP off (List.mem_cons_of_mem _ hoff))
      (by
        intro j h1 h2 h3
        by_cases hc : j = l + off0
        · subst hc
          rw [hx1left]
          refine hQ (r - 1) (by omega) (by omega) ?_
          intro off hoff
          rcases List.mem_cons.mp hoff with rfl | hoff2
          · omega
          · have := hmax off hoff2
            omega
        · rw [hx1other j hc (by omega)]
          refine hQ j h1 (by omega) ?_
          intro off hoff
          rcases List.mem_cons.mp hoff with rfl | hoff2
          · exact hc
          · exact h3 off hoff2)
    rw [hstep]
    refine ⟨by rw [c1]; simp; omega, c2.trans hlen1, ?_, ?_, ?_, ?_⟩
    · rw [c3, ← Multiset.coe_eq_coe.mpr (swapI_perm xs (l + off0) (r - 1) hl0 hr1)]
    · intro j hj hside
      rw [c4 j (by omega) (by omega)]
      exact hx1other j (by omega) (by omega)
    · intro j h1 h2
      refine c5 j h1 ?_
      simp only [List.length_cons] at h2
      omega
    · intro j h1 h2
      simp only [List.length_cons] at h1
      by_cases hc : j = r - 1
      · subst hc
        rw [c4 (r - 1) (by omega) (by omega), hx1right]
        exact hP off0 (List.mem_cons_self ..)
      · exact c6 j (by omega) (by omega)

/-- `fixupR`: with strictly decreasing offsets marking the `Qc`-class
stragglers at positions `r - 1 - off` of the window (every other window slot
`P`-class), the patch-up moves them to the front and returns the new
frontier. -/
theorem fixupR_spec [Inhabited α] (P Qc : α → Prop) (r : Nat) :
    ∀ (offs : List Nat) (xs : List α) (l : Nat),
      offs.Pairwise (· > ·) →
      (∀ off ∈ offs, l + off < r) →
      r ≤ xs.length →
      (∀ off ∈ offs, Qc (getI xs (r - 1 - off))) →
      (∀ j, l ≤ j → j < r → (∀ off ∈ offs, j ≠ r - 1 - off) → P (getI xs j)) →
      (fixupR offs xs l r).2 = l + offs.length ∧
      (fixupR offs xs l r).1.length = xs.length ∧
      (↑(fixupR offs xs l r).1 : Multiset α) = (↑xs : Multiset α) ∧
      (∀ j, j < xs.length → (j < l ∨ r ≤ j) →
        getI (fixupR offs xs l r).1 j = getI xs j) ∧
      (∀ j, l ≤ j → j < l + offs.length → Qc (getI (fixupR offs xs l r).1 j)) ∧
      (∀ j, l + offs.length ≤ j → j < r → P (getI (fixupR offs xs l r).1 j)) := by
  intro offs
  induction offs with
  | nil =>
    intro xs l _ _ _ _ hP
    exact ⟨rfl, rfl, rfl, fun j _ _ => rfl,
      fun j h1 h2 => absurd h1 (by simp only [List.length_nil, Nat.add_zero] at h2; omega),
      fun j h1 h2 => hP j (by simp at h1; omega) h2
        (fun off hoff => absurd hoff (List.not_mem_nil off))⟩
  | cons off0 offs ih =>
    intro xs l hdec hwin hr hQ hP
    have hoff0 : l + off0 < r := hwin off0 (List.mem_cons_self ..)
    have hmax : ∀ off ∈ offs, off < off0 := fun off hoff =>
      (List.pairwise_cons.mp hdec).1 off hoff
    have hstep : fixupR (off0 :: offs) xs l r =
        fixupR offs (swapI xs l (r - 1 - off0)) (l + 1) r := rfl
    set xs1 := swapI xs l (r - 1 - off0) with hxs1
    have hlen1 : xs1.length = xs.length := length_swapI ..
    have hp0 : r - 1 - off0 < xs.length := by omega
    have hlb : l < xs.length := by omega
    have hx1left : getI xs1 l = getI xs (r - 1 - off0) :=
      getI_swapI_left xs _ _ hlb hp0
    have hx1right : getI xs1 (r - 1 - off0) = getI xs l :=
      getI_swapI_right xs _ _ hp0
    have hx1other : ∀ j, j ≠ l → j ≠ r - 1 - off0 → getI xs1 j = getI xs j :=
      fun j h1 h2 => getI_swapI_other xs _ _ j h1 h2
    obtain ⟨c1, c2, c3, c4, c5, c6⟩ := ih xs1 (l + 1)
      (List.pairwise_cons.mp hdec).2
      (by
        intro off hoff
        have := hmax off hoff
        omega)
      (by omega)
      (by
        intro off hoff
        rw [hx1other (r - 1 - off) (by have := hmax off hoff; omega)
          (by have := hmax off hoff; omega)]
        exact hQ off (List.mem_cons_of_mem _ hoff))
      (by
        intro j h1 h2 h3
        by_cases hc : j = r - 1 - off0
        · subst hc
          rw [hx1right]
          refine hP l (by omega) (by omega) ?_
          intro off hoff
          rcases List.mem_cons.mp hoff with rfl | hoff2
          · omega
          · have := hmax off hoff2
            omega
        · rw [hx1other j (by omega) hc]
          refine hP j (by omega) h2 ?_
          intro off hoff
          rcases List.mem_cons.mp hoff with rfl | hoff2
          · exact hc
          · exact h3 off hoff2)
    rw [hstep]
    refine ⟨by rw [c1]; simp; omega, c2.trans hlen1, ?_, ?_, ?_, ?_⟩
    · rw [c3, ← Multiset.coe_eq_coe.mpr (swapI_perm xs l (r - 1 - off0) hlb hp0)]
    · intro j hj hside
      rw [c4 j (by omega) (by omega)]
      exact hx1other j (by omega) (by omega)
    · intro j h1 h2
      simp only [List.length_cons] at h2
      by_cases hc : j = l
      · rw [hc, c4 l (by omega) (by omega), hx1left]
        exact hQ off0 (List.mem_cons_self ..)
      · exact c5 j (by omega) (by omega)
    · intro j h1 h2
      simp only [List.length_cons] at h1
      exact c6 j (by omega) h2

/-- A traced left block: strictly increasing offsets mark exactly the
not-less elements of `[l, l + bL)`. -/
def leftDesc [Inhabited α] (lt : α → α → Bool) (p : α) (xs : List α) (l bL : Nat)
    (offs : List Nat) : Prop :=
  offs.Pairwise (· < ·) ∧
  (∀ off ∈ offs, off < bL ∧ lt (getI xs (l + off)) p = false) ∧
  (∀ i, i < bL → (∀ off ∈ offs, i ≠ off) → lt (getI xs (l + i)) p = true)

/-- A traced right block: strictly increasing offsets mark exactly the
less-than elements of `[r - bR, r)`, offset `o` naming position `r - 1 - o`. -/
def rightDesc [Inhabited α] (lt : α → α → Bool) (p : α) (xs : List α) (r bR : Nat)
    (offs : List Nat) : Prop :=
  offs.Pairwise (· < ·) ∧
  (∀ off ∈ offs, off < bR ∧ lt (getI xs (r - 1 - off)) p = true) ∧
  (∀ i, i < bR → (∀ off ∈ offs, i ≠ off) → lt (getI xs (r - 1 - i)) p = false)

theorem gatherL_desc [Inhabited α] (lt : α → α → Bool) (p : α) (xs : List α)
    (l bL : Nat) : leftDesc lt p xs l bL (gatherL lt p xs l bL 0) := by
  obtain ⟨h1, h2, h3⟩ := gatherL_spec lt p xs l bL 0
  refine ⟨h3, ?_, ?_⟩
  · intro off hoff
    obtain ⟨g1, g2, g3⟩ := h1 off hoff
    exact ⟨by omega, g3⟩
  · intro i hi hnm
    exact h2 i (Nat.zero_le i) (by omega) (fun hmem => hnm i hmem rfl)

theorem gatherR_desc [Inhabited α] (lt : α → α → Bool) (p : α) (xs : List α)
    (r bR : Nat) : rightDesc lt p xs r bR (gatherR lt p xs r bR 0) := by
  obtain ⟨h1, h2, h3⟩ := gatherR_spec lt p xs r bR 0
  refine ⟨h3, ?_, ?_⟩
  · intro off hoff
    obtain ⟨g1, g2, g3⟩ := h1 off hoff
    exact ⟨by omega, g3⟩
  · intro i hi hnm
    exact h2 i (Nat.zero_le i) (by omega) (fun hmem => hnm i hmem rfl)

theorem take_lt_drop {offs : List Nat} (hp : offs.Pairwise (· < ·)) (c : Nat) :
    ∀ x ∈ offs.take c, ∀ y ∈ offs.drop c, x < y := by
  have h2 : (offs.take c ++ offs.drop c).Pairwise (· < ·) := by
    rw [List.take_append_drop]
    exact hp
  exact (List.pairwise_append.mp h2).2.2

theorem pairwise_take_all {R : Nat → Nat → Prop} {offs : List Nat}
    (hp : offs.Pairwise R) (c : Nat) : (offs.take c).Pairwise R := by
  have h2 : (offs.take c ++ offs.drop c).Pairwise R := by
    rw [List.take_append_drop]
    exact hp
  exact (List.pairwise_append.mp h2).1

theorem pairwise_drop_all {R : Nat → Nat → Prop} {offs : List Nat}
    (hp : offs.Pairwise R) (c : Nat) : (offs.drop c).Pairwise R := by
  have h2 : (offs.take c ++ offs.drop c).Pairwise R := by
    rw [List.take_append_drop]
    exact hp
  exact (List.pairwise_append.mp h2).2.1

theorem mem_take_or_drop {offs : List Nat} {i : Nat} (c : Nat) (h : i ∈ offs) :
    i ∈ offs.take c ∨ i ∈ offs.drop c := by
  rw [← List.take_append_drop c offs] at h
  exact List.mem_append.mp h

/-- One gather-and-cycle round of `partition_in_blocks`: both block
descriptions survive with the first `count` offsets consumed, the multiset is
unchanged, and nothing outside the two blocks moves. -/
theorem swapStep_spec [Inhabited α] (lt : α → α → Bool) (p : α) (xs : List α)
    (l r bL bR : Nat) (offsL offsR : List Nat) (count : Nat) (xs2 : List α)
    (hcount : count = min offsL.length offsR.length)
    (hxs2 : xs2 = if count > 0 then cycleSwap xs l r offsL offsR count else xs)
    (hgeo : l + bL + bR ≤ r) (hr : r ≤ xs.length)
    (hdL : leftDesc lt p xs l bL offsL) (hdR : rightDesc lt p xs r bR offsR) :
    xs2.length = xs.length ∧ (↑xs2 : Multiset α) = (↑xs : Multiset α) ∧
    (∀ j, j < xs.length → (j < l ∨ (l + bL ≤ j ∧ j < r - bR) ∨ r ≤ j) →
      getI xs2 j = getI xs j) ∧
    leftDesc lt p xs2 l bL (offsL.drop count) ∧
    rightDesc lt p xs2 r bR (offsR.drop count) := by
  obtain ⟨hLp, hLoff, hLother⟩ := hdL
  obtain ⟨hRp, hRoff, hRother⟩ := hdR
  by_cases hc0 : count > 0
  case neg =>
    have hc00 : count = 0 := by omega
    subst hc00
    rw [if_neg (by omega)] at hxs2
    subst hxs2
    exact ⟨rfl, rfl, fun j _ _ => rfl,
      by rw [List.drop_zero]; exact ⟨hLp, hLoff, hLother⟩,
      by rw [List.drop_zero]; exact ⟨hRp, hRoff, hRother⟩⟩
  case pos =>
    rw [if_pos hc0] at hxs2
    have hcl : count ≤ offsL.length := by omega
    have hcr : count ≤ offsR.length := by omega
    have hbRpos : 0 < bR := by
      rcases offsR with _ | ⟨b, bs⟩
      · simp at hcr
        omega
      · have := (hRoff b (List.mem_cons_self ..)).1
        omega
    have htbL : ∀ off ∈ offsL.take count, off < bL :=
      fun off hoff => (hLoff off (List.mem_of_mem_take hoff)).1
    have htbR : ∀ off ∈ offsR.take count, off < bR :=
      fun off hoff => (hRoff off (List.mem_of_mem_take hoff)).1
    have hLlen : ((offsL.take count).map (fun o => l + o)).length = count := by
      rw [List.length_map, List.length_take]
      omega
    have hRlen : ((offsR.take count).map (fun o => r - 1 - o)).length = count := by
      rw [List.length_map, List.length_take]
      omega
    obtain ⟨lp0, lps, hLc⟩ := List.exists_cons_of_ne_nil
      (fun h => by rw [h] at hLlen; simp at hLlen; omega :
        (offsL.take count).map (fun o => l + o) ≠ [])
    obtain ⟨rp0, rps, hRc⟩ := List.exists_cons_of_ne_nil
      (fun h => by rw [h] at hRlen; simp at hRlen; omega :
        (offsR.take count).map (fun o => r - 1 - o) ≠ [])
    have hlps : lps.length = rps.length := by
      rw [hLc] at hLlen
      rw [hRc] at hRlen
      simp only [List.length_cons] at hLlen hRlen
      omega
    have hLmem : ∀ pos ∈ lp0 :: lps, ∃ off ∈ offsL.take count, l + off = pos := by
      intro pos hpos
      exact List.mem_map.mp (hLc ▸ hpos)
    have hRmem : ∀ pos ∈ rp0 :: rps, ∃ off ∈ offsR.take count, r - 1 - off = pos := by
      intro pos hpos
      exact List.mem_map.mp (hRc ▸ hpos)
    have hLmem2 : ∀ off ∈ offsL.take count, l + off ∈ lp0 :: lps := by
      intro off hoff
      rw [← hLc]
      exact List.mem_map.mpr ⟨off, hoff, rfl⟩
    have hRmem2 : ∀ off ∈ offsR.take count, r - 1 - off ∈ rp0 :: rps := by
      intro off hoff
      rw [← hRc]
      exact List.mem_map.mpr ⟨off, hoff, rfl⟩
    have hLrange : ∀ pos ∈ lp0 :: lps, l ≤ pos ∧ pos < l + bL := by
      intro pos hpos
      obtain ⟨off, hoff, rfl⟩ := hLmem pos hpos
      have := htbL off hoff
      omega
    have hRrange : ∀ pos ∈ rp0 :: rps, r - bR ≤ pos ∧ pos < r := by
      intro pos hpos
      obtain ⟨off, hoff, rfl⟩ := hRmem pos hpos
      have := htbR off hoff
      omega
    have hLnd : (lp0 :: lps).Nodup := by
      rw [← hLc]
      refine List.Nodup.map_on ?_
        ((pairwise_take_all hLp count).imp (fun h => Nat.ne_of_lt h))
      intro a _ b _ hab
      omega
    have hRnd : (rp0 :: rps).Nodup := by
      rw [← hRc]
      refine List.Nodup.map_on ?_
        ((pairwise_take_all hRp count).imp (fun h => Nat.ne_of_lt h))
      intro a ha b hb hab
      have h1 := htbR a ha
      have h2 := htbR b hb
      omega
    obtain ⟨c1, c2, c3, c4, c5⟩ := cycleSwap_spec
      (fun x => lt x p = false) (fun x => lt x p = true) xs l r offsL offsR count
      lp0 lps rp0 rps hLc hRc hlps
      (by
        intro pos hpos
        rcases List.mem_append.mp hpos with hp1 | hp1
        · have := hLrange pos hp1
          omega
        · have := hRrange pos hp1
          omega)
      (by
        refine List.nodup_append.mpr ⟨hLnd, hRnd, ?_⟩
        intro pos hp1 hp2
        have h1 := hLrange pos hp1
        have h2 := hRrange pos hp2
        omega)
      (by
        intro pos hpos
        obtain ⟨off, hoff, rfl⟩ := hLmem pos hpos
        exact (hLoff off (List.mem_of_mem_take hoff)).2)
      (by
        intro pos hpos
        obtain ⟨off, hoff, rfl⟩ := hRmem pos hpos
        exact (hRoff off (List.mem_of_mem_take hoff)).2)
    rw [← hxs2] at c1 c2 c3 c4 c5
    have hnotL : ∀ j, (j < l ∨ l + bL ≤ j) → j ∉ lp0 :: lps := by
      intro j hj hmem
      have := hLrange j hmem
      omega
    have hnotR : ∀ j, (j < r - bR ∨ r ≤ j) → j ∉ rp0 :: rps := by
      intro j hj hmem
      have := hRrange j hmem
      omega
    refine ⟨c1, c2, ?_, ?_, ?_⟩
    · intro j hj hreg
      exact c3 j hj (hnotL j (by omega)) (hnotR j (by omega))
    · refine ⟨pairwise_drop_all hLp count, ?_, ?_⟩
      · intro off hoff
        have hmem := List.mem_of_mem_drop hoff
        have hb := (hLoff off hmem).1
        have hpos : l + off ∉ lp0 :: lps := by
          intro hmem2
          obtain ⟨off2, hoff2, heq⟩ := hLmem (l + off) hmem2
          have hlt := take_lt_drop hLp count off2 hoff2 off hoff
          omega
        rw [c3 (l + off) (by omega) hpos (hnotR (l + off) (by omega))]
        exact ⟨hb, (hLoff off hmem).2⟩
      · intro i hi hnm
        by_cases hit : i ∈ offsL.take count
        · exact c4 (l + i) (hLmem2 i hit)
        · have hnotin : i ∉ offsL := by
            intro hmem
            rcases mem_take_or_drop count hmem with h | h
            · exact hit h
            · exact hnm i h rfl
          have hpos : l + i ∉ lp0 :: lps := by
            intro hmem2
            obtain ⟨off2, hoff2, heq⟩ := hLmem (l + i) hmem2
            have : off2 = i := by omega
            exact hit (this ▸ hoff2)
          rw [c3 (l + i) (by omega) hpos (hnotR (l + i) (by omega))]
          exact hLother i hi (fun off hoff h => hnotin (h ▸ hoff))
    · refine ⟨pairwise_drop_all hRp count, ?_, ?_⟩
      · intro off hoff
        have hmem := List.mem_of_mem_drop hoff
        have hb := (hRoff off hmem).1
        have hpos : r - 1 - off ∉ rp0 :: rps := by
          intro hmem2
          obtain ⟨off2, hoff2, heq⟩ := hRmem (r - 1 - off) hmem2
          have hlt := take_lt_drop hRp count off2 hoff2 off hoff
          have := htbR off2 hoff2
          omega
        rw [c3 (r - 1 - off) (by omega) (hnotL (r - 1 - off) (by omega)) hpos]
        exact ⟨hb, (hRoff off hmem).2⟩
      · intro i hi hnm
        by_cases hit : i ∈ offsR.take count
        · exact c5 (r - 1 - i) (hRmem2 i hit)
        · have hnotin : i ∉ offsR := by
            intro hmem
            rcases mem_take_or_drop count hmem with h | h
            · exact hit h
            · exact hnm i h rfl
          have hpos : r - 1 - i ∉ rp0 :: rps := by
            intro hmem2
            obtain ⟨off2, hoff2, heq⟩ := hRmem (r - 1 - i) hmem2
            have := htbR off2 hoff2
            have : off2 = i := by omega
            exact hit (this ▸ hoff2)
          rw [c3 (r - 1 - i) (by omega) (hnotL (r - 1 - i) (by omega)) hpos]
          exact hRother i hi (fun off hoff h => hnotin (h ▸ hoff))

theorem length_le_of_pairwise_lt_bound :
    ∀ (offs : List Nat) (lo b : Nat), offs.Pairwise (· < ·) →
      (∀ x ∈ offs, lo ≤ x ∧ x < b) → offs.length ≤ b - lo := by
  intro offs
  induction offs with
  | nil =>
    intro lo b _ _
    simp
  | cons a t ih =>
    intro lo b hp hb
    have ha := hb a (List.mem_cons_self ..)
    have ht := ih (a + 1) b (List.pairwise_cons.mp hp).2
      (by
        intro x hx
        have h1 := (List.pairwise_cons.mp hp).1 x hx
        have h2 := hb x (List.mem_cons_of_mem _ hx)
        omega)
    simp only [List.length_cons]
    omega

/-- The terminal round of `partition_in_blocks`: with the two adjacent block
descriptions and at most one side still holding offsets, the patch-up (or
plain return) yields a fully partitioned list with the split index. -/
theorem doneDispatch_spec [Inhabited α] (lt : α → α → Bool) (p : α)
    (xs2 : List α) (l r bL bR : Nat) (offsL2 offsR2 : List Nat)
    (hone : offsL2 = [] ∨ offsR2 = [])
    (hdL : leftDesc lt p xs2 l bL offsL2)
    (hdR : rightDesc lt p xs2 r bR offsR2)
    (hex : l + bL + bR = r) (hr : r ≤ xs2.length)
    (hV1 : ∀ j, j < l → lt (getI xs2 j) p = true)
    (hV2 : ∀ j, r ≤ j → j < xs2.length → lt (getI xs2 j) p = false)
    (l2 r2 : Nat)
    (hl2 : l2 = if offsL2 = [] then l + bL else l)
    (hr2 : r2 = if offsR2 = [] then r - bR else r)
    (res : List α × Nat)
    (hres : res = if offsL2 ≠ [] then fixupL offsL2.reverse xs2 l2 r2
        else if offsR2 ≠ [] then fixupR offsR2.reverse xs2 l2 r2
        else (xs2, l2)) :
    res.1.length = xs2.length ∧ (↑res.1 : Multiset α) = (↑xs2 : Multiset α) ∧
    res.2 ≤ xs2.length ∧
    (∀ j, j < res.2 → lt (getI res.1 j) p = true) ∧
    (∀ j, res.2 ≤ j → j < xs2.length → lt (getI res.1 j) p = false) := by
  obtain ⟨hLp, hLoff, hLother⟩ := hdL
  obtain ⟨hRp, hRoff, hRother⟩ := hdR
  by_cases hLe : offsL2 = []
  · -- the left block is resolved
    have hV1e : ∀ j, j < l + bL → lt (getI xs2 j) p = true := by
      intro j hj
      by_cases hjl : j < l
      · exact hV1 j hjl
      · have hconv : l + (j - l) = j := by omega
        rw [← hconv]
        exact hLother (j - l) (by omega)
          (fun off hoff => absurd hoff (hLe ▸ List.not_mem_nil off))
    rw [if_pos hLe] at hl2
    subst hl2
    rw [if_neg (fun h => h hLe)] at hres
    by_cases hRe : offsR2 = []
    · -- both blocks resolved: plain return
      rw [if_neg (fun h => h hRe)] at hres
      subst hres
      refine ⟨rfl, rfl, by omega, fun j hj => hV1e j hj, ?_⟩
      intro j h1 h2
      by_cases hjr : r ≤ j
      · exact hV2 j hjr h2
      · have hconv : r - 1 - (r - 1 - j) = j := by omega
        rw [← hconv]
        exact hRother (r - 1 - j) (by omega)
          (fun off hoff => absurd hoff (hRe ▸ List.not_mem_nil off))
    · -- right offsets remain: fixupR
      have hbR1 : 0 < bR := by
        rcases offsR2 with _ | ⟨b, bs⟩
        · exact absurd rfl hRe
        · have := (hRoff b (List.mem_cons_self ..)).1
          omega
      rw [if_pos hRe] at hres
      rw [if_neg hRe] at hr2
      subst r2
      subst hres
      obtain ⟨g1, g2, g3, g4, g5, g6⟩ := fixupR_spec
        (fun x => lt x p = false) (fun x => lt x p = true) r offsR2.reverse xs2
        (l + bL)
        (List.pairwise_reverse.mpr hRp)
        (by
          intro off hoff
          have hmem := List.mem_reverse.mp hoff
          have := (hRoff off hmem).1
          omega)
        hr
        (by
          intro off hoff
          exact (hRoff off (List.mem_reverse.mp hoff)).2)
        (by
          intro j h1 h2 h3
          have hconv : r - 1 - (r - 1 - j) = j := by omega
          have hnm : (r - 1 - j) ∉ offsR2 := by
            intro hmem
            exact h3 (r - 1 - j) (List.mem_reverse.mpr hmem) (by omega)
          rw [← hconv]
          exact hRother (r - 1 - j) (by omega)
            (fun off hoff h => hnm (h ▸ hoff)))
      have hglen : (fixupR offsR2.reverse xs2 (l + bL) r).2 =
          l + bL + offsR2.length := by
        rw [g1, List.length_reverse]
      have hcntR : offsR2.length ≤ bR := by
        have := length_le_of_pairwise_lt_bound offsR2 0 bR hRp
          (fun x hx => ⟨Nat.zero_le x, (hRoff x hx).1⟩)
        omega
      refine ⟨g2, g3, by rw [hglen]; omega, ?_, ?_⟩
      · intro j hj
        rw [hglen] at hj
        by_cases hjl : j < l + bL
        · rw [g4 j (by omega) (Or.inl hjl)]
          exact hV1e j hjl
        · exact g5 j (by omega) (by rw [List.length_reverse]; omega)
      · intro j h1 h2
        rw [hglen] at h1
        by_cases hjr : j < r
        · exact g6 j (by rw [List.length_reverse]; omega) hjr
        · rw [g4 j (by omega) (Or.inr (by omega))]
          exact hV2 j (by omega) h2
  · -- left offsets remain: fixupL
    have hRe : offsR2 = [] := by
      rcases hone with h | h
      · exact absurd h hLe
      · exact h
    have hbL1 : 0 < bL := by
      rcases offsL2 with _ | ⟨b, bs⟩
      · exact absurd rfl hLe
      · have := (hLoff b (List.mem_cons_self ..)).1
        omega
    have hV2e : ∀ j, r - bR ≤ j → j < xs2.length → lt (getI xs2 j) p = false := by
      intro j h1 h2
      by_cases hjr : r ≤ j
      · exact hV2 j hjr h2
      · have hconv : r - 1 - (r - 1 - j) = j := by omega
        rw [← hconv]
        exact hRother (r - 1 - j) (by omega)
          (fun off hoff => absurd hoff (hRe ▸ List.not_mem_nil off))
    rw [if_neg hLe] at hl2
    subst l2
    rw [if_pos hRe] at hr2
    subst r2
    rw [if_pos hLe] at hres
    subst hres
    obtain ⟨f1, f2, f3, f4, f5, f6⟩ := fixupL_spec
      (fun x => lt x p = false) (fun x => lt x p = true) l offsL2.reverse xs2
      (r - bR)
      (List.pairwise_reverse.mpr hLp)
      (by
        intro off hoff
        have hmem := List.mem_reverse.mp hoff
        have := (hLoff off hmem).1
        omega)
      (by omega)
      (by
        intro off hoff
        exact (hLoff off (List.mem_reverse.mp hoff)).2)
      (by
        intro j h1 h2 h3
        have hnm : (j - l) ∉ offsL2 := by
          intro hmem
          exact h3 (j - l) (List.mem_reverse.mpr hmem) (by omega)
        have hconv : l + (j - l) = j := by omega
        rw [← hconv]
        exact hLother (j - l) (by omega) (fun off hoff h => hnm (h ▸ hoff)))
    have hflen : (fixupL offsL2.reverse xs2 l (r - bR)).2 =
        r - bR - offsL2.length := by
      rw [f1, List.length_reverse]
    refine ⟨f2, f3, by rw [hflen]; omega, ?_, ?_⟩
    · intro j hj
      rw [hflen] at hj
      by_cases hjl : j < l
      · rw [f4 j (by omega) (Or.inl hjl)]
        exact hV1 j hjl
      · exact f5 j (by omega) (by rw [List.length_reverse]; omega)
    · intro j h1 h2
      rw [hflen] at h1
      by_cases hjr : j < r - bR
      · exact f6 j (by rw [List.length_reverse]; omega) hjr
      · rw [f4 j (by omega) (Or.inr (by omega))]
        exact hV2e j (by omega) h2

/-- Unfolding equation for one round of `blockLoop`, with every intermediate
value of the round named by an equation hypothesis. -/
theorem blockLoop_succ_eq [Inhabited α] (lt : α → α → Bool) (p : α)
    (fuel : Nat) (xs : List α) (l r bL bR : Nat) (offsL offsR : List Nat)
    (blocks : Nat × Nat) (offsL1 offsR1 : List Nat) (count : Nat) (xs2 : List α)
    (offsL2 offsR2 : List Nat) (l2 r2 : Nat)
    (hblocks : blocks = if r - l ≤ 2 * 128 then
        (if offsL ≠ [] then
          (bL, (r - l) - (if offsL ≠ [] ∨ offsR ≠ [] then 128 else 0))
         else if offsR ≠ [] then
          ((r - l) - (if offsL ≠ [] ∨ offsR ≠ [] then 128 else 0), bR)
         else (((r - l) - (if offsL ≠ [] ∨ offsR ≠ [] then 128 else 0)) / 2,
           ((r - l) - (if offsL ≠ [] ∨ offsR ≠ [] then 128 else 0)) -
             ((r - l) - (if offsL ≠ [] ∨ offsR ≠ [] then 128 else 0)) / 2))
      else (bL, bR))
    (hoL1 : offsL1 = if offsL = [] then gatherL lt p xs l blocks.1 0 else offsL)
    (hoR1 : offsR1 = if offsR = [] then gatherR lt p xs r blocks.2 0 else offsR)
    (hcnt : count = min offsL1.length offsR1.length)
    (hxs2 : xs2 = if count > 0 then cycleSwap xs l r offsL1 offsR1 count else xs)
    (hoL2 : offsL2 = offsL1.drop count) (hoR2 : offsR2 = offsR1.drop count)
    (hl2 : l2 = if offsL2 = [] then l + blocks.1 else l)
    (hr2 : r2 = if offsR2 = [] then r - blocks.2 else r) :
    blockLoop lt p (fuel + 1) xs l r bL bR offsL offsR =
      if r - l ≤ 2 * 128 then
        (if offsL2 ≠ [] then fixupL offsL2.reverse xs2 l2 r2
         else if offsR2 ≠ [] then fixupR offsR2.reverse xs2 l2 r2
         else (xs2, l2))
      else blockLoop lt p fuel xs2 l2 r2 blocks.1 blocks.2 offsL2 offsR2 := by
  subst hoL2 hoR2 hl2 hr2
  subst hxs2
  subst hcnt
  subst hoL1 hoR1
  subst hblocks
  rfl

/-- A full terminal round: gather-and-cycle followed by the terminal
dispatch, relating the result to the round entry state. -/
theorem doneCase_spec [Inhabited α] (lt : α → α → Bool) (p : α) (xs : List α)
    (l r bL bR : Nat) (offsL1 offsR1 : List Nat)
    (hdL : leftDesc lt p xs l bL offsL1) (hdR : rightDesc lt p xs r bR offsR1)
    (hex : l + bL + bR = r) (hr : r ≤ xs.length)
    (hV1 : ∀ j, j < l → lt (getI xs j) p = true)
    (hV2 : ∀ j, r ≤ j → j < xs.length → lt (getI xs j) p = false)
    (count : Nat) (xs2 : List α) (offsL2 offsR2 : List Nat) (l2 r2 : Nat)
    (res : List α × Nat)
    (hcnt : count = min offsL1.length offsR1.length)
    (hxs2 : xs2 = if count > 0 then cycleSwap xs l r offsL1 offsR1 count else xs)
    (hoL2 : offsL2 = offsL1.drop count) (hoR2 : offsR2 = offsR1.drop count)
    (hl2 : l2 = if offsL2 = [] then l + bL else l)
    (hr2 : r2 = if offsR2 = [] then r - bR else r)
    (hres : res = if offsL2 ≠ [] then fixupL offsL2.reverse xs2 l2 r2
        else if offsR2 ≠ [] then fixupR offsR2.reverse xs2 l2 r2
        else (xs2, l2)) :
    res.1.length = xs.length ∧ (↑res.1 : Multiset α) = (↑xs : Multiset α) ∧
    res.2 ≤ xs.length ∧
    (∀ j, j < res.2 → lt (getI res.1 j) p = true) ∧
    (∀ j, res.2 ≤ j → j < xs.length → lt (getI res.1 j) p = false) := by
  obtain ⟨s1, s2, s3, s4, s5⟩ := swapStep_spec lt p xs l r bL bR offsL1 offsR1
    count xs2 hcnt hxs2 (by omega) hr hdL hdR
  have hone : offsL2 = [] ∨ offsR2 = [] := by
    subst hoL2 hoR2
    rcases Nat.le_total offsL1.length offsR1.length with h | h
    · exact Or.inl (List.drop_eq_nil_of_le (by omega))
    · exact Or.inr (List.drop_eq_nil_of_le (by omega))
  have hV1x : ∀ j, j < l → lt (getI xs2 j) p = true := by
    intro j hj
    rw [s3 j (by omega) (by omega)]
    exact hV1 j hj
  have hV2x : ∀ j, r ≤ j → j < xs2.length → lt (getI xs2 j) p = false := by
    intro j h1 h2
    rw [s1] at h2
    rw [s3 j h2 (by omega)]
    exact hV2 j h1 h2
  obtain ⟨d1, d2, d3, d4, d5⟩ := doneDispatch_spec lt p xs2 l r bL bR
    offsL2 offsR2 hone (by rw [hoL2]; exact s4) (by rw [hoR2]; exact s5)
    hex (by rw [s1]; exact hr) hV1x hV2x l2 r2 hl2 hr2 res hres
  refine ⟨d1.trans s1, d2.trans s2, by rw [← s1]; exact d3, d4, ?_⟩
  intro j h1 h2
  exact d5 j h1 (by rw [s1]; exact h2)

/-- The `partition_in_blocks` main loop: starting from classified outer
regions and at most one pending block description, it returns a permutation of
the list split at the returned index into the less-than and not-less
elements. -/
theorem blockLoop_spec [Inhabited α] (lt : α → α → Bool) (p : α) :
    ∀ (fuel : Nat) (xs : List α) (l r : Nat) (offsL offsR : List Nat),
      r - l + 1 ≤ fuel → l ≤ r → r ≤ xs.length →
      (∀ j, j < l → lt (getI xs j) p = true) →
      (∀ j, r ≤ j → j < xs.length → lt (getI xs j) p = false) →
      (offsL = [] ∨ offsR = []) →
      (offsL ≠ [] → leftDesc lt p xs l 128 offsL ∧ l + 128 ≤ r) →
      (offsR ≠ [] → rightDesc lt p xs r 128 offsR ∧ l + 128 ≤ r) →
      (blockLoop lt p fuel xs l r 128 128 offsL offsR).1.length = xs.length ∧
      (↑(blockLoop lt p fuel xs l r 128 128 offsL offsR).1 : Multiset α) =
        (↑xs : Multiset α) ∧
      (blockLoop lt p fuel xs l r 128 128 offsL offsR).2 ≤ xs.length ∧
      (∀ j, j < (blockLoop lt p fuel xs l r 128 128 offsL offsR).2 →
        lt (getI (blockLoop lt p fuel xs l r 128 128 offsL offsR).1 j) p = true) ∧
      (∀ j, (blockLoop lt p fuel xs l r 128 128 offsL offsR).2 ≤ j →
        j < xs.length →
        lt (getI (blockLoop lt p fuel xs l r 128 128 offsL offsR).1 j) p = false) := by
  intro fuel
  induction fuel with
  | zero =>
    intro xs l r offsL offsR hfuel
    exact absurd hfuel (by omega)
  | succ fuel ih =>
    intro xs l r offsL offsR hfuel hlr hr hV1 hV2 hone hL4 hR4
    by_cases hdone : r - l ≤ 2 * 128
    · -- terminal round
      obtain ⟨bLv, bRv, hbeq, hexv, hdLv, hdRv⟩ :
          ∃ bLv bRv,
            ((if r - l ≤ 2 * 128 then
              (if offsL ≠ [] then
                ((128 : Nat), (r - l) - (if offsL ≠ [] ∨ offsR ≠ [] then 128 else 0))
               else if offsR ≠ [] then
                ((r - l) - (if offsL ≠ [] ∨ offsR ≠ [] then 128 else 0), (128 : Nat))
               else (((r - l) - (if offsL ≠ [] ∨ offsR ≠ [] then 128 else 0)) / 2,
                 ((r - l) - (if offsL ≠ [] ∨ offsR ≠ [] then 128 else 0)) -
                   ((r - l) - (if offsL ≠ [] ∨ offsR ≠ [] then 128 else 0)) / 2))
             else ((128 : Nat), (128 : Nat))) = (bLv, bRv)) ∧
            l + bLv + bRv = r ∧
            leftDesc lt p xs l bLv
              (if offsL = [] then gatherL lt p xs l bLv 0 else offsL) ∧
            rightDesc lt p xs r bRv
              (if offsR = [] then gatherR lt p xs r bRv 0 else offsR) := by
        by_cases hL : offsL = []
        · by_cases hR : offsR = []
          · refine ⟨(r - l) / 2, (r - l) - (r - l) / 2, ?_, by omega, ?_, ?_⟩
            · rw [if_pos hdone, if_neg (fun h => h hL), if_neg (fun h => h hR),
                if_neg (by rintro (h | h); exacts [h hL, h hR])]
              simp
            · rw [if_pos hL]
              exact gatherL_desc lt p xs l ((r - l) / 2)
            · rw [if_pos hR]
              exact gatherR_desc lt p xs r ((r - l) - (r - l) / 2)
          · obtain ⟨hdR0, hlr128⟩ := hR4 hR
            refine ⟨(r - l) - 128, 128, ?_, by omega, ?_, ?_⟩
            · rw [if_pos hdone, if_neg (fun h => h hL), if_pos hR,
                if_pos (Or.inr hR)]
            · rw [if_pos hL]
              exact gatherL_desc lt p xs l ((r - l) - 128)
            · rw [if_neg hR]
              exact hdR0
        · have hRe : offsR = [] := by
            rcases hone with h | h
            · exact absurd h hL
            · exact h
          obtain ⟨hdL0, hlr128⟩ := hL4 hL
          refine ⟨128, (r - l) - 128, ?_, by omega, ?_, ?_⟩
          · rw [if_pos hdone, if_pos hL, if_pos (Or.inl hL)]
          · rw [if_neg hL]
            exact hdL0
          · rw [if_pos hRe]
            exact gatherR_desc lt p xs r ((r - l) - 128)
      obtain ⟨offsL1, hoL1⟩ : ∃ v,
          v = if offsL = [] then gatherL lt p xs l bLv 0 else offsL := ⟨_, rfl⟩
      obtain ⟨offsR1, hoR1⟩ : ∃ v,
          v = if offsR = [] then gatherR lt p xs r bRv 0 else offsR := ⟨_, rfl⟩
      obtain ⟨count, hcnt⟩ : ∃ c, c = min offsL1.length offsR1.length := ⟨_, rfl⟩
      obtain ⟨xs2, hxs2⟩ : ∃ v,
          v = if count > 0 then cycleSwap xs l r offsL1 offsR1 count else xs :=
        ⟨_, rfl⟩
      obtain ⟨offsL2, hoL2⟩ : ∃ v, v = offsL1.drop count := ⟨_, rfl⟩
      obtain ⟨offsR2, hoR2⟩ : ∃ v, v = offsR1.drop count := ⟨_, rfl⟩
      obtain ⟨l2, hl2⟩ : ∃ v, v = if offsL2 = [] then l + bLv else l := ⟨_, rfl⟩
      obtain ⟨r2, hr2⟩ : ∃ v, v = if offsR2 = [] then r - bRv else r := ⟨_, rfl⟩
      have hstep := blockLoop_succ_eq lt p fuel xs l r 128 128 offsL offsR
        (bLv, bRv) offsL1 offsR1 count xs2 offsL2 offsR2 l2 r2
        hbeq.symm hoL1 hoR1 hcnt hxs2 hoL2 hoR2 hl2 hr2
      rw [hstep, if_pos hdone]
      exact doneCase_spec lt p xs l r bLv bRv offsL1 offsR1
        (by rw [hoL1]; exact hdLv) (by rw [hoR1]; exact hdRv) hexv hr hV1 hV2
        count xs2 offsL2 offsR2 l2 r2 _ hcnt hxs2 hoL2 hoR2 hl2 hr2 rfl
    · -- another full round, then recurse
      have hbeq : (if r - l ≤ 2 * 128 then
          (if offsL ≠ [] then
            ((128 : Nat), (r - l) - (if offsL ≠ [] ∨ offsR ≠ [] then 128 else 0))
           else if offsR ≠ [] then
            ((r - l) - (if offsL ≠ [] ∨ offsR ≠ [] then 128 else 0), (128 : Nat))
           else (((r - l) - (if offsL ≠ [] ∨ offsR ≠ [] then 128 else 0)) / 2,
             ((r - l) - (if offsL ≠ [] ∨ offsR ≠ [] then 128 else 0)) -
               ((r - l) - (if offsL ≠ [] ∨ offsR ≠ [] then 128 else 0)) / 2))
         else ((128 : Nat), (128 : Nat))) = ((128 : Nat), (128 : Nat)) :=
        if_neg hdone
      obtain ⟨offsL1, hoL1⟩ : ∃ v,
          v = if offsL = [] then gatherL lt p xs l (128 : Nat) 0 else offsL :=
        ⟨_, rfl⟩
      obtain ⟨offsR1, hoR1⟩ : ∃ v,
          v = if offsR = [] then gatherR lt p xs r (128 : Nat) 0 else offsR :=
        ⟨_, rfl⟩
      obtain ⟨count, hcnt⟩ : ∃ c, c = min offsL1.length offsR1.length := ⟨_, rfl⟩
      obtain ⟨xs2, hxs2⟩ : ∃ v,
          v = if count > 0 then cycleSwap xs l r offsL1 offsR1 count else xs :=
        ⟨_, rfl⟩
      obtain ⟨offsL2, hoL2⟩ : ∃ v, v = offsL1.drop count := ⟨_, rfl⟩
      obtain ⟨offsR2, hoR2⟩ : ∃ v, v = offsR1.drop count := ⟨_, rfl⟩
      obtain ⟨l2, hl2⟩ : ∃ v, v = if offsL2 = [] then l + (128 : Nat) else l :=
        ⟨_, rfl⟩
      obtain ⟨r2, hr2⟩ : ∃ v, v = if offsR2 = [] then r - (128 : Nat) else r :=
        ⟨_, rfl⟩
      have hstep := blockLoop_succ_eq lt p fuel xs l r 128 128 offsL offsR
        ((128 : Nat), (128 : Nat)) offsL1 offsR1 count xs2 offsL2 offsR2 l2 r2
        hbeq.symm hoL1 hoR1 hcnt hxs2 hoL2 hoR2 hl2 hr2
      rw [hstep, if_neg hdone]
      have hdL1 : leftDesc lt p xs l 128 offsL1 := by
        by_cases hL : offsL = []
        · rw [hoL1, if_pos hL]
          exact gatherL_desc lt p xs l 128
        · rw [hoL1, if_neg hL]
          exact (hL4 hL).1
      have hdR1 : rightDesc lt p xs r 128 offsR1 := by
        by_cases hR : offsR = []
        · rw [hoR1, if_pos hR]
          exact gatherR_desc lt p xs r 128
        · rw [hoR1, if_neg hR]
          exact (hR4 hR).1
      obtain ⟨s1, s2, s3, s4, s5⟩ := swapStep_spec lt p xs l r 128 128
        offsL1 offsR1 count xs2 hcnt hxs2 (by omega) hr hdL1 hdR1
      rw [← hoL2] at s4
      rw [← hoR2] at s5
      have hone2 : offsL2 = [] ∨ offsR2 = [] := by
        subst hoL2 hoR2
        rcases Nat.le_total offsL1.length offsR1.length with h | h
        · exact Or.inl (List.drop_eq_nil_of_le (by omega))
        · exact Or.inr (List.drop_eq_nil_of_le (by omega))
      have hl2c : l2 = l ∨ (offsL2 = [] ∧ l2 = l + 128) := by
        by_cases hLe : offsL2 = []
        · exact Or.inr ⟨hLe, by rw [hl2, if_pos hLe]⟩
        · exact Or.inl (by rw [hl2, if_neg hLe])
      have hr2c : r2 = r ∨ (offsR2 = [] ∧ r2 = r - 128) := by
        by_cases hRe : offsR2 = []
        · exact Or.inr ⟨hRe, by rw [hr2, if_pos hRe]⟩
        · exact Or.inl (by rw [hr2, if_neg hRe])
      have hadv : l2 = l + 128 ∨ r2 = r - 128 := by
        rcases hone2 with h | h
        · exact Or.inl (by rw [hl2, if_pos h])
        · exact Or.inr (by rw [hr2, if_pos h])
      have hV1x : ∀ j, j < l2 → lt (getI xs2 j) p = true := by
        intro j hj
        by_cases hjl : j < l
        · rw [s3 j (by omega) (by omega)]
          exact hV1 j hjl
        · have hLe : offsL2 = [] ∧ l2 = l + 128 := by
            rcases hl2c with h | h
            · omega
            · exact h
          have hconv : l + (j - l) = j := by omega
          rw [← hconv]
          refine (hLe.1 ▸ s4).2.2 (j - l) (by omega) ?_
          intro off hoff
          exact absurd (hLe.1 ▸ hoff) (List.not_mem_nil off)
      have hV2x : ∀ j, r2 ≤ j → j < xs2.length → lt (getI xs2 j) p = false := by
        intro j h1 h2
        rw [s1] at h2
        by_cases hjr : r ≤ j
        · rw [s3 j h2 (by omega)]
          exact hV2 j hjr h2
        · have hRe : offsR2 = [] ∧ r2 = r - 128 := by
            rcases hr2c with h | h
            · omega
            · exact h
          have hconv : r - 1 - (r - 1 - j) = j := by omega
          rw [← hconv]
          refine (hRe.1 ▸ s5).2.2 (r - 1 - j) (by omega) ?_
          intro off hoff
          exact absurd (hRe.1 ▸ hoff) (List.not_mem_nil off)
      have hL4x : offsL2 ≠ [] →
          leftDesc lt p xs2 l2 128 offsL2 ∧ l2 + 128 ≤ r2 := by
        intro h
        have hl2e : l2 = l := by rw [hl2, if_neg h]
        have hRe : offsR2 = [] := by
          rcases hone2 with h2 | h2
          · exact absurd h2 h
          · exact h2
        have hr2e : r2 = r - 128 := by rw [hr2, if_pos hRe]
        rw [hl2e, hr2e]
        exact ⟨s4, by omega⟩
      have hR4x : offsR2 ≠ [] →
          rightDesc lt p xs2 r2 128 offsR2 ∧ l2 + 128 ≤ r2 := by
        intro h
        have hr2e : r2 = r := by rw [hr2, if_neg h]
        have hLe : offsL2 = [] := by
          rcases hone2 with h2 | h2
          · exact h2
          · exact absurd h2 h
        have hl2e : l2 = l + 128 := by rw [hl2, if_pos hLe]
        rw [hl2e, hr2e]
        exact ⟨s5, by omega⟩
      obtain ⟨c1, c2, c3, c4, c5⟩ := ih xs2 l2 r2 offsL2 offsR2
        (by omega) (by omega) (by rw [s1]; omega) hV1x hV2x hone2 hL4x hR4x
      refine ⟨c1.trans s1, c2.trans s2, by rw [← s1]; exact c3, c4, ?_⟩
      intro j h1 h2
      exact c5 j h1 (by rw [s1]; exact h2)

theorem getI_append_left [Inhabited α] (a b : List α) (j : Nat)
    (h : j < a.length) : getI (a ++ b) j = getI a j := by
  simp only [getI, List.getD_eq_getElem?_getD]
  rw [List.getElem?_append, if_pos h]

theorem getI_append_right [Inhabited α] (a b : List α) (j : Nat)
    (h : a.length ≤ j) : getI (a ++ b) j = getI b (j - a.length) := by
  simp only [getI, List.getD_eq_getElem?_getD]
  rw [List.getElem?_append_right h]

theorem getI_drop [Inhabited α] (v : List α) (k m : Nat) :
    getI (v.drop k) m = getI v (k + m) := by
  simp only [getI, List.getD_eq_getElem?_getD]
  rw [List.getElem?_drop]

/-- `partition_in_blocks` permutes the segment and returns the count of
less-than elements, which end up in front. -/
theorem partitionInBlocks_spec [Inhabited α] (lt : α → α → Bool) (p : α)
    (seg : List α) :
    (partitionInBlocks lt p seg).1.length = seg.length ∧
    (↑(partitionInBlocks lt p seg).1 : Multiset α) = (↑seg : Multiset α) ∧
    (partitionInBlocks lt p seg).2 ≤ seg.length ∧
    (∀ j, j < (partitionInBlocks lt p seg).2 →
      lt (getI (partitionInBlocks lt p seg).1 j) p = true) ∧
    (∀ j, (partitionInBlocks lt p seg).2 ≤ j → j < seg.length →
      lt (getI (partitionInBlocks lt p seg).1 j) p = false) := by
  exact blockLoop_spec lt p (seg.length + 2) seg 0 seg.length [] []
    (by omega) (Nat.zero_le _) (le_refl _)
    (fun j hj => absurd hj (by omega))
    (fun j h1 h2 => absurd h1 (by omega))
    (Or.inl rfl)
    (fun h => absurd rfl h)
    (fun h => absurd rfl h)

/-- Unfolding equation for `partitionAt` with all intermediates named. -/
theorem partitionAt_eq [Inhabited α] (lt : α → α → Bool) (v : List α)
    (pivotIdx : Nat) (v1 : List α) (p : α) (n l r : Nat) (seg : List α)
    (q : List α × Nat) (mid : Nat) (v2 : List α)
    (hv1 : v1 = swapI v 0 pivotIdx) (hp : p = getI v1 0)
    (hn : n = v1.length - 1)
    (hl : l = scanUp (fun x => lt x p) v1 1 (n + 1) 0 n)
    (hr : r = scanDown (fun x => ¬ lt x p) v1 1 (n + 1) l n)
    (hseg : seg = (v1.drop (1 + l)).take (r - l))
    (hq : q = partitionInBlocks lt p seg)
    (hmid : mid = l + q.2)
    (hv2 : v2 = v1.take (1 + l) ++ q.1 ++ v1.drop (1 + r)) :
    partitionAt lt v pivotIdx = (swapI v2 0 mid, mid, decide (l ≥ r)) := by
  subst hv2 hmid hq hseg hr hl hn hp hv1
  rfl

/-- `partition`: the result is a permutation with the pivot value at the
returned index, strictly smaller elements before it and not-smaller ones
after it. -/
theorem partitionAt_spec [Inhabited α] (lt : α → α → Bool) (v : List α)
    (pivotIdx : Nat) (hpi : pivotIdx < v.length) :
    (partitionAt lt v pivotIdx).1.length = v.length ∧
    List.Perm (partitionAt lt v pivotIdx).1 v ∧
    (partitionAt lt v pivotIdx).2.1 < v.length ∧
    getI (partitionAt lt v pivotIdx).1 (partitionAt lt v pivotIdx).2.1 =
      getI v pivotIdx ∧
    (∀ j, j < (partitionAt lt v pivotIdx).2.1 →
      lt (getI (partitionAt lt v pivotIdx).1 j) (getI v pivotIdx) = true) ∧
    (∀ j, (partitionAt lt v pivotIdx).2.1 < j → j < v.length →
      lt (getI (partitionAt lt v pivotIdx).1 j) (getI v pivotIdx) = false) := by
  obtain ⟨v1, hv1⟩ : ∃ w, w = swapI v 0 pivotIdx := ⟨_, rfl⟩
  obtain ⟨p, hp⟩ : ∃ w, w = getI v1 0 := ⟨_, rfl⟩
  obtain ⟨n, hn⟩ : ∃ w, w = v1.length - 1 := ⟨_, rfl⟩
  obtain ⟨l, hl⟩ : ∃ w, w = scanUp (fun x => lt x p) v1 1 (n + 1) 0 n := ⟨_, rfl⟩
  obtain ⟨r, hr⟩ : ∃ w, w = scanDown (fun x => ¬ lt x p) v1 1 (n + 1) l n :=
    ⟨_, rfl⟩
  obtain ⟨seg, hseg⟩ : ∃ w, w = (v1.drop (1 + l)).take (r - l) := ⟨_, rfl⟩
  obtain ⟨q, hq⟩ : ∃ w, w = partitionInBlocks lt p seg := ⟨_, rfl⟩
  obtain ⟨mid, hmid⟩ : ∃ w, w = l + q.2 := ⟨_, rfl⟩
  obtain ⟨v2, hv2⟩ : ∃ w, w = v1.take (1 + l) ++ q.1 ++ v1.drop (1 + r) :=
    ⟨_, rfl⟩
  have hstep := partitionAt_eq lt v pivotIdx v1 p n l r seg q mid v2
    hv1 hp hn hl hr hseg hq hmid hv2
  rw [hstep]
  have hlen1 : v1.length = v.length := by rw [hv1]; exact length_swapI ..
  have hvpos : 1 ≤ v.length := by omega
  have hn1 : n + 1 = v.length := by omega
  have hp2 : p = getI v pivotIdx := by
    rw [hp, hv1]
    exact getI_swapI_left v 0 pivotIdx (by omega) hpi
  obtain ⟨hl0, hln, hlclass, hlstop⟩ := scanUp_spec (fun x => lt x p) v1 1
    (n + 1) 0 n (Nat.zero_le n) (by omega)
  rw [← hl] at hl0 hln hlclass hlstop
  obtain ⟨hlr, hrn, hrclass, hrstop⟩ := scanDown_spec (fun x => ¬ lt x p) v1 1
    (n + 1) l n hln (by omega)
  rw [← hr] at hlr hrn hrclass hrstop
  have hrclass2 : ∀ j, r ≤ j → j < n → lt (getI v1 (1 + j)) p = false := by
    intro j h1 h2
    have := hrclass j h1 h2
    simp only [decide_eq_true_eq] at this
    exact Bool.eq_false_iff.mpr this
  have hseglen : seg.length = r - l := by
    rw [hseg, List.length_take, List.length_drop]
    omega
  have hsegget : ∀ k, k < r - l → getI seg k = getI v1 (1 + l + k) := by
    intro k hk
    rw [hseg, getI_take _ _ _ hk, getI_drop]
  obtain ⟨q1len, qms, hq2, qfront, qback⟩ := partitionInBlocks_spec lt p seg
  rw [← hq] at q1len qms hq2 qfront qback
  rw [hseglen] at q1len hq2 qback
  have hAlen : (v1.take (1 + l)).length = 1 + l := by
    rw [List.length_take]
    omega
  have hABlen : (v1.take (1 + l) ++ q.1).length = 1 + r := by
    rw [List.length_append, hAlen, q1len]
    omega
  have hv2len : v2.length = v.length := by
    rw [hv2, List.length_append, List.length_append, hAlen, q1len,
      List.length_drop]
    omega
  have hv2get : ∀ j, j < 1 + r → getI v2 j = getI (v1.take (1 + l) ++ q.1) j := by
    intro j hj
    rw [hv2]
    exact getI_append_left _ _ j (by omega)
  have hv2get0 : getI v2 0 = p := by
    rw [hv2get 0 (by omega), getI_append_left _ _ 0 (by omega),
      getI_take _ _ _ (by omega : (0:Nat) < 1 + l), hp]
  have hv2lo : ∀ j, 1 ≤ j → j < 1 + mid → lt (getI v2 j) p = true := by
    intro j h1 h2
    by_cases hjl : j < 1 + l
    · rw [hv2get j (by omega), getI_append_left _ _ j (by omega),
        getI_take _ _ _ hjl]
      have hconv : 1 + (j - 1) = j := by omega
      rw [← hconv]
      exact hlclass (j - 1) (by omega) (by omega)
    · rw [hv2get j (by omega), getI_append_right _ _ j (by omega), hAlen]
      exact qfront (j - (1 + l)) (by omega)
  have hv2hi : ∀ j, 1 + mid ≤ j → j < v.length → lt (getI v2 j) p = false := by
    intro j h1 h2
    by_cases hjr : j < 1 + r
    · rw [hv2get j hjr, getI_append_right _ _ j (by omega), hAlen]
      exact qback (j - (1 + l)) (by omega) (by omega)
    · rw [hv2]
      rw [getI_append_right _ _ j (by rw [hABlen]; omega), hABlen, getI_drop]
      have hconv : 1 + r + (j - (1 + r)) = 1 + (j - 1) := by omega
      rw [hconv]
      exact hrclass2 (j - 1) (by omega) (by omega)
  have hmidr : mid ≤ r := by omega
  have hmidlen : mid < v.length := by omega
  have hmidlen2 : mid < v2.length := by omega
  have h0len2 : 0 < v2.length := by omega
  have hperm : List.Perm (swapI v2 0 mid) v := by
    have hqperm : List.Perm q.1 seg := Multiset.coe_eq_coe.mp qms
    have hinner : seg ++ (v1.drop (1 + l)).drop (r - l) = v1.drop (1 + l) := by
      rw [hseg]
      exact List.take_append_drop ..
    have hdd : (v1.drop (1 + l)).drop (r - l) = v1.drop (1 + r) := by
      rw [List.drop_drop]
      have hconv : 1 + l + (r - l) = 1 + r := by omega
      rw [hconv]
    have hv1decomp : v1.take (1 + l) ++ seg ++ v1.drop (1 + r) = v1 := by
      rw [List.append_assoc, ← hdd, hinner]
      exact List.take_append_drop ..
    have hpermB : List.Perm v2 v1 := by
      rw [hv2]
      have hx := ((List.Perm.refl (v1.take (1 + l))).append hqperm).append
        (List.Perm.refl (v1.drop (1 + r)))
      rwa [hv1decomp] at hx
    have hpermA : List.Perm (swapI v2 0 mid) v2 := swapI_perm v2 0 mid h0len2 hmidlen2
    have hpermC : List.Perm v1 v := by
      rw [hv1]
      exact swapI_perm v 0 pivotIdx (by omega) hpi
    exact (hpermA.trans hpermB).trans hpermC
  have hwmid : getI (swapI v2 0 mid) mid = getI v pivotIdx := by
    rw [getI_swapI_right v2 0 mid hmidlen2, hv2get0, hp2]
  have hwother : ∀ j, j ≠ 0 → j ≠ mid → getI (swapI v2 0 mid) j = getI v2 j :=
    fun j h1 h2 => getI_swapI_other v2 0 mid j h1 h2
  show (swapI v2 0 mid).length = v.length ∧
    List.Perm (swapI v2 0 mid) v ∧ mid < v.length ∧
    getI (swapI v2 0 mid) mid = getI v pivotIdx ∧
    (∀ j, j < mid → lt (getI (swapI v2 0 mid) j) (getI v pivotIdx) = true) ∧
    (∀ j, mid < j → j < v.length →
      lt (getI (swapI v2 0 mid) j) (getI v pivotIdx) = false)
  refine ⟨?_, hperm, hmidlen, hwmid, ?_, ?_⟩
  · rw [length_swapI]
    exact hv2len
  · intro j hj
    rw [← hp2]
    by_cases hj0 : j = 0
    · subst hj0
      rw [getI_swapI_left v2 0 mid h0len2 hmidlen2]
      exact hv2lo mid (by omega) (by omega)
    · rw [hwother j hj0 (by omega)]
      exact hv2lo j (by omega) (by omega)
  · intro j h1 h2
    rw [← hp2, hwother j (by omega) (by omega)]
    exact hv2hi j (by omega) h2

/-- In a binary heap (every child at most its parent) the root is maximal. -/
theorem heap_root_max [Inhabited α] (key : α → Int) (xs : List α) (m : Nat)
    (hE : ∀ j, 0 < j → j < m → key (getI xs j) ≤ key (getI xs ((j - 1) / 2))) :
    ∀ j, j < m → key (getI xs j) ≤ key (getI xs 0) := by
  intro j
  induction j using Nat.strong_induction_on with
  | _ j ih =>
    intro hj
    rcases Nat.eq_zero_or_pos j with rfl | hj0
    · exact le_refl _
    · exact le_trans (hE j hj0 hj) (ih ((j - 1) / 2) (by omega) (by omega))

theorem drop_eq_of_getI_eq [Inhabited α] (y xs : List α) (L : Nat)
    (hlen : y.length = xs.length)
    (h : ∀ j, L ≤ j → j < xs.length → getI y j = getI xs j) :
    y.drop L = xs.drop L := by
  apply List.ext_get
  · rw [List.length_drop, List.length_drop, hlen]
  · intro n h1 h2
    rw [List.length_drop] at h1
    have hb : L + n < y.length := by omega
    have hb2 : L + n < xs.length := by omega
    rw [← getI_eq_get (y.drop L) n (by rw [List.length_drop]; omega),
      ← getI_eq_get (xs.drop L) n (by rw [List.length_drop]; omega),
      getI_drop, getI_drop]
    exact h (L + n) (by omega) hb2

theorem take_coe_eq_of [Inhabited α] (y xs : List α) (L : Nat)
    (hlen : y.length = xs.length) (hms : (↑y : Multiset α) = (↑xs : Multiset α))
    (h : ∀ j, L ≤ j → j < xs.length → getI y j = getI xs j) :
    (↑(y.take L) : Multiset α) = (↑(xs.take L) : Multiset α) := by
  have hdrop : y.drop L = xs.drop L := drop_eq_of_getI_eq y xs L hlen h
  have hy : (↑(y.take L) : Multiset α) + ↑(y.drop L) = ↑y := by
    rw [Multiset.coe_add, List.take_append_drop]
  have hx : (↑(xs.take L) : Multiset α) + ↑(xs.drop L) = ↑xs := by
    rw [Multiset.coe_add, List.take_append_drop]
  have hsum : (↑(y.take L) : Multiset α) + ↑(y.drop L) =
      ↑(xs.take L) + ↑(xs.drop L) := by
    rw [hy, hx, hms]
  rw [hdrop] at hsum
  exact add_right_cancel hsum

theorem mem_take_exists_getI [Inhabited α] (xs : List α) (L : Nat) (a : α)
    (ha : a ∈ xs.take L) : ∃ idx, idx < L ∧ idx < xs.length ∧ getI xs idx = a := by
  obtain ⟨n, hn, hget⟩ := List.getElem_of_mem ha
  rw [List.length_take] at hn
  refine ⟨n, by omega, by omega, ?_⟩
  rw [← getI_take xs n L (by omega)]
  rw [getI_eq_get _ _ (by rw [List.length_take]; omega)]
  exact hget

theorem getI_mem_take [Inhabited α] (y : List α) (L jp : Nat) (h1 : jp < L)
    (h2 : jp < y.length) : getI y jp ∈ y.take L := by
  rw [← getI_take y jp L h1]
  exact getI_mem (y.take L) jp (by rw [List.length_take]; omega)

/-- Unfolding equation for one step of `siftDown`. -/
theorem siftDown_succ_eq [Inhabited α] (lt : α → α → Bool) (fuel : Nat)
    (xs : List α) (len node : Nat) (c0 c : Nat)
    (hc0 : c0 = 2 * node + 1)
    (hc : c = if c0 + 1 < len ∧ lt (getI xs c0) (getI xs (c0 + 1)) then c0 + 1
      else c0) :
    siftDown lt (fuel + 1) xs len node =
      if c0 ≥ len then xs
      else if ¬ lt (getI xs node) (getI xs c) then xs
      else siftDown lt fuel (swapI xs node c) len c := by
  subst hc hc0
  rfl

/-- `sift_down` restores the heap property at `node` (children edges below
`node` already valid), touching only `node` and positions in its subtree. -/
theorem siftDown_spec [Inhabited α] (key : α → Int) (len : Nat) :
    ∀ (fuel : Nat) (xs : List α) (node : Nat),
      len ≤ xs.length → len ≤ fuel + node + 1 →
      (∀ j, 0 < j → j < len → node + 1 ≤ (j - 1) / 2 →
        key (getI xs j) ≤ key (getI xs ((j - 1) / 2))) →
      (siftDown (fun a b => decide (key a < key b)) fuel xs len node).length =
        xs.length ∧
      (↑(siftDown (fun a b => decide (key a < key b)) fuel xs len node) :
        Multiset α) = (↑xs : Multiset α) ∧
      (∀ j, j < xs.length → j ≠ node → j < 2 * node + 1 →
        getI (siftDown (fun a b => decide (key a < key b)) fuel xs len node) j =
          getI xs j) ∧
      (∀ j, len ≤ j → j < xs.length →
        getI (siftDown (fun a b => decide (key a < key b)) fuel xs len node) j =
          getI xs j) ∧
      (getI (siftDown (fun a b => decide (key a < key b)) fuel xs len node) node =
          getI xs node ∨
        (2 * node + 1 < len ∧
          getI (siftDown (fun a b => decide (key a < key b)) fuel xs len node)
            node = getI xs (2 * node + 1)) ∨
        (2 * node + 2 < len ∧
          getI (siftDown (fun a b => decide (key a < key b)) fuel xs len node)
            node = getI xs (2 * node + 2))) ∧
      (∀ j, 0 < j → j < len → node ≤ (j - 1) / 2 →
        key (getI (siftDown (fun a b => decide (key a < key b)) fuel xs len node)
          j) ≤
        key (getI (siftDown (fun a b => decide (key a < key b)) fuel xs len node)
          ((j - 1) / 2))) := by
  intro fuel
  induction fuel with
  | zero =>
    intro xs node hlen hfuel hpre
    refine ⟨rfl, rfl, fun j _ _ _ => rfl, fun j _ _ => rfl, Or.inl rfl, ?_⟩
    intro j h1 h2 h3
    exact absurd h2 (by omega)
  | succ fuel ih =>
    intro xs node hlen hfuel hpre
    obtain ⟨c, hc⟩ : ∃ c, c = if 2 * node + 1 + 1 < len ∧
        (fun a b => decide (key a < key b)) (getI xs (2 * node + 1))
          (getI xs (2 * node + 1 + 1)) then 2 * node + 1 + 1
      else 2 * node + 1 := ⟨_, rfl⟩
    have hstep := siftDown_succ_eq (fun a b => decide (key a < key b)) fuel xs
      len node (2 * node + 1) c rfl hc
    by_cases hout : 2 * node + 1 ≥ len
    · rw [hstep, if_pos hout]
      refine ⟨rfl, rfl, fun j _ _ _ => rfl, fun j _ _ => rfl, Or.inl rfl, ?_⟩
      intro j h1 h2 h3
      by_cases hq : node + 1 ≤ (j - 1) / 2
      · exact hpre j h1 h2 hq
      · exact absurd h2 (by omega)
    · have hc0len : 2 * node + 1 < len := by omega
      have hcfacts : (c = 2 * node + 1 ∨ c = 2 * node + 2) ∧ c < len ∧
          key (getI xs (2 * node + 1)) ≤ key (getI xs c) ∧
          (2 * node + 2 < len → c = 2 * node + 1 →
            key (getI xs (2 * node + 2)) ≤ key (getI xs (2 * node + 1))) := by
        by_cases hcond : 2 * node + 1 + 1 < len ∧
            (fun a b => decide (key a < key b)) (getI xs (2 * node + 1))
              (getI xs (2 * node + 1 + 1)) = true
        · rw [if_pos hcond] at hc
          have hlt : key (getI xs (2 * node + 1)) <
              key (getI xs (2 * node + 1 + 1)) := by
            have := hcond.2
            simp only [decide_eq_true_eq] at this
            exact this
          subst hc
          refine ⟨Or.inr (by omega), by omega, by
            have hconv : 2 * node + 1 + 1 = 2 * node + 2 := by omega
            omega, ?_⟩
          intro _ h
          omega
        · rw [if_neg hcond] at hc
          subst hc
          refine ⟨Or.inl rfl, hc0len, le_refl _, ?_⟩
          intro hb _
          have h2 : ¬ ((fun a b => decide (key a < key b)) (getI xs (2 * node + 1))
              (getI xs (2 * node + 1 + 1)) = true) := by
            intro h3
            exact hcond ⟨by omega, h3⟩
          simp only [decide_eq_true_eq] at h2
          have hconv : 2 * node + 1 + 1 = 2 * node + 2 := by omega
          rw [hconv] at h2
          omega
      obtain ⟨hcor, hclen, hcmax, hcoth⟩ := hcfacts
      have hnodelen : node < len := by omega
      by_cases hstop : (fun a b => decide (key a < key b)) (getI xs node)
          (getI xs c) = true
      · -- descend: swap with the larger child and recurse
        rw [hstep, if_neg hout, if_neg (fun h => h hstop)]
        have hgo : key (getI xs node) < key (getI xs c) := by
          simpa using hstop
        have hnb : node < xs.length := by omega
        have hcb : c < xs.length := by omega
        have hx1node : getI (swapI xs node c) node = getI xs c :=
          getI_swapI_left xs node c hnb hcb
        have hx1c : getI (swapI xs node c) c = getI xs node :=
          getI_swapI_right xs node c hcb
        have hx1other : ∀ j, j ≠ node → j ≠ c → getI (swapI xs node c) j = getI xs j :=
          fun j h1 h2 => getI_swapI_other xs node c j h1 h2
        obtain ⟨i1, i2, i3, i4, i5, i6⟩ := ih (swapI xs node c) c
          (by rw [length_swapI]; exact hlen) (by omega)
          (by
            intro j h1 h2 h3
            rw [hx1other j (by omega) (by omega),
              hx1other ((j - 1) / 2) (by omega) (by omega)]
            exact hpre j h1 h2 (by omega))
        have hynode : getI (siftDown (fun a b => decide (key a < key b)) fuel
            (swapI xs node c) len c) node = getI xs c := by
          rw [i3 node (by rw [length_swapI]; omega) (by omega) (by omega)]
          exact hx1node
        have hyuntouched : ∀ j, j < xs.length → j ≠ node → j ≠ c → j < 2 * c + 1 →
            getI (siftDown (fun a b => decide (key a < key b)) fuel
              (swapI xs node c) len c) j = getI xs j := by
          intro j hj h1 h2 h3
          rw [i3 j (by rw [length_swapI]; omega) h2 h3]
          exact hx1other j h1 h2
        refine ⟨i1.trans (length_swapI ..), ?_, ?_, ?_, ?_, ?_⟩
        · rw [i2]
          exact Multiset.coe_eq_coe.mpr (swapI_perm xs node c hnb hcb)
        · intro j hj h1 h2
          exact hyuntouched j hj h1 (by omega) (by omega)
        · intro j h1 h2
          rw [i4 j h1 (by rw [length_swapI]; omega)]
          exact hx1other j (by omega) (by omega)
        · rcases hcor with hcv | hcv
          · exact Or.inr (Or.inl ⟨by omega, by rw [hynode, hcv]⟩)
          · exact Or.inr (Or.inr ⟨by omega, by rw [hynode, hcv]⟩)
        · intro j h1 h2 h3
          by_cases hq1 : c ≤ (j - 1) / 2
          · exact i6 j h1 h2 hq1
          · by_cases hq2 : (j - 1) / 2 = node
            · -- edges from node: children are 2n+1, 2n+2
              rw [hq2, hynode]
              have hj12 : j = 2 * node + 1 ∨ j = 2 * node + 2 := by omega
              by_cases hjc : j = c
              · subst hjc
                rcases i5 with h5 | ⟨hb5, h5⟩ | ⟨hb5, h5⟩
                · rw [h5, hx1c]
                  omega
                · rw [h5, hx1other (2 * j + 1) (by omega) (by omega)]
                  have hpar := hpre (2 * j + 1) (by omega) (by omega) (by omega)
                  have hconv : (2 * j + 1 - 1) / 2 = j := by omega
                  rw [hconv] at hpar
                  rcases hcor with hcv | hcv <;> omega
                · rw [h5, hx1other (2 * j + 2) (by omega) (by omega)]
                  have hpar := hpre (2 * j + 2) (by omega) (by omega) (by omega)
                  have hconv : (2 * j + 2 - 1) / 2 = j := by omega
                  rw [hconv] at hpar
                  rcases hcor with hcv | hcv <;> omega
              · rw [hyuntouched j (by omega) (by omega) hjc (by omega)]
                rcases hj12 with hjv | hjv
                · rw [hjv]
                  exact hcmax
                · have hcv : c = 2 * node + 1 := by
                    rcases hcor with h | h
                    · exact h
                    · exact absurd (hjv.trans h.symm) hjc
                  rw [hjv]
                  exact le_trans (hcoth (by omega) hcv) (hcv ▸ hcmax)
            · -- edges strictly between node and c: untouched on both ends
              have hqc : node < (j - 1) / 2 ∧ (j - 1) / 2 < c := by omega
              have hjbig : 2 * node + 3 ≤ j ∧ j ≤ 2 * c := by omega
              rw [hyuntouched j (by omega) (by omega) (by omega) (by omega),
                hyuntouched ((j - 1) / 2) (by omega) (by omega) (by omega)
                  (by omega)]
              exact hpre j h1 h2 (by omega)
      · -- already a heap here: stop
        rw [hstep, if_neg hout, if_pos hstop]
        have hle : key (getI xs c) ≤ key (getI xs node) := by
          simp only [decide_eq_true_eq] at hstop
          omega
        refine ⟨rfl, rfl, fun j _ _ _ => rfl, fun j _ _ => rfl, Or.inl rfl, ?_⟩
        intro j h1 h2 h3
        by_cases hq : node + 1 ≤ (j - 1) / 2
        · exact hpre j h1 h2 hq
        · have hj12 : j = 2 * node + 1 ∨ j = 2 * node + 2 := by omega
          have hq2 : (j - 1) / 2 = node := by omega
          rw [hq2]
          rcases hj12 with hjv | hjv
          · rw [hjv]
            exact le_trans hcmax hle
          · rcases hcor with hcv | hcv
            · rw [hjv]
              exact le_trans (hcoth (by omega) hcv) (le_trans (hcv ▸ hcmax) hle)
            · rw [hjv, ← hcv]
              exact hle

/-- The heap-construction fold of `heapsort` (abbreviation of its first
`for` loop). -/
def heapify [Inhabited α] (lt : α → α → Bool) (FUEL L m : Nat) (xs : List α) :
    List α :=
  ((List.range m).reverse).foldl (fun xs i => siftDown lt FUEL xs L i) xs

/-- The extraction fold of `heapsort` (abbreviation of its second `for`
loop). -/
def heapLoop2 [Inhabited α] (lt : α → α → Bool) (FUEL m : Nat) (xs : List α) :
    List α :=
  (((List.range (m + 1)).drop 1).reverse).foldl
    (fun xs i => siftDown lt FUEL (swapI xs 0 i) i 0) xs

theorem heapify_spec [Inhabited α] (key : α → Int) (L FUEL : Nat)
    (hLF : L ≤ FUEL + 1) :
    ∀ (m : Nat) (xs : List α), L ≤ xs.length →
      (∀ j, 0 < j → j < L → m ≤ (j - 1) / 2 →
        key (getI xs j) ≤ key (getI xs ((j - 1) / 2))) →
      (heapify (fun a b => decide (key a < key b)) FUEL L m xs).length =
        xs.length ∧
      (↑(heapify (fun a b => decide (key a < key b)) FUEL L m xs) : Multiset α) =
        (↑xs : Multiset α) ∧
      (∀ j, L ≤ j → j < xs.length →
        getI (heapify (fun a b => decide (key a < key b)) FUEL L m xs) j =
          getI xs j) ∧
      (∀ j, 0 < j → j < L →
        key (getI (heapify (fun a b => decide (key a < key b)) FUEL L m xs) j) ≤
        key (getI (heapify (fun a b => decide (key a < key b)) FUEL L m xs)
          ((j - 1) / 2))) := by
  intro m
  induction m with
  | zero =>
    intro xs hlen hpre
    exact ⟨rfl, rfl, fun j _ _ => rfl,
      fun j h1 h2 => hpre j h1 h2 (Nat.zero_le _)⟩
  | succ m ih =>
    intro xs hlen hpre
    have hlist : (List.range (m + 1)).reverse = m :: (List.range m).reverse := by
      rw [List.range_succ, List.reverse_append]
      rfl
    have hstep : heapify (fun a b => decide (key a < key b)) FUEL L (m + 1) xs =
        heapify (fun a b => decide (key a < key b)) FUEL L m
          (siftDown (fun a b => decide (key a < key b)) FUEL xs L m) := by
      unfold heapify
      rw [hlist]
      rfl
    obtain ⟨s1, s2, s3, s4, s5, s6⟩ := siftDown_spec key L FUEL xs m hlen
      (by omega) (fun j h1 h2 h3 => hpre j h1 h2 h3)
    obtain ⟨c1, c2, c3, c4⟩ := ih
      (siftDown (fun a b => decide (key a < key b)) FUEL xs L m)
      (by rw [s1]; exact hlen) s6
    rw [hstep]
    refine ⟨c1.trans s1, c2.trans s2, ?_, c4⟩
    intro j h1 h2
    rw [c3 j h1 (by rw [s1]; exact h2)]
    exact s4 j h1 h2

theorem heapLoop2_spec [Inhabited α] (key : α → Int) (FUEL : Nat) :
    ∀ (m : Nat) (xs : List α), m < xs.length → xs.length ≤ FUEL + 1 →
      (∀ j, 0 < j → j < m + 1 → key (getI xs j) ≤ key (getI xs ((j - 1) / 2))) →
      (∀ ja jb, m + 1 ≤ ja → ja < jb → jb < xs.length →
        key (getI xs ja) ≤ key (getI xs jb)) →
      (∀ jp js, jp ≤ m → m < js → js < xs.length →
        key (getI xs jp) ≤ key (getI xs js)) →
      (heapLoop2 (fun a b => decide (key a < key b)) FUEL m xs).length =
        xs.length ∧
      (↑(heapLoop2 (fun a b => decide (key a < key b)) FUEL m xs) : Multiset α) =
        (↑xs : Multiset α) ∧
      (∀ ja jb, ja < jb → jb < xs.length →
        key (getI (heapLoop2 (fun a b => decide (key a < key b)) FUEL m xs) ja) ≤
        key (getI (heapLoop2 (fun a b => decide (key a < key b)) FUEL m xs) jb)) := by
  intro m
  induction m with
  | zero =>
    intro xs hm hF hP hS hC
    have hnil : heapLoop2 (fun a b => decide (key a < key b)) FUEL 0 xs = xs := rfl
    rw [hnil]
    refine ⟨rfl, rfl, ?_⟩
    intro ja jb h1 h2
    rcases Nat.eq_zero_or_pos ja with rfl | hja
    · exact hC 0 jb (le_refl 0) h1 h2
    · exact hS ja jb hja h1 h2
  | succ m ih =>
    intro xs hm hF hP hS hC
    have hlist : ((List.range (m + 1 + 1)).drop 1).reverse =
        (m + 1) :: ((List.range (m + 1)).drop 1).reverse := by
      rw [List.range_succ, List.drop_append_of_le_length (by simp),
        List.reverse_append]
      rfl
    have hm1 : m + 1 < xs.length := hm
    have h0 : 0 < xs.length := by omega
    obtain ⟨xs1, hxs1⟩ : ∃ w, w = swapI xs 0 (m + 1) := ⟨_, rfl⟩
    have hxs1len : xs1.length = xs.length := by rw [hxs1]; exact length_swapI ..
    have hx1zero : getI xs1 0 = getI xs (m + 1) := by
      rw [hxs1]
      exact getI_swapI_left xs 0 (m + 1) h0 hm1
    have hx1top : getI xs1 (m + 1) = getI xs 0 := by
      rw [hxs1]
      exact getI_swapI_right xs 0 (m + 1) hm1
    have hx1other : ∀ j, j ≠ 0 → j ≠ m + 1 → getI xs1 j = getI xs j := by
      intro j h1 h2
      rw [hxs1]
      exact getI_swapI_other xs 0 (m + 1) j h1 h2
    have hroot : ∀ j, j < m + 2 → key (getI xs j) ≤ key (getI xs 0) :=
      heap_root_max key xs (m + 2) hP
    have hstep : heapLoop2 (fun a b => decide (key a < key b)) FUEL (m + 1) xs =
        heapLoop2 (fun a b => decide (key a < key b)) FUEL m
          (siftDown (fun a b => decide (key a < key b)) FUEL xs1 (m + 1) 0) := by
      unfold heapLoop2
      rw [hlist, hxs1]
      rfl
    obtain ⟨s1, s2, s3, s4, s5, s6⟩ := siftDown_spec key (m + 1) FUEL xs1 0
      (by omega) (by omega)
      (by
        intro j h1 h2 h3
        rw [hx1other j (by omega) (by omega),
          hx1other ((j - 1) / 2) (by omega) (by omega)]
        exact hP j h1 (by omega))
    obtain ⟨y1, hy1⟩ : ∃ w,
        w = siftDown (fun a b => decide (key a < key b)) FUEL xs1 (m + 1) 0 :=
      ⟨_, rfl⟩
    rw [← hy1] at s1 s2 s3 s4 s5 s6
    have hy1len : y1.length = xs.length := by rw [s1]; exact hxs1len
    have hms1 : (↑y1 : Multiset α) = (↑xs : Multiset α) := by
      rw [s2, hxs1]
      exact Multiset.coe_eq_coe.mpr (swapI_perm xs 0 (m + 1) h0 hm1)
    have hy1suffix : ∀ j, m + 1 ≤ j → j < xs.length → getI y1 j = getI xs1 j :=
      fun j h1 h2 => s4 j h1 (by omega)
    have hy1prefix : ∀ jp, jp ≤ m → ∃ idx, idx ≤ m + 1 ∧
        getI y1 jp = getI xs idx := by
      intro jp hjp
      have htakems : (↑(y1.take (m + 1)) : Multiset α) = ↑(xs1.take (m + 1)) := by
        refine take_coe_eq_of y1 xs1 (m + 1) (by omega) s2
          (fun j h1 h2 => hy1suffix j h1 (by omega))
      have hmem : getI y1 jp ∈ y1.take (m + 1) :=
        getI_mem_take y1 (m + 1) jp (by omega) (by omega)
      have hmem2 : getI y1 jp ∈ xs1.take (m + 1) := by
        have : getI y1 jp ∈ (↑(xs1.take (m + 1)) : Multiset α) := by
          rw [← htakems]
          exact hmem
        exact this
      obtain ⟨idx, hidx1, hidx2, hidx3⟩ :=
        mem_take_exists_getI xs1 (m + 1) (getI y1 jp) hmem2
      rcases Nat.eq_zero_or_pos idx with rfl | hidxpos
      · exact ⟨m + 1, le_refl _, by rw [← hidx3, hx1zero]⟩
      · exact ⟨idx, by omega, by rw [← hidx3, hx1other idx (by omega) (by omega)]⟩
    obtain ⟨c1, c2, c3⟩ := ih y1 (by omega) (by omega)
      (fun j h1 h2 => s6 j h1 h2 (Nat.zero_le _))
      (by
        intro ja jb h1 h2 h3
        rw [hy1suffix ja h1 (by omega), hy1suffix jb (by omega) (by omega)]
        rcases Nat.eq_or_lt_of_le h1 with hja | hja
        · rw [← hja, hx1top]
          rw [hx1other jb (by omega) (by omega)]
          exact hC 0 jb (Nat.zero_le _) (by omega) (by omega)
        · rw [hx1other ja (by omega) (by omega),
            hx1other jb (by omega) (by omega)]
          exact hS ja jb (by omega) h2 (by omega))
      (by
        intro jp js hjp hjs1 hjs2
        obtain ⟨idx, hidx, hidxv⟩ := hy1prefix jp hjp
        rw [hidxv, hy1suffix js (by omega) (by omega)]
        rcases Nat.eq_or_lt_of_le (by omega : m + 1 ≤ js) with hjs | hjs
        · rw [← hjs, hx1top]
          exact hroot idx (by omega)
        · rw [hx1other js (by omega) (by omega)]
          exact hC idx js (by omega) (by omega) (by omega))
    rw [hstep, ← hy1]
    refine ⟨c1.trans hy1len, c2.trans hms1, ?_⟩
    intro ja jb h1 h2
    exact c3 ja jb h1 (by omega)

/-- The fallback `heapsort` sorts by the key and permutes the list. -/
theorem heapsort_spec [Inhabited α] (key : α → Int) (v : List α) :
    (heapsort (fun a b => decide (key a < key b)) v).length = v.length ∧
    (↑(heapsort (fun a b => decide (key a < key b)) v) : Multiset α) =
      (↑v : Multiset α) ∧
    List.Pairwise (fun a b => key a ≤ key b)
      (heapsort (fun a b => decide (key a < key b)) v) := by
  by_cases hv0 : v.length = 0
  · have hnil : v = [] := List.eq_nil_of_length_eq_zero hv0
    subst hnil
    have hres : heapsort (fun a b => decide (key a < key b)) ([] : List α) = [] := by
      simp [heapsort]
    rw [hres]
    exact ⟨rfl, rfl, List.Pairwise.nil⟩
  · have harith : v.length - 1 + 1 = v.length := by omega
    have hsort_eq : heapsort (fun a b => decide (key a < key b)) v =
        heapLoop2 (fun a b => decide (key a < key b)) v.length (v.length - 1)
          (heapify (fun a b => decide (key a < key b)) v.length v.length
            (v.length / 2) v) := by
      unfold heapsort heapLoop2 heapify
      rw [harith]
    obtain ⟨p1, p2, p3, p4⟩ := heapify_spec key v.length v.length (by omega)
      (v.length / 2) v (le_refl _)
      (by
        intro j h1 h2 h3
        exact absurd h2 (by omega))
    obtain ⟨q1, q2, q3⟩ := heapLoop2_spec key v.length (v.length - 1)
      (heapify (fun a b => decide (key a < key b)) v.length v.length
        (v.length / 2) v)
      (by omega) (by omega)
      (by
        intro j h1 h2
        exact p4 j h1 (by omega))
      (by
        intro ja jb h1 h2 h3
        exact absurd h3 (by omega))
      (by
        intro jp js h1 h2 h3
        exact absurd h3 (by omega))
    rw [hsort_eq]
    refine ⟨q1.trans p1, q2.trans p2, ?_⟩
    refine pairwise_of_index_mono key _ ?_
    intro j h1 h2
    rw [q1, p1] at h2
    exact q3 (j - 1) j (by omega) (by rw [p1]; omega)

theorem mem_drop_exists_getI [Inhabited α] (xs : List α) (L : Nat) (a : α)
    (ha : a ∈ xs.drop L) : ∃ idx, L ≤ idx ∧ idx < xs.length ∧ getI xs idx = a := by
  obtain ⟨n, hn, hget⟩ := List.getElem_of_mem ha
  rw [List.length_drop] at hn
  refine ⟨L + n, by omega, by omega, ?_⟩
  rw [← getI_drop]
  rw [getI_eq_get _ _ (by rw [List.length_drop]; omega)]
  exact hget

/-- Unfolding equation for one level of `pdqLoop` with the intermediates
named. -/
theorem pdqLoop_succ_eq [Inhabited α] (lt : α → α → Bool) (fuel : Nat)
    (v : List α) (pred : Option α) (limit : Nat) (wb wp : Bool)
    (vl : List α × Nat) (cp : List α × Nat × Bool) (ps : List α × Bool)
    (predEq : Bool) (qe : List α × Nat) (q : List α × Nat × Bool) (wb2 : Bool)
    (hvl : vl = if !wb then (breakPatterns v, limit - 1) else (v, limit))
    (hcp : cp = choosePivot lt vl.1)
    (hps : ps = if wb && wp && cp.2.2 then partialInsertionSort lt cp.1
      else (cp.1, false))
    (hpredEq : predEq = match pred with
      | some p => !(lt p (getI ps.1 cp.2.1))
      | none => false)
    (hqe : qe = partitionEqual lt ps.1 cp.2.1)
    (hq : q = partitionAt lt ps.1 cp.2.1)
    (hwb2 : wb2 = decide (min q.2.1 (v.length - q.2.1) ≥ v.length / 8)) :
    pdqLoop lt (fuel + 1) v pred limit wb wp =
      if v.length ≤ 20 then insertionSort lt v
      else if limit = 0 then heapsort lt v
      else if ps.2 then ps.1
      else if predEq then
        qe.1.take qe.2 ++ pdqLoop lt fuel (qe.1.drop qe.2) pred vl.2 wb wp
      else
        match q.1.drop q.2.1 with
        | [] => q.1
        | pivotE :: right =>
          if (q.1.take q.2.1).length < right.length then
            pdqLoop lt fuel (q.1.take q.2.1) pred vl.2 true true ++
              pivotE :: pdqLoop lt fuel right (some pivotE) vl.2 wb2 q.2.2
          else
            pdqLoop lt fuel (q.1.take q.2.1) pred vl.2 wb2 q.2.2 ++
              pivotE :: pdqLoop lt fuel right (some pivotE) vl.2 true true := by
  subst hwb2 hq hqe hpredEq hps hcp hvl
  rfl

/-- The `recurse` loop of the pattern-defeating quicksort: the result is a
permutation, and — when the predecessor invariant holds (every element is at
least any recorded predecessor pivot) — it is sorted by the key. -/
theorem pdqLoop_spec [Inhabited α] (key : α → Int) :
    ∀ (fuel : Nat) (v : List α) (pred : Option α) (limit : Nat) (wb wp : Bool),
      v.length < fuel →
      List.Perm
        (pdqLoop (fun a b => decide (key a < key b)) fuel v pred limit wb wp) v ∧
      ((∀ p, pred = some p → ∀ x ∈ v, key p ≤ key x) →
        List.Pairwise (fun a b => key a ≤ key b)
          (pdqLoop (fun a b => decide (key a < key b)) fuel v pred limit wb wp)) := by
  intro fuel
  induction fuel with
  | zero =>
    intro v pred limit wb wp hf
    exact absurd hf (by omega)
  | succ fuel ih =>
    intro v pred limit wb wp hf
    obtain ⟨vl, hvl⟩ : ∃ w, w = if !wb then (breakPatterns v, limit - 1)
        else (v, limit) := ⟨_, rfl⟩
    obtain ⟨cp, hcp⟩ : ∃ w,
        w = choosePivot (fun a b => decide (key a < key b)) vl.1 := ⟨_, rfl⟩
    obtain ⟨ps, hps⟩ : ∃ w, w = if wb && wp && cp.2.2 then
        partialInsertionSort (fun a b => decide (key a < key b)) cp.1
      else (cp.1, false) := ⟨_, rfl⟩
    obtain ⟨predEq, hpredEq⟩ : ∃ w : Bool, w = match pred with
      | some p => !((fun a b => decide (key a < key b)) p (getI ps.1 cp.2.1))
      | none => false := ⟨_, rfl⟩
    obtain ⟨qe, hqe⟩ : ∃ w,
        w = partitionEqual (fun a b => decide (key a < key b)) ps.1 cp.2.1 :=
      ⟨_, rfl⟩
    obtain ⟨q, hq⟩ : ∃ w,
        w = partitionAt (fun a b => decide (key a < key b)) ps.1 cp.2.1 :=
      ⟨_, rfl⟩
    obtain ⟨wb2, hwb2⟩ : ∃ w : Bool,
        w = decide (min q.2.1 (v.length - q.2.1) ≥ v.length / 8) := ⟨_, rfl⟩
    have hstep := pdqLoop_succ_eq (fun a b => decide (key a < key b)) fuel v pred
      limit wb wp vl cp ps predEq qe q wb2 hvl hcp hps hpredEq hqe hq hwb2
    rw [hstep]
    by_cases h20 : v.length ≤ 20
    · rw [if_pos h20]
      exact ⟨insertionSort_perm _ v, fun _ => insertionSort_sorted key v⟩
    · rw [if_neg h20]
      by_cases hlim : limit = 0
      · rw [if_pos hlim]
        obtain ⟨h1, h2, h3⟩ := heapsort_spec key v
        exact ⟨Multiset.coe_eq_coe.mp h2, fun _ => h3⟩
      · rw [if_neg hlim]
        have hfu : v.length ≤ fuel := by omega
        obtain ⟨hv2len, hv2perm⟩ : vl.1.length = v.length ∧ List.Perm vl.1 v := by
          by_cases hwb : (!wb) = true
          · rw [hvl, if_pos hwb]
            exact breakPatterns_spec v
          · rw [hvl, if_neg hwb]
            exact ⟨rfl, List.Perm.refl v⟩
        obtain ⟨hv3len, hv3perm, hpiv⟩ :=
          choosePivot_spec (fun a b => decide (key a < key b)) vl.1 (by omega)
        rw [← hcp] at hv3len hv3perm hpiv
        have hv3lenv : cp.1.length = v.length := by rw [hv3len, hv2len]
        have hv3permv : List.Perm cp.1 v := hv3perm.trans hv2perm
        obtain ⟨hps1perm, hps1sorted⟩ : List.Perm ps.1 cp.1 ∧
            (ps.2 = true → List.Pairwise (fun a b => key a ≤ key b) ps.1) := by
          by_cases hflag : (wb && wp && cp.2.2) = true
          · rw [hps, if_pos hflag]
            exact partialInsertionSort_spec key cp.1 (by omega)
          · rw [hps, if_neg hflag]
            exact ⟨List.Perm.refl _, fun h => absurd h (by
              show (false : Bool) ≠ true
              simp)⟩
        have hps1permv : List.Perm ps.1 v := hps1perm.trans hv3permv
        have hps1len : ps.1.length = v.length := hps1permv.length_eq
        have hpivlen : cp.2.1 < ps.1.length := by omega
        by_cases hdone : ps.2 = true
        · rw [if_pos hdone]
          exact ⟨hps1permv, fun _ => hps1sorted hdone⟩
        · rw [if_neg hdone]
          by_cases hpe : predEq = true
          · -- equal-to-predecessor partition
            rw [if_pos hpe]
            obtain ⟨e1, e2, e3, e4, e5, e6, e7⟩ :=
              partitionEqual_spec (fun a b => decide (key a < key b)) ps.1 cp.2.1
                (by omega) hpivlen
            rw [← hqe] at e1 e2 e3 e4 e5 e6 e7
            have hqeperm : List.Perm qe.1 v := e2.trans hps1permv
            have hrlen : (qe.1.drop qe.2).length < fuel := by
              rw [List.length_drop, e1]
              omega
            obtain ⟨rperm, rsorted⟩ := ih (qe.1.drop qe.2) pred vl.2 wb wp hrlen
            have hperm : List.Perm
                (qe.1.take qe.2 ++
                  pdqLoop (fun a b => decide (key a < key b)) fuel
                    (qe.1.drop qe.2) pred vl.2 wb wp) v := by
              have h1 := (rperm.append_left (qe.1.take qe.2))
              rw [List.take_append_drop] at h1
              exact h1.trans hqeperm
            refine ⟨hperm, ?_⟩
            intro hpred
            obtain ⟨p, hpp, hltf⟩ : ∃ p, pred = some p ∧
                decide (key p < key (getI ps.1 cp.2.1)) = false := by
              rcases hpd : pred with _ | p
              · rw [hpd] at hpredEq
                rw [hpredEq] at hpe
                exact absurd hpe (by simp)
              · rw [hpd] at hpredEq
                refine ⟨p, rfl, ?_⟩
                rw [hpredEq] at hpe
                simpa using hpe
            have hpvle : key (getI ps.1 cp.2.1) ≤ key p := by
              simp only [decide_eq_false_iff_not] at hltf
              omega
            have hpmin : ∀ x ∈ v, key p ≤ key x := hpred p hpp
            have hpmin4 : ∀ x ∈ ps.1, key p ≤ key x :=
              fun x hx => hpmin x (hps1permv.mem_iff.mp hx)
            have hpveq : key (getI ps.1 cp.2.1) = key p :=
              le_antisymm hpvle (hpmin4 _ (getI_mem ps.1 cp.2.1 hpivlen))
            have hpv0 : getI (swapI ps.1 0 cp.2.1) 0 = getI ps.1 cp.2.1 :=
              getI_swapI_left ps.1 0 cp.2.1 (by omega) hpivlen
            have hqemem : ∀ a ∈ qe.1, key p ≤ key a :=
              fun a ha => hpmin a (hqeperm.mem_iff.mp ha)
            have hfront : ∀ a ∈ qe.1.take qe.2, key a = key p := by
              intro a ha
              obtain ⟨idx, hidx1, hidx2, hidx3⟩ :=
                mem_take_exists_getI qe.1 qe.2 a ha
              refine le_antisymm ?_ (hqemem a (List.mem_of_mem_take ha))
              rcases Nat.eq_zero_or_pos idx with rfl | hidxpos
              · rw [← hidx3, e5, hpv0, hpveq]
              · have h6 := e6 idx hidxpos hidx1
                rw [hpv0] at h6
                simp only [decide_eq_true_eq] at h6
                rw [← hidx3]
                omega
            have hrec : ∀ p', pred = some p' →
                ∀ x ∈ qe.1.drop qe.2, key p' ≤ key x := by
              intro p' hp' x hx
              rw [hpp] at hp'
              have hp'' : p' = p := by
                injection hp' with h
                exact h.symm
              subst hp''
              exact hqemem x (List.mem_of_mem_drop hx)
            refine List.pairwise_append.mpr ⟨?_, rsorted hrec, ?_⟩
            · refine List.pairwise_of_forall_mem_list ?_
              intro a ha b hb
              rw [hfront a ha, hfront b hb]
            · intro a ha b hb
              rw [hfront a ha]
              exact hqemem b (List.mem_of_mem_drop (rperm.mem_iff.mp hb))
          · -- quicksort partition and recursion
            rw [if_neg hpe]
            obtain ⟨a1, a2, a3, a4, a5, a6⟩ :=
              partitionAt_spec (fun a b => decide (key a < key b)) ps.1 cp.2.1
                hpivlen
            rw [← hq] at a1 a2 a3 a4 a5 a6
            have hq1perm : List.Perm q.1 v := a2.trans hps1permv
            have hq1len : q.1.length = v.length := hq1perm.length_eq
            have hmidv : q.2.1 < v.length := by omega
            rcases hdrop : q.1.drop q.2.1 with _ | ⟨pivotE, right⟩
            · exfalso
              have := congrArg List.length hdrop
              rw [List.length_drop] at this
              simp at this
              omega
            · have hpE : pivotE = getI ps.1 cp.2.1 := by
                have h := getI_drop q.1 q.2.1 0
                rw [hdrop] at h
                have h2 : getI (pivotE :: right) 0 = pivotE := rfl
                rw [h2] at h
                rw [h, Nat.add_zero, a4]
              have hrightlen : right.length = v.length - q.2.1 - 1 := by
                have := congrArg List.length hdrop
                rw [List.length_drop] at this
                simp at this
                omega
              have hleftlen : (q.1.take q.2.1).length = q.2.1 := by
                rw [List.length_take]
                omega
              have hrightbound : ∀ b ∈ right,
                  key (getI ps.1 cp.2.1) ≤ key b := by
                intro b hb
                have hb2 : b ∈ q.1.drop q.2.1 := by
                  rw [hdrop]
                  exact List.mem_cons_of_mem _ hb
                obtain ⟨idx, hidx1, hidx2, hidx3⟩ :=
                  mem_drop_exists_getI q.1 q.2.1 b hb2
                rcases Nat.eq_or_lt_of_le hidx1 with hidxe | hidxe
                · rw [← hidx3, ← hidxe, a4]
                · have h6 := a6 idx hidxe (by omega)
                  simp only [decide_eq_false_iff_not] at h6
                  rw [← hidx3]
                  omega
              have hleftbound : ∀ a ∈ q.1.take q.2.1,
                  key a < key (getI ps.1 cp.2.1) := by
                intro a ha
                obtain ⟨idx, hidx1, hidx2, hidx3⟩ :=
                  mem_take_exists_getI q.1 q.2.1 a ha
                have h5 := a5 idx hidx1
                simp only [decide_eq_true_eq] at h5
                rw [← hidx3]
                exact h5
              have hassm : q.1.take q.2.1 ++ pivotE :: right = q.1 := by
                rw [← hdrop]
                exact List.take_append_drop ..
              have hgen : ∀ (wbA wpA wbB wpB : Bool),
                  List.Perm
                    (pdqLoop (fun a b => decide (key a < key b)) fuel
                        (q.1.take q.2.1) pred vl.2 wbA wpA ++
                      pivotE :: pdqLoop (fun a b => decide (key a < key b)) fuel
                        right (some pivotE) vl.2 wbB wpB) v ∧
                  ((∀ p, pred = some p → ∀ x ∈ v, key p ≤ key x) →
                    List.Pairwise (fun a b => key a ≤ key b)
                      (pdqLoop (fun a b => decide (key a < key b)) fuel
                          (q.1.take q.2.1) pred vl.2 wbA wpA ++
                        pivotE :: pdqLoop (fun a b => decide (key a < key b))
                          fuel right (some pivotE) vl.2 wbB wpB)) := by
                intro wbA wpA wbB wpB
                obtain ⟨LP, LS⟩ := ih (q.1.take q.2.1) pred vl.2 wbA wpA
                  (by rw [hleftlen]; omega)
                obtain ⟨RP, RS⟩ := ih right (some pivotE) vl.2 wbB wpB
                  (by rw [hrightlen]; omega)
                have hperm : List.Perm
                    (pdqLoop (fun a b => decide (key a < key b)) fuel
                        (q.1.take q.2.1) pred vl.2 wbA wpA ++
                      pivotE :: pdqLoop (fun a b => decide (key a < key b)) fuel
                        right (some pivotE) vl.2 wbB wpB) v := by
                  have h1 := LP.append (RP.cons pivotE)
                  rw [hassm] at h1
                  exact h1.trans hq1perm
                refine ⟨hperm, ?_⟩
                intro hpred
                have hpredL : ∀ p', pred = some p' →
                    ∀ x ∈ q.1.take q.2.1, key p' ≤ key x := by
                  intro p' hp' x hx
                  exact hpred p' hp' x
                    (hq1perm.mem_iff.mp (List.mem_of_mem_take hx))
                have hpredR : ∀ p', some pivotE = some p' →
                    ∀ x ∈ right, key p' ≤ key x := by
                  intro p' hp' x hx
                  have hp'' : p' = pivotE := by
                    injection hp' with h
                    exact h.symm
                  subst hp''
                  rw [hpE]
                  exact hrightbound x hx
                have hrb : ∀ b, b ∈ pdqLoop (fun a b => decide (key a < key b))
                    fuel right (some pivotE) vl.2 wbB wpB →
                    key (getI ps.1 cp.2.1) ≤ key b :=
                  fun b hb => hrightbound b (RP.mem_iff.mp hb)
                refine List.pairwise_append.mpr ⟨LS hpredL, ?_, ?_⟩
                · refine List.pairwise_cons.mpr ⟨?_, RS hpredR⟩
                  intro b hb
                  rw [hpE]
                  exact hrb b hb
                · intro a ha b hb
                  have haK : key a < key (getI ps.1 cp.2.1) :=
                    hleftbound a (LP.mem_iff.mp ha)
                  rcases List.mem_cons.mp hb with rfl | hb2
                  · rw [hpE]
                    omega
                  · have := hrb b hb2
                    omega
              show List.Perm
                  (if (q.1.take q.2.1).length < right.length then
                    pdqLoop (fun a b => decide (key a < key b)) fuel
                        (q.1.take q.2.1) pred vl.2 true true ++
                      pivotE :: pdqLoop (fun a b => decide (key a < key b)) fuel
                        right (some pivotE) vl.2 wb2 q.2.2
                  else
                    pdqLoop (fun a b => decide (key a < key b)) fuel
                        (q.1.take q.2.1) pred vl.2 wb2 q.2.2 ++
                      pivotE :: pdqLoop (fun a b => decide (key a < key b)) fuel
                        right (some pivotE) vl.2 true true) v ∧
                ((∀ p, pred = some p → ∀ x ∈ v, key p ≤ key x) →
                  List.Pairwise (fun a b => key a ≤ key b)
                    (if (q.1.take q.2.1).length < right.length then
                      pdqLoop (fun a b => decide (key a < key b)) fuel
                          (q.1.take q.2.1) pred vl.2 true true ++
                        pivotE :: pdqLoop (fun a b => decide (key a < key b))
                          fuel right (some pivotE) vl.2 wb2 q.2.2
                    else
                      pdqLoop (fun a b => decide (key a < key b)) fuel
                          (q.1.take q.2.1) pred vl.2 wb2 q.2.2 ++
                        pivotE :: pdqLoop (fun a b => decide (key a < key b))
                          fuel right (some pivotE) vl.2 true true))
              by_cases hlen2 : (q.1.take q.2.1).length < right.length
              · rw [if_pos hlen2]
                exact hgen true true wb2 q.2.2
              · rw [if_neg hlen2]
                exact hgen wb2 q.2.2 true true

/-- `quicksort` (pdqsort): a sorted permutation, for every input length. -/
theorem pdqSort_spec [Inhabited α] (key : α → Int) (v : List α) :
    List.Perm (pdqSort (fun a b => decide (key a < key b)) v) v ∧
    List.Pairwise (fun a b => key a ≤ key b)
      (pdqSort (fun a b => decide (key a < key b)) v) := by
  have heq : pdqSort (fun a b => decide (key a < key b)) v =
      pdqLoop (fun a b => decide (key a < key b)) (v.length + 1) v none
        (64 - leadingZeros64 v.length) true true := rfl
  rw [heq]
  obtain ⟨h1, h2⟩ := pdqLoop_spec key (v.length + 1) v none
    (64 - leadingZeros64 v.length) true true (by omega)
  exact ⟨h1, h2 (fun p hp => absurd hp (by simp))⟩

/-- `sort_unstable_by_key`: a permutation of the input, sorted by the key —
with no restriction on the length. -/
theorem sortUnstableByKey_spec [Inhabited α] (key : α → Int) (v : List α) :
    List.Perm (sortUnstableByKey key v) v ∧
    List.Pairwise (fun a b => key a ≤ key b) (sortUnstableByKey key v) :=
  pdqSort_spec key v

/-- C4 amended: the sort key of a missing `start` is 0, so such records sort
before every record with a positive `start` but not necessarily before a
record whose `start` is present and equals 0 (see the counterexample).  For
every fetched list, the returned list is sorted by the key and every
missing-`start` record is positioned before every positive-`start` record. -/
theorem c4_amended_sorted (s : Schedule) (st en : Int) (body : String)
    (data : List Appointment)
    (h : decodeAppointmentsBody (renameBody body) = .ok data) :
    List.Pairwise (fun a b => sortKey a ≤ sortKey b)
      (s.get_appointments st en (.ok 200 body)).2.appointments ∧
    ∀ i j (hi : i < (s.get_appointments st en (.ok 200 body)).2.appointments.length)
        (hj : j < (s.get_appointments st en (.ok 200 body)).2.appointments.length),
      ((s.get_appointments st en (.ok 200 body)).2.appointments.get ⟨i, hi⟩).start = none →
      0 < sortKey ((s.get_appointments st en (.ok 200 body)).2.appointments.get ⟨j, hj⟩) →
      i < j := by
  have heq : (s.get_appointments st en (.ok 200 body)).2.appointments =
      sortUnstableByKey sortKey data := by
    simp [Schedule.get_appointments, h]
  have hsort : List.Pairwise (fun a b => sortKey a ≤ sortKey b)
      (s.get_appointments st en (.ok 200 body)).2.appointments := by
    rw [heq]
    exact (sortUnstableByKey_spec sortKey data).2
  refine ⟨hsort, ?_⟩
  intro i j hi hj hnone hpos
  have hki : sortKey ((s.get_appointments st en (.ok 200 body)).2.appointments.get ⟨i, hi⟩) = 0 := by
    simp only [sortKey, hnone, Option.getD_none]
  by_contra hij
  have hji : j ≤ i := Nat.le_of_not_lt hij
  rcases Nat.eq_or_lt_of_le hji with heq2 | hlt2
  · have hfin : (⟨j, hj⟩ : Fin (s.get_appointments st en (.ok 200 body)).2.appointments.length) =
        ⟨i, hi⟩ := Fin.ext heq2
    rw [hfin] at hpos
    omega
  · have hp := (List.pairwise_iff_get.mp hsort) ⟨j, hj⟩ ⟨i, hi⟩ hlt2
    omega

/-- C4 amended witness: a concrete response listing a positive-`start` record
before a missing-`start` record; the returned list is sorted and the
missing-`start` record ends up in front of the positive one. -/
theorem c4_amended_witness :
    List.Pairwise (fun a b => sortKey a ≤ sortKey b)
      (demoSchedule.get_appointments 0 1
        (.ok 200 "\x7b\"response\":\x7b\"data\":[\x7b\"id\":2,\"start\":4\x7d,\x7b\"id\":1\x7d]\x7d\x7d")).2.appointments ∧
    ∀ i j (hi : _) (hj : _),
      ((demoSchedule.get_appointments 0 1
        (.ok 200 "\x7b\"response\":\x7b\"data\":[\x7b\"id\":2,\"start\":4\x7d,\x7b\"id\":1\x7d]\x7d\x7d")).2.appointments.get ⟨i, hi⟩).start = none →
      0 < sortKey ((demoSchedule.get_appointments 0 1
        (.ok 200 "\x7b\"response\":\x7b\"data\":[\x7b\"id\":2,\"start\":4\x7d,\x7b\"id\":1\x7d]\x7d\x7d")).2.appointments.get ⟨j, hj⟩) →
      i < j :=
  c4_amended_sorted demoSchedule 0 1 _
    [{ id := some 2, start := some 4 }, { id := some 1 }] (by decide)

/-- C10: the stored appointment list is sorted by the key in every reachable
state: both constructors store an empty (trivially sorted) list, every
successful `get_appointments` stores a sorted list, and every call preserves
sortedness of the stored list (failures leave it unchanged). -/
theorem c10_sorted_invariant :
    (∀ school token,
      List.Pairwise (fun a b => sortKey a ≤ sortKey b)
        (Schedule.with_access_token school token).appointments) ∧
    (∀ school code outcome s,
      Schedule.new school code outcome = Except.ok s →
      List.Pairwise (fun a b => sortKey a ≤ sortKey b) s.appointments) ∧
    (∀ (s : Schedule) (st en : Int) (body : String),
      (∃ data, decodeAppointmentsBody (renameBody body) = .ok data) →
      List.Pairwise (fun a b => sortKey a ≤ sortKey b)
        ((s.get_appointments st en (.ok 200 body)).2.appointments)) ∧
    (∀ (s : Schedule) (st en : Int) (o : FetchOutcome),
      List.Pairwise (fun a b => sortKey a ≤ sortKey b) s.appointments →
      List.Pairwise (fun a b => sortKey a ≤ sortKey b)
        ((s.get_appointments st en o).2.appointments)) := by
  have hok : ∀ (s : Schedule) (st en : Int) (body : String)
      (data : List Appointment),
      decodeAppointmentsBody (renameBody body) = .ok data →
      List.Pairwise (fun a b => sortKey a ≤ sortKey b)
        ((s.get_appointments st en (.ok 200 body)).2.appointments) := by
    intro s st en body data h
    have heq : (s.get_appointments st en (.ok 200 body)).2.appointments =
        sortUnstableByKey sortKey data := by
      simp [Schedule.get_appointments, h]
    rw [heq]
    exact (sortUnstableByKey_spec sortKey data).2
  refine ⟨?_, ?_, ?_, ?_⟩
  · intro school token
    exact List.Pairwise.nil
  · intro school code outcome s h
    cases outcome with
    | transport => simp [Schedule.new] at h
    | readFail status =>
      by_cases h2 : status ≠ 200 <;> simp [Schedule.new, h2] at h
    | ok status body =>
      by_cases h2 : status ≠ 200
      · simp [Schedule.new, h2] at h
      · cases h3 : decodeAuthResponse body with
        | error e => simp [Schedule.new, h2, h3] at h
        | ok tok =>
          simp [Schedule.new, h2, h3] at h
          rw [← h]
          exact List.Pairwise.nil
  · intro s st en body hex
    obtain ⟨data, h⟩ := hex
    exact hok s st en body data h
  · intro s st en o hs
    cases o with
    | transport => exact hs
    | readFail status =>
      by_cases h2 : status ≠ 200
      · have heq : (s.get_appointments st en (.readFail status)).2 = s := by
          simp [Schedule.get_appointments, h2]
        rw [heq]
        exact hs
      · have heq : (s.get_appointments st en (.readFail status)).2 = s := by
          simp [Schedule.get_appointments, h2]
        rw [heq]
        exact hs
    | ok status body =>
      by_cases h2 : status ≠ 200
      · have heq : (s.get_appointments st en (.ok status body)).2 = s := by
          simp [Schedule.get_appointments, h2]
        rw [heq]
        exact hs
      · have h200 : status = 200 := by omega
        subst h200
        cases h3 : decodeAppointmentsBody (renameBody body) with
        | error e =>
          have heq : (s.get_appointments st en (.ok 200 body)).2 = s := by
            simp [Schedule.get_appointments, h3]
          rw [heq]
          exact hs
        | ok data => exact hok s st en body data h3

/-- C10 witness: from the demo state (a sorted one-element list), a failing
call keeps the list sorted and a successful two-record call returns a sorted
list. -/
theorem c10_invariant_witness :
    List.Pairwise (fun a b => sortKey a ≤ sortKey b)
      ((demoSchedule.get_appointments 0 1 .transport).2.appointments) ∧
    List.Pairwise (fun a b => sortKey a ≤ sortKey b)
      ((demoSchedule.get_appointments 0 1
        (.ok 200 "\x7b\"response\":\x7b\"data\":[\x7b\"id\":2,\"start\":4\x7d,\x7b\"id\":1\x7d]\x7d\x7d")).2.appointments) :=
  ⟨c10_sorted_invariant.2.2.2 demoSchedule 0 1 .transport (by decide),
    c10_sorted_invariant.2.2.1 demoSchedule 0 1 _
      ⟨[{ id := some 2, start := some 4 }, { id := some 1 }], by decide⟩⟩

end Zermelo
